import Mathlib

/-!
Verification of the deltafs PLFS-style indexed directory core
(src/src/libdeltafs/deltafs_plfsio_internal.cc) against its specification.

The development shallowly embeds the write path (write buffer, table
logger, directory logger), the binary on-disk format (varints, blocks,
handles, footer) and the read path (footer bootstrap, per-epoch fetch,
parallel merge).  Byte strings are lists of naturals; every byte the
embedding produces is below 256.  Machine integers that can overflow are
reduced modulo two to the word size at the points where the source
performs fixed-width arithmetic.

Parts of the repository that the claims depend on but whose sources are
not under src/ (the block builder and reader of deltafs_plfsio_format,
the bytewise comparator helpers and the coding utilities of pdlfs-common)
are modelled from the specification; each such definition carries a doc
comment that says so.
-/

set_option maxHeartbeats 1600000

namespace Plfsio

/-- Byte strings of the on-disk format, as lists of naturals below 256. -/
abbrev Bytes := List Nat

/-- Transcription of bytewise Slice comparison: memcmp on the common
length, then the shorter string compares below the longer one. -/
def byteCmp : Bytes → Bytes → Ordering
  | [], [] => .eq
  | [], _ :: _ => .lt
  | _ :: _, [] => .gt
  | a :: as, b :: bs =>
    if a < b then .lt
    else if b < a then .gt
    else byteCmp as bs

/-- Strict bytewise order. -/
def byteLt (a b : Bytes) : Prop := byteCmp a b = .lt

/-- Non-strict bytewise order. -/
def byteLe (a b : Bytes) : Prop := byteCmp a b ≠ .gt

instance : DecidablePred fun p : Bytes × Bytes => byteLt p.1 p.2 := by
  intro p; unfold byteLt; infer_instance

instance (a b : Bytes) : Decidable (byteLt a b) := by unfold byteLt; infer_instance

instance (a b : Bytes) : Decidable (byteLe a b) := by unfold byteLe; infer_instance

theorem byteCmp_self (a : Bytes) : byteCmp a a = .eq := by
  induction a with
  | nil => rfl
  | cons x xs ih => simp [byteCmp, ih]

theorem byteCmp_eq_iff : ∀ {a b : Bytes}, byteCmp a b = .eq ↔ a = b
  | [], [] => by simp [byteCmp]
  | [], _ :: _ => by simp [byteCmp]
  | _ :: _, [] => by simp [byteCmp]
  | a :: as, b :: bs => by
    by_cases h1 : a < b
    · simp [byteCmp, h1]; omega
    · by_cases h2 : b < a
      · simp [byteCmp, h1, h2]; omega
      · have hab : a = b := by omega
        simp [byteCmp, h1, h2, hab, @byteCmp_eq_iff as bs]

theorem byteCmp_swap : ∀ {a b : Bytes}, byteCmp a b = .lt ↔ byteCmp b a = .gt
  | [], [] => by simp [byteCmp]
  | [], _ :: _ => by simp [byteCmp]
  | _ :: _, [] => by simp [byteCmp]
  | a :: as, b :: bs => by
    by_cases h1 : a < b
    · have h2 : ¬ b < a := by omega
      simp [byteCmp, h1, h2]
    · by_cases h2 : b < a
      · simp [byteCmp, h1, h2]
      · simp [byteCmp, h1, h2, @byteCmp_swap as bs]

theorem byteCmp_nil_right_ne_lt (a : Bytes) : byteCmp a [] ≠ .lt := by
  cases a <;> simp [byteCmp]

theorem byteLt_trans {a : Bytes} : ∀ {b c : Bytes}, byteLt a b → byteLt b c → byteLt a c := by
  induction a with
  | nil =>
    intro b c _ hbc
    cases c with
    | nil => exact absurd hbc (byteCmp_nil_right_ne_lt b)
    | cons z zs => rw [byteLt, byteCmp]
  | cons x xs ih =>
    intro b c hab hbc
    cases b with
    | nil => exact absurd hab (byteCmp_nil_right_ne_lt _)
    | cons y ys =>
      cases c with
      | nil => exact absurd hbc (byteCmp_nil_right_ne_lt _)
      | cons z zs =>
        rw [byteLt, byteCmp] at hab hbc ⊢
        rcases Nat.lt_trichotomy x y with h1 | h1 | h1
        · rcases Nat.lt_trichotomy y z with h2 | h2 | h2
          · have h3 : x < z := Nat.lt_trans h1 h2
            simp [h3]
          · subst h2; simp [h1]
          · rw [if_neg (by omega), if_pos h2] at hbc; cases hbc
        · subst h1
          rw [if_neg (by omega), if_neg (by omega)] at hab
          rcases Nat.lt_trichotomy x z with h2 | h2 | h2
          · simp [h2]
          · subst h2
            rw [if_neg (by omega), if_neg (by omega)] at hbc
            rw [if_neg (by omega), if_neg (by omega)]
            exact ih hab hbc
          · rw [if_neg (by omega), if_pos h2] at hbc; cases hbc
        · rw [if_neg (by omega), if_pos h1] at hab; cases hab

theorem byteLe_iff {a b : Bytes} : byteLe a b ↔ byteLt a b ∨ a = b := by
  unfold byteLe byteLt
  cases h : byteCmp a b
  · simp
  · simp [byteCmp_eq_iff.1 h]
  · constructor
    · intro hc; exact absurd rfl hc
    · rintro (hc | hc)
      · cases hc
      · subst hc; rw [byteCmp_self] at h; cases h

theorem byteLe_refl (a : Bytes) : byteLe a a := byteLe_iff.2 (Or.inr rfl)

theorem byteLe_of_lt {a b : Bytes} (h : byteLt a b) : byteLe a b := byteLe_iff.2 (Or.inl h)

theorem byteLt_of_le_of_lt {a b c : Bytes} (h1 : byteLe a b) (h2 : byteLt b c) :
    byteLt a c := by
  rcases byteLe_iff.1 h1 with h | h
  · exact byteLt_trans h h2
  · subst h; exact h2

theorem byteLt_of_lt_of_le {a b c : Bytes} (h1 : byteLt a b) (h2 : byteLe b c) :
    byteLt a c := by
  rcases byteLe_iff.1 h2 with h | h
  · exact byteLt_trans h1 h
  · subst h; exact h1

theorem byteLe_trans {a b c : Bytes} (h1 : byteLe a b) (h2 : byteLe b c) :
    byteLe a c := by
  rcases byteLe_iff.1 h1 with h | h
  · exact byteLe_of_lt (byteLt_of_lt_of_le h h2)
  · subst h; exact h2

theorem byteLt_irrefl (a : Bytes) : ¬ byteLt a a := by
  unfold byteLt; rw [byteCmp_self]; intro h; cases h

theorem byteLt_ne {a b : Bytes} (h : byteLt a b) : a ≠ b := by
  intro he; subst he; exact byteLt_irrefl a h

theorem byteLt_asymm {a b : Bytes} (h : byteLt a b) : ¬ byteLt b a := by
  intro h2; exact byteLt_irrefl a (byteLt_trans h h2)

theorem byteCmp_total (a b : Bytes) :
    byteCmp a b = .lt ∨ byteCmp a b = .eq ∨ byteCmp a b = .gt := by
  cases byteCmp a b <;> simp

theorem byteLe_total (a b : Bytes) : byteLe a b ∨ byteLe b a := by
  unfold byteLe
  rcases byteCmp_total a b with h | h | h
  · left; simp [h]
  · left; simp [h]
  · right
    have hba : byteCmp b a = .lt := byteCmp_swap.mpr h
    simp [hba]

/-! Varint and fixed-width integer coding, transcribed from the
LEB128-style coding utilities the format uses (pdlfs-common coding,
absent from src, modelled from the specification: all integers are
little-endian; varints are LEB128-style unsigned). -/

/-- LEB128-style unsigned varint encoding, structured on fuel so that
the definition reduces in the kernel; the fuel never runs out because
the value shrinks by a factor of 128 per emitted byte. -/
def putVarintAux : Nat → Nat → Bytes
  | 0, n => [n % 128]
  | fuel + 1, n =>
    if n < 128 then [n]
    else (n % 128 + 128) :: putVarintAux fuel (n / 128)

/-- LEB128-style unsigned varint encoding. -/
def putVarint (n : Nat) : Bytes := putVarintAux n n

/-- Varint decoding; returns the value and the remaining bytes. -/
def getVarint : Bytes → Option (Nat × Bytes)
  | [] => none
  | b :: rest =>
    if b < 128 then some (b, rest)
    else
      match getVarint rest with
      | some (v, r) => some (v * 128 + (b - 128), r)
      | none => none

theorem getVarint_putVarintAux (fuel n : Nat) (hf : n ≤ fuel) (t : Bytes) :
    getVarint (putVarintAux fuel n ++ t) = some (n, t) := by
  induction fuel generalizing n with
  | zero =>
    have h0 : n = 0 := by omega
    subst h0
    simp [putVarintAux, getVarint]
  | succ fuel ih =>
    by_cases h : n < 128
    · simp [putVarintAux, getVarint, h]
    · rw [putVarintAux]
      simp only [h, if_false, List.cons_append]
      rw [getVarint]
      have h1 : ¬ n % 128 + 128 < 128 := by omega
      simp only [h1, if_false]
      have hd : n / 128 ≤ fuel := by
        have := Nat.div_lt_self (show 0 < n by omega) (show 1 < 128 by omega)
        omega
      rw [ih (n / 128) hd]
      simp only [Option.some.injEq, Prod.mk.injEq]
      refine ⟨?_, trivial⟩
      have hdm := Nat.div_add_mod n 128
      omega

theorem getVarint_putVarint (n : Nat) (t : Bytes) :
    getVarint (putVarint n ++ t) = some (n, t) :=
  getVarint_putVarintAux n n (Nat.le_refl n) t

theorem putVarint_ne_nil (n : Nat) : putVarint n ≠ [] := by
  unfold putVarint
  cases n with
  | zero => simp [putVarintAux]
  | succ m =>
    rw [putVarintAux]
    split <;> simp

theorem putVarint_length_pos (n : Nat) : 0 < (putVarint n).length := by
  cases h : putVarint n with
  | nil => exact absurd h (putVarint_ne_nil n)
  | cons a l => simp

theorem putVarintAux_lt_256 (fuel n : Nat) : ∀ b ∈ putVarintAux fuel n, b < 256 := by
  induction fuel generalizing n with
  | zero =>
    intro b hb
    simp [putVarintAux] at hb
    omega
  | succ fuel ih =>
    intro b hb
    rw [putVarintAux] at hb
    by_cases h : n < 128
    · simp [h] at hb; omega
    · simp only [h, if_false, List.mem_cons] at hb
      rcases hb with hb | hb
      · omega
      · exact ih (n / 128) b hb

theorem putVarint_lt_256 (n : Nat) : ∀ b ∈ putVarint n, b < 256 :=
  putVarintAux_lt_256 n n

/-- Fixed-width 32-bit little-endian encoding. -/
def putFixed32 (n : Nat) : Bytes :=
  [n % 256, n / 256 % 256, n / 65536 % 256, n / 16777216 % 256]

/-- Fixed-width 32-bit little-endian decoding of the first four bytes. -/
def getFixed32 : Bytes → Option (Nat × Bytes)
  | a :: b :: c :: d :: t => some (a + 256 * b + 65536 * c + 16777216 * d, t)
  | _ => none

theorem putFixed32_length (n : Nat) : (putFixed32 n).length = 4 := rfl

theorem getFixed32_putFixed32 (n : Nat) (h : n < 4294967296) (t : Bytes) :
    getFixed32 (putFixed32 n ++ t) = some (n, t) := by
  simp only [putFixed32, List.cons_append, List.nil_append, getFixed32,
    Option.some.injEq, Prod.mk.injEq]
  refine ⟨?_, trivial⟩
  have e1 : n / 65536 = n / 256 / 256 := by
    rw [Nat.div_div_eq_div_mul]
  have e2 : n / 16777216 = n / 256 / 256 / 256 := by
    rw [Nat.div_div_eq_div_mul, Nat.div_div_eq_div_mul]
  have h1 := Nat.div_add_mod n 256
  have h2 := Nat.div_add_mod (n / 256) 256
  have h3 := Nat.div_add_mod (n / 256 / 256) 256
  have h4 : n / 256 / 256 / 256 < 256 := by
    rw [Nat.div_div_eq_div_mul, Nat.div_div_eq_div_mul]
    omega
  have h5 : n / 256 / 256 / 256 % 256 = n / 256 / 256 / 256 := Nat.mod_eq_of_lt h4
  rw [e1, e2, h5]
  omega

/-- Fixed-width 32-bit big-endian encoding, used by the canonical epoch
key so that the bytewise order matches the numeric order. -/
def putFixed32BE (n : Nat) : Bytes :=
  [n / 16777216 % 256, n / 65536 % 256, n / 256 % 256, n % 256]

/-- Length-prefixed byte string encoding. -/
def putLenPrefixed (s : Bytes) : Bytes := putVarint s.length ++ s

/-- Length-prefixed byte string decoding; fails when fewer bytes remain
than the prefix announces. -/
def getLenPrefixed (b : Bytes) : Option (Bytes × Bytes) :=
  match getVarint b with
  | some (n, rest) =>
    if n ≤ rest.length then some (rest.take n, rest.drop n) else none
  | none => none

theorem getLenPrefixed_putLenPrefixed (s : Bytes) (t : Bytes) :
    getLenPrefixed (putLenPrefixed s ++ t) = some (s, t) := by
  unfold getLenPrefixed putLenPrefixed
  rw [List.append_assoc, getVarint_putVarint]
  simp [List.take_append_of_le_length, List.drop_append_of_le_length]

/-! CRC32C with the standard mask, modelled from the specification
(pdlfs-common crc32c is absent from src): the mask is
((c >> 15) | (c << 17)) + 0xa282ead8 in 32-bit arithmetic. -/

/-- One bit step of the reflected CRC32C polynomial division. -/
def crc32cRound (c : Nat) : Nat :=
  if c % 2 = 1 then (c / 2) ^^^ 0x82f63b78 else c / 2

/-- Fold one input byte into a CRC32C accumulator. -/
def crc32cByte (c b : Nat) : Nat :=
  crc32cRound (crc32cRound (crc32cRound (crc32cRound
    (crc32cRound (crc32cRound (crc32cRound (crc32cRound (c ^^^ b))))))))

/-- CRC32C of a byte string. -/
def crc32cValue (l : Bytes) : Nat :=
  (l.foldl crc32cByte 0xffffffff) ^^^ 0xffffffff

/-- The standard CRC mask used by the block trailers. -/
def crcMask (c : Nat) : Nat :=
  ((c / 32768 + c % 4294967296 * 131072) % 4294967296 + 0xa282ead8) % 4294967296

/-- Undo the CRC mask. -/
def crcUnmask (m : Nat) : Nat :=
  let rot := (m + 4294967296 - 0xa282ead8 % 4294967296) % 4294967296
  (rot / 131072 + rot * 32768) % 4294967296

/-- Size of a block trailer: one compression byte and a 32-bit CRC. -/
def kBlockTrailerSize : Nat := 5

/-! Block builder and block decoding.  The block builder of
deltafs_plfsio_format is absent from src and is modelled from the
specification: entries are length-prefix encoded with a shared-prefix
length against the previous key, every restart-interval-th entry is a
restart recorded by absolute offset in a trailing 32-bit little-endian
restart array terminated by its length; Finish returns the body,
Finalize appends the trailer (compression byte plus masked CRC32C over
body and compression byte) and optionally right-pads with zeros to a
multiple of the requested size.  The builder writes into a shared buffer
store so that several finalized data blocks can accumulate between
commits, exactly as TableLogger (in src) relies on. -/

/-- Length of the longest common prefix of two byte strings. -/
def sharedLen : Bytes → Bytes → Nat
  | a :: as, b :: bs => if a = b then sharedLen as bs + 1 else 0
  | _, _ => 0

theorem sharedLen_le_left : ∀ (a b : Bytes), sharedLen a b ≤ a.length
  | [], _ => by simp [sharedLen]
  | _ :: _, [] => by simp [sharedLen]
  | a :: as, b :: bs => by
    by_cases h : a = b
    · simp only [sharedLen, h, if_true, List.length_cons]
      exact Nat.succ_le_succ (sharedLen_le_left as bs)
    · simp [sharedLen, h]

theorem sharedLen_take : ∀ (a b : Bytes), b.take (sharedLen a b) = a.take (sharedLen a b)
  | [], b => by simp [sharedLen]
  | _ :: _, [] => by simp [sharedLen]
  | a :: as, b :: bs => by
    by_cases h : a = b
    · subst h
      simp only [sharedLen, if_true, List.take_succ_cons, List.cons.injEq, true_and]
      exact sharedLen_take as bs
    · simp [sharedLen, h]

/-- Encoding of one block entry given the shared-prefix length. -/
def entryEncode (shared : Nat) (key value : Bytes) : Bytes :=
  putVarint shared ++ putVarint (key.length - shared) ++ putVarint value.length ++
    key.drop shared ++ value

/-- Block builder state.  The store may hold previously finalized blocks;
the current block occupies the store from blockStart on. -/
structure BlockBuilder where
  restartInterval : Nat
  store : Bytes
  blockStart : Nat
  restarts : List Nat
  counter : Nat
  lastKey : Bytes
  finished : Bool
deriving DecidableEq

/-- Fresh block builder with an empty store. -/
def BlockBuilder.create (interval : Nat) : BlockBuilder :=
  ⟨interval, [], 0, [0], 0, [], false⟩

/-- Whether the current block holds no entries. -/
def BlockBuilder.empty (b : BlockBuilder) : Bool :=
  b.store.length == b.blockStart

/-- Add one key/value entry to the current block. -/
def BlockBuilder.add (b : BlockBuilder) (key value : Bytes) : BlockBuilder :=
  if b.counter < b.restartInterval then
    { b with
      store := b.store ++ entryEncode (sharedLen b.lastKey key) key value,
      counter := b.counter + 1,
      lastKey := key }
  else
    { b with
      store := b.store ++ entryEncode 0 key value,
      restarts := b.restarts ++ [b.store.length - b.blockStart],
      counter := 1,
      lastKey := key }

/-- Finish the current block: append the restart array and return the
block body. -/
def BlockBuilder.finish (b : BlockBuilder) : Bytes × BlockBuilder :=
  let store := b.store ++ (b.restarts.map putFixed32).flatten ++
    putFixed32 b.restarts.length
  (store.drop b.blockStart, { b with store := store, finished := true })

/-- Finalize the current block: append the five-byte trailer and, when a
pad size is given, right-pad with zeros so the final block size is a
multiple of it; return the final block contents. -/
def BlockBuilder.finalize (b : BlockBuilder) (crc : Bool) (padTo : Option Nat) :
    Bytes × BlockBuilder :=
  let body := b.store.drop b.blockStart
  let crcBytes :=
    if crc then putFixed32 (crcMask (crc32cValue (body ++ [0]))) else putFixed32 0
  let store1 := b.store ++ 0 :: crcBytes
  let store2 :=
    match padTo with
    | some p =>
      if p = 0 then store1
      else store1 ++ List.replicate ((p - (store1.length - b.blockStart) % p) % p) 0
    | none => store1
  (store2.drop b.blockStart, { b with store := store2 })

/-- Size estimate of the current block: raw entries plus the restart
array it would take to finish now. -/
def BlockBuilder.currentSizeEstimate (b : BlockBuilder) : Nat :=
  (b.store.length - b.blockStart) + 4 * b.restarts.length + 4

/-- Start a new block at the end of the store. -/
def BlockBuilder.reset (b : BlockBuilder) : BlockBuilder :=
  { b with blockStart := b.store.length, restarts := [0], counter := 0,
           lastKey := [], finished := false }

/-- Clear the store entirely and start fresh, as the data path does right
after committing the store to the data sink. -/
def BlockBuilder.clearReset (b : BlockBuilder) : BlockBuilder :=
  { b with store := [], blockStart := 0, restarts := [0], counter := 0,
           lastKey := [], finished := false }

/-- Decode the entry region of a block, resolving shared prefixes against
the previously decoded key. -/
def decodeEntries : Nat → Bytes → Bytes → Option (List (Bytes × Bytes))
  | _, [], _ => some []
  | 0, _ :: _, _ => none
  | fuel + 1, data@(_ :: _), prev =>
    match getVarint data with
    | none => none
    | some (shared, r1) =>
      match getVarint r1 with
      | none => none
      | some (nonShared, r2) =>
        match getVarint r2 with
        | none => none
        | some (vlen, r3) =>
          if shared ≤ prev.length ∧ nonShared + vlen ≤ r3.length then
            let key := prev.take shared ++ r3.take nonShared
            let rest := r3.drop nonShared
            let value := rest.take vlen
            match decodeEntries fuel (rest.drop vlen) key with
            | some es => some ((key, value) :: es)
            | none => none
          else none

/-- Decode a block body (entries followed by the restart array) into its
entry list.  Modelled from the specification of the block reader, which
is absent from src. -/
def decodeBlock (contents : Bytes) : Option (List (Bytes × Bytes)) :=
  if contents.length < 4 then none
  else
    match getFixed32 (contents.drop (contents.length - 4)) with
    | none => none
    | some (numRestarts, _) =>
      if 4 * numRestarts + 4 ≤ contents.length then
        decodeEntries contents.length
          (contents.take (contents.length - 4 - 4 * numRestarts)) []
      else none

/-- Index of the first entry whose key is at least the target; equals the
number of entries when every key is below the target.  Modelled from the
specification of the block reader Seek (binary search over the restart
points then linear scan), which on the sorted blocks this writer produces
positions the iterator at exactly this entry. -/
def seekIdx (entries : List (Bytes × Bytes)) (target : Bytes) : Nat :=
  entries.findIdx fun e => !(byteCmp e.1 target == .lt)

/-- Block iterator: the decoded entries and a cursor. -/
structure BlockIter where
  entries : List (Bytes × Bytes)
  pos : Nat
deriving DecidableEq

/-- Fresh iterator; not yet positioned, hence invalid. -/
def BlockIter.fresh (entries : List (Bytes × Bytes)) : BlockIter :=
  ⟨entries, entries.length⟩

def BlockIter.valid (it : BlockIter) : Bool := it.pos < it.entries.length

def BlockIter.key (it : BlockIter) : Bytes := ((it.entries.getD it.pos ([], []))).1

def BlockIter.value (it : BlockIter) : Bytes := ((it.entries.getD it.pos ([], []))).2

def BlockIter.next (it : BlockIter) : BlockIter := { it with pos := it.pos + 1 }

def BlockIter.seek (it : BlockIter) (target : Bytes) : BlockIter :=
  { it with pos := seekIdx it.entries target }

/-! Handles, footer and the epoch key, modelled from the specification
(deltafs_plfsio_format is absent from src): a BlockHandle is two varints,
a TableHandle additionally carries the filter offset and size and the two
length-prefixed key bounds, the footer is a fixed-width record of the
epoch index handle (padded to the maximal handle encoding), the epoch
count and a magic tag, and the epoch key encodes epoch and table ids as
fixed-width big-endian integers so the bytewise order is the numeric
order. -/

structure BlockHandle where
  offset : Nat
  size : Nat
deriving DecidableEq

def BlockHandle.encodeTo (h : BlockHandle) : Bytes :=
  putVarint h.offset ++ putVarint h.size

def BlockHandle.decodeFrom (b : Bytes) : Option (BlockHandle × Bytes) :=
  match getVarint b with
  | none => none
  | some (off, r1) =>
    match getVarint r1 with
    | none => none
    | some (sz, r2) => some (⟨off, sz⟩, r2)

theorem blockHandle_roundtrip (h : BlockHandle) (t : Bytes) :
    BlockHandle.decodeFrom (h.encodeTo ++ t) = some (h, t) := by
  simp [BlockHandle.decodeFrom, BlockHandle.encodeTo, List.append_assoc,
    getVarint_putVarint]

structure TableHandle where
  filterOffset : Nat
  filterSize : Nat
  offset : Nat
  size : Nat
  smallestKey : Bytes
  largestKey : Bytes
deriving DecidableEq

def TableHandle.encodeTo (h : TableHandle) : Bytes :=
  putVarint h.filterOffset ++ putVarint h.filterSize ++
  putVarint h.offset ++ putVarint h.size ++
  putLenPrefixed h.smallestKey ++ putLenPrefixed h.largestKey

def TableHandle.decodeFrom (b : Bytes) : Option (TableHandle × Bytes) :=
  match getVarint b with
  | none => none
  | some (fo, r1) =>
    match getVarint r1 with
    | none => none
    | some (fs, r2) =>
      match getVarint r2 with
      | none => none
      | some (off, r3) =>
        match getVarint r3 with
        | none => none
        | some (sz, r4) =>
          match getLenPrefixed r4 with
          | none => none
          | some (sk, r5) =>
            match getLenPrefixed r5 with
            | none => none
            | some (lk, r6) => some (⟨fo, fs, off, sz, sk, lk⟩, r6)

theorem tableHandle_roundtrip (h : TableHandle) (t : Bytes) :
    TableHandle.decodeFrom (h.encodeTo ++ t) = some (h, t) := by
  simp [TableHandle.decodeFrom, TableHandle.encodeTo, List.append_assoc,
    getVarint_putVarint, getLenPrefixed_putLenPrefixed]

/-- Canonical epoch key, sorting by epoch then table. -/
def epochKey (epoch table : Nat) : Bytes :=
  putFixed32BE epoch ++ putFixed32BE table

/-- Fixed footer encoding length: maximal handle encoding, the 32-bit
epoch count and an eight-byte magic tag. -/
def footerEncodeLength : Nat := 32

/-- Magic tag terminating the footer. -/
def footerMagic : Bytes := [0xb0, 0x1d, 0xfa, 0xce, 0xca, 0xfe, 0xd0, 0x0d]

structure Footer where
  epochIndexHandle : BlockHandle
  numEpoches : Nat
deriving DecidableEq

/-- Encode the footer: the padded handle, the epoch count and the magic. -/
def Footer.encodeTo (f : Footer) : Bytes :=
  let he := f.epochIndexHandle.encodeTo
  (he ++ List.replicate (20 - he.length) 0).take 20 ++
    putFixed32 f.numEpoches ++ footerMagic

/-- Decode a footer from exactly footerEncodeLength bytes. -/
def Footer.decodeFrom (b : Bytes) : Option Footer :=
  if b.length = footerEncodeLength ∧ b.drop 24 = footerMagic then
    match BlockHandle.decodeFrom (b.take 20) with
    | none => none
    | some (h, _) =>
      match getFixed32 (b.drop 20) with
      | none => none
      | some (n, _) => some ⟨h, n⟩
  else none

theorem footer_encode_length (f : Footer)
    (ho : f.epochIndexHandle.encodeTo.length ≤ 20) :
    f.encodeTo.length = footerEncodeLength := by
  unfold Footer.encodeTo footerEncodeLength
  simp only [List.length_append, List.length_take, List.length_replicate]
  have : (putFixed32 f.numEpoches).length = 4 := putFixed32_length _
  rw [this]
  unfold footerMagic
  simp
  omega

/-! Bloom filter block, transcribed from BloomBlock and BloomKeyMayMatch
in src.  A key enters the filter only through its 32-bit hash
h = Hash(key, 0xbc9f1d34) (pdlfs-common Hash is absent from src), so the
functions below take that hash value directly; both the writer and the
reader expand it by the same double-hashing recurrence. -/

/-- Rotate-right-17 of a 32-bit hash, the double-hashing delta. -/
def bloomDelta (h : Nat) : Nat := (h / 131072) ||| (h * 32768 % 4294967296)

structure BloomBlock where
  bitsPerKey : Nat
  bytes : Nat
  finished : Bool
  space : Bytes
  bits : Nat
  k : Nat
deriving DecidableEq

/-- Probe count chosen by BloomBlock Reset.  The source computes
static_cast of bits_per_key times 0.69 to uint32, which truncates; for
every bits_per_key the double product lies either more than one
hundredth away from an integer (bits_per_key at most 43, where
69 times bits_per_key is never a multiple of 100) or beyond the clamp at
30, so the truncation agrees with the exact 69 * bitsPerKey / 100. -/
def bloomProbes (bitsPerKey : Nat) : Nat :=
  min 30 (max 1 (bitsPerKey * 69 / 100))

/-- Transcription of BloomBlock Reset. -/
def BloomBlock.reset (b : BloomBlock) : BloomBlock :=
  { b with finished := false,
           space := List.replicate b.bytes 0 ++ [bloomProbes b.bitsPerKey],
           k := bloomProbes b.bitsPerKey,
           bits := 8 * b.bytes }

/-- Transcription of the BloomBlock constructor. -/
def BloomBlock.create (bitsPerKey bytes : Nat) : BloomBlock :=
  BloomBlock.reset ⟨bitsPerKey, bytes, false, [], 0, 0⟩

/-- Set one bit of the byte array, by bit position. -/
def setBitAt (space : Bytes) (pos : Nat) : Bytes :=
  space.set (pos / 8) ((space.getD (pos / 8) 0) ||| (1 <<< (pos % 8)))

/-- The probe loop of AddKey: k double-hashed probes, each setting one bit. -/
def bloomSetBits : Nat → Nat → Nat → Nat → Bytes → Bytes
  | 0, _, _, _, space => space
  | j + 1, h, delta, bits, space =>
    bloomSetBits j ((h + delta) % 4294967296) delta bits (setBitAt space (h % bits))

/-- Transcription of BloomBlock AddKey on the hash of the key. -/
def BloomBlock.addKey (b : BloomBlock) (h : Nat) : BloomBlock :=
  { b with space := bloomSetBits b.k h (bloomDelta h) b.bits b.space }

def BloomBlock.addKeys (b : BloomBlock) (hs : List Nat) : BloomBlock :=
  hs.foldl BloomBlock.addKey b

/-- Transcription of BloomBlock Finish: return the encoded filter. -/
def BloomBlock.finish (b : BloomBlock) : Bytes × BloomBlock :=
  (b.space, { b with finished := true })

/-- Transcription of BloomBlock Finalize: append the block trailer. -/
def BloomBlock.finalize (b : BloomBlock) (crc : Bool) : Bytes × BloomBlock :=
  let crcBytes :=
    if crc then putFixed32 (crcMask (crc32cValue (b.space ++ [0]))) else putFixed32 0
  let space := b.space ++ 0 :: crcBytes
  (space, { b with space := space })

/-- The probe loop of BloomKeyMayMatch. -/
def bloomTestLoop : Nat → Nat → Nat → Nat → Bytes → Bool
  | 0, _, _, _, _ => true
  | j + 1, h, delta, bits, arr =>
    if (arr.getD (h % bits / 8) 0) &&& (1 <<< (h % bits % 8)) == 0 then false
    else bloomTestLoop j ((h + delta) % 4294967296) delta bits arr

/-- Transcription of BloomKeyMayMatch from src, on the hash of the key. -/
def bloomKeyMayMatch (h : Nat) (input : Bytes) : Bool :=
  if input.length < 2 then true
  else
    let bits := (input.length - 1) * 8
    let k := input.getD (input.length - 1) 0
    if k > 30 then true
    else bloomTestLoop k h (bloomDelta h) bits input

/-- The bit positions probed for hash h with k probes. -/
def probePositions (bits : Nat) : Nat → Nat → Nat → List Nat
  | 0, _, _ => []
  | j + 1, h, delta => (h % bits) :: probePositions bits j ((h + delta) % 4294967296) delta

/-- Whether the bit at the given position is set in the byte array. -/
def hasBit (arr : Bytes) (pos : Nat) : Prop :=
  Nat.testBit (arr.getD (pos / 8) 0) (pos % 8)

theorem bloomTestLoop_eq_true {bits : Nat} :
    ∀ (k h delta : Nat) (arr : Bytes),
      (∀ p ∈ probePositions bits k h delta, hasBit arr p) →
      bloomTestLoop k h delta bits arr = true := by
  intro k
  induction k with
  | zero => intro h delta arr _; rfl
  | succ j ih =>
    intro h delta arr hall
    rw [bloomTestLoop]
    have hp : hasBit arr (h % bits) := by
      apply hall
      rw [probePositions]
      exact List.mem_cons_self _ _
    have hne : (arr.getD (h % bits / 8) 0) &&& (1 <<< (h % bits % 8)) ≠ 0 := by
      rw [Nat.shiftLeft_eq, one_mul, Nat.and_two_pow]
      unfold hasBit at hp
      rw [List.getD_eq_getElem?_getD] at hp
      simp [hp, List.getD_eq_getElem?_getD]
    simp only [beq_iff_eq, hne, if_false]
    apply ih
    intro p hmem
    apply hall
    rw [probePositions]
    exact List.mem_cons_of_mem _ hmem

theorem setBitAt_length (arr : Bytes) (pos : Nat) :
    (setBitAt arr pos).length = arr.length := by
  unfold setBitAt; exact List.length_set _ _ _

theorem hasBit_setBitAt_self {arr : Bytes} {pos : Nat} (h : pos / 8 < arr.length) :
    hasBit (setBitAt arr pos) pos := by
  unfold hasBit setBitAt
  have : ((arr.set (pos / 8) ((arr.getD (pos / 8) 0) ||| (1 <<< (pos % 8)))).getD (pos / 8) 0)
      = (arr.getD (pos / 8) 0) ||| (1 <<< (pos % 8)) := by
    simp [List.getD, List.getElem?_set_self, h]
  rw [this, Nat.shiftLeft_eq, one_mul, Nat.testBit_or, Nat.testBit_two_pow_self]
  simp

theorem hasBit_setBitAt_mono {arr : Bytes} {pos q : Nat} (hq : hasBit arr q) :
    hasBit (setBitAt arr pos) q := by
  unfold hasBit setBitAt at *
  by_cases he : pos / 8 = q / 8
  · by_cases hl : pos / 8 < arr.length
    · have : ((arr.set (pos / 8) ((arr.getD (pos / 8) 0) ||| (1 <<< (pos % 8)))).getD (q / 8) 0)
          = (arr.getD (pos / 8) 0) ||| (1 <<< (pos % 8)) := by
        rw [← he]
        simp [List.getD, List.getElem?_set_self, hl]
      rw [this, Nat.testBit_or, he]
      simp only [hq, Bool.true_or]
    · rw [List.set_eq_of_length_le (by omega)]
      exact hq
  · have : ((arr.set (pos / 8) ((arr.getD (pos / 8) 0) ||| (1 <<< (pos % 8)))).getD (q / 8) 0)
        = arr.getD (q / 8) 0 := by
      simp [List.getD, List.getElem?_set_ne he]
    rw [this]
    exact hq

theorem setBitAt_getD_ne {arr : Bytes} {pos i : Nat} (h : pos / 8 ≠ i) (d : Nat) :
    (setBitAt arr pos).getD i d = arr.getD i d := by
  unfold setBitAt
  simp [List.getD, List.getElem?_set_ne h]

theorem bloomSetBits_length :
    ∀ (k h delta bits : Nat) (arr : Bytes),
      (bloomSetBits k h delta bits arr).length = arr.length := by
  intro k
  induction k with
  | zero => intro h delta bits arr; rfl
  | succ j ih =>
    intro h delta bits arr
    rw [bloomSetBits, ih, setBitAt_length]

theorem bloomSetBits_mono :
    ∀ (k h delta bits : Nat) (arr : Bytes) {q}, hasBit arr q →
      hasBit (bloomSetBits k h delta bits arr) q := by
  intro k
  induction k with
  | zero => intro h delta bits arr q hq; exact hq
  | succ j ih =>
    intro h delta bits arr q hq
    rw [bloomSetBits]
    exact ih _ _ _ _ (hasBit_setBitAt_mono hq)

theorem bloomSetBits_sets :
    ∀ (k h delta bits : Nat) (arr : Bytes),
      (∀ p ∈ probePositions bits k h delta, p / 8 < arr.length) →
      ∀ p ∈ probePositions bits k h delta, hasBit (bloomSetBits k h delta bits arr) p := by
  intro k
  induction k with
  | zero =>
    intro h delta bits arr _ p hp
    rw [probePositions] at hp
    cases hp
  | succ j ih =>
    intro h delta bits arr hlen p hp
    rw [probePositions] at hp hlen
    rw [bloomSetBits]
    rcases List.mem_cons.1 hp with hp | hp
    · subst hp
      apply bloomSetBits_mono
      exact hasBit_setBitAt_self (hlen _ (List.mem_cons_self _ _))
    · apply ih
      · intro p2 hp2
        rw [setBitAt_length]
        exact hlen _ (List.mem_cons_of_mem _ hp2)
      · exact hp

theorem probePositions_lt {bits : Nat} (hb : 0 < bits) :
    ∀ (k h delta : Nat), ∀ p ∈ probePositions bits k h delta, p < bits := by
  intro k
  induction k with
  | zero => intro h delta p hp; rw [probePositions] at hp; cases hp
  | succ j ih =>
    intro h delta p hp
    rw [probePositions] at hp
    rcases List.mem_cons.1 hp with hp | hp
    · subst hp; exact Nat.mod_lt _ hb
    · exact ih _ _ _ hp

theorem bloomSetBits_getD_last {k h delta bits : Nat} {arr : Bytes} {i : Nat}
    (hb : 0 < bits) (hi : bits ≤ 8 * i) (d : Nat) :
    (bloomSetBits k h delta bits arr).getD i d = arr.getD i d := by
  induction k generalizing h arr with
  | zero => rfl
  | succ j ih =>
    rw [bloomSetBits, ih]
    apply setBitAt_getD_ne
    have : h % bits < bits := Nat.mod_lt _ hb
    omega

/-- State fields other than the bit array are unchanged by addKeys. -/
theorem addKeys_fields (b : BloomBlock) (hs : List Nat) :
    (b.addKeys hs).k = b.k ∧ (b.addKeys hs).bits = b.bits ∧
    (b.addKeys hs).bytes = b.bytes ∧ (b.addKeys hs).bitsPerKey = b.bitsPerKey ∧
    (b.addKeys hs).space.length = b.space.length := by
  induction hs generalizing b with
  | nil => exact ⟨rfl, rfl, rfl, rfl, rfl⟩
  | cons x xs ih =>
    have h2 := ih (b.addKey x)
    unfold BloomBlock.addKeys at h2 ⊢
    simp only [List.foldl_cons]
    refine ⟨h2.1, h2.2.1, h2.2.2.1, h2.2.2.2.1, ?_⟩
    rw [h2.2.2.2.2]
    unfold BloomBlock.addKey
    simp [bloomSetBits_length]

theorem addKeys_mono (b : BloomBlock) (hs : List Nat) {q : Nat}
    (hq : hasBit b.space q) : hasBit (b.addKeys hs).space q := by
  induction hs generalizing b with
  | nil => exact hq
  | cons x xs ih =>
    unfold BloomBlock.addKeys
    simp only [List.foldl_cons]
    exact ih (b.addKey x) (bloomSetBits_mono _ _ _ _ _ hq)

theorem addKeys_getD : ∀ (hs : List Nat) (b : BloomBlock) {i : Nat},
    0 < b.bits → b.bits ≤ 8 * i → ∀ d : Nat,
      (b.addKeys hs).space.getD i d = b.space.getD i d
  | [], _, _, _, _, _ => rfl
  | x :: xs, b, i, hb, hi, d => by
    have h1 : (b.addKey x).bits = b.bits := rfl
    have step := @addKeys_getD xs (b.addKey x) i (h1 ▸ hb) (h1 ▸ hi) d
    unfold BloomBlock.addKeys at step ⊢
    simp only [List.foldl_cons]
    rw [step]
    exact bloomSetBits_getD_last hb hi d

theorem bloomProbes_le_30 (bitsPerKey : Nat) : bloomProbes bitsPerKey ≤ 30 :=
  Nat.min_le_left _ _

theorem bloomProbes_lt_256 (bitsPerKey : Nat) : bloomProbes bitsPerKey < 256 := by
  have := bloomProbes_le_30 bitsPerKey
  omega

/-- C6: for every key added to a bloom filter block via AddKey, a
subsequent BloomKeyMayMatch lookup of that key against the encoded
filter contents returns true, whatever other keys were added before or
after, for any positive filter byte size and any bits_per_key setting.
The key is represented by its 32-bit hash, the only way keys enter the
filter. -/
theorem C6_filter_no_false_negative (bitsPerKey bytes : Nat) (hbytes : 0 < bytes)
    (pre post : List Nat) (h : Nat) :
    bloomKeyMayMatch h
      (((BloomBlock.create bitsPerKey bytes).addKeys (pre ++ h :: post)).finish.1) = true := by
  have hk : (BloomBlock.create bitsPerKey bytes).k = bloomProbes bitsPerKey := rfl
  have hbits : (BloomBlock.create bitsPerKey bytes).bits = 8 * bytes := rfl
  have hspace : (BloomBlock.create bitsPerKey bytes).space
      = List.replicate bytes 0 ++ [bloomProbes bitsPerKey] := rfl
  have hlen : (BloomBlock.create bitsPerKey bytes).space.length = bytes + 1 := by
    rw [hspace]; simp
  have hffields := addKeys_fields (BloomBlock.create bitsPerKey bytes) (pre ++ h :: post)
  have hflen :
      ((BloomBlock.create bitsPerKey bytes).addKeys (pre ++ h :: post)).space.length
        = bytes + 1 := by
    rw [hffields.2.2.2.2, hlen]
  have hkbyte :
      ((BloomBlock.create bitsPerKey bytes).addKeys (pre ++ h :: post)).space.getD bytes 0
        = bloomProbes bitsPerKey := by
    rw [addKeys_getD _ _ (by rw [hbits]; omega) (by rw [hbits]) 0, hspace]
    rw [List.getD_append_right _ _ _ _ (by simp)]
    simp [List.getD]
  have hfinish :
      (((BloomBlock.create bitsPerKey bytes).addKeys (pre ++ h :: post)).finish.1)
        = ((BloomBlock.create bitsPerKey bytes).addKeys (pre ++ h :: post)).space := rfl
  rw [hfinish]
  unfold bloomKeyMayMatch
  rw [hflen]
  rw [if_neg (by omega)]
  simp only [Nat.add_sub_cancel]
  rw [hkbyte, if_neg (by have := bloomProbes_le_30 bitsPerKey; omega)]
  rw [Nat.mul_comm bytes 8]
  have hsplit : (BloomBlock.create bitsPerKey bytes).addKeys (pre ++ h :: post)
      = (((BloomBlock.create bitsPerKey bytes).addKeys pre).addKey h).addKeys post := by
    unfold BloomBlock.addKeys
    rw [List.foldl_append, List.foldl_cons]
  apply bloomTestLoop_eq_true
  intro p hp
  rw [hsplit]
  apply addKeys_mono
  have hpre := addKeys_fields (BloomBlock.create bitsPerKey bytes) pre
  show hasBit (((BloomBlock.create bitsPerKey bytes).addKeys pre).addKey h).space p
  unfold BloomBlock.addKey
  apply bloomSetBits_sets
  · intro p2 hp2
    have hlt := @probePositions_lt
      (((BloomBlock.create bitsPerKey bytes).addKeys pre).bits)
      (by rw [hpre.2.1, hbits]; omega) _ _ _ _ hp2
    rw [hpre.2.2.2.2, hlen]
    rw [hpre.2.1, hbits] at hlt
    omega
  · rw [hpre.1, hk, hpre.2.1, hbits]
    exact hp

/-- Closed witness for C6 at a concrete filter configuration. -/
theorem C6_filter_no_false_negative_witness :
    0 < 2 ∧ bloomKeyMayMatch 77
      (((BloomBlock.create 10 2).addKeys ([5] ++ 77 :: [123])).finish.1) = true :=
  ⟨by decide, C6_filter_no_false_negative 10 2 (by decide) [5] [123] 77⟩

/-- C4 counterexample: at bits_per_key = 10 the builder uses 6 probes
per key (it truncates bits_per_key times 0.69), while the claimed
formula max(1, min(30, round(bits_per_key times ln 2))) gives 7. -/
theorem C4_probe_count_counterexample :
    bloomProbes 10 = 6 ∧
    max 1 (min 30 (round ((10 : ℝ) * Real.log 2))) = 7 ∧
    (bloomProbes 10 : ℤ) ≠ max 1 (min 30 (round ((10 : ℝ) * Real.log 2))) := by
  have hround : round ((10 : ℝ) * Real.log 2) = 7 := by
    have h1 := Real.log_two_gt_d9
    have h2 := Real.log_two_lt_d9
    rw [round_eq]
    have h4 : 10 * Real.log 2 + 1 / 2 < 8 := by nlinarith
    have h7 : (7 : ℝ) ≤ 10 * Real.log 2 + 1 / 2 := by nlinarith
    exact_mod_cast Int.floor_eq_iff.mpr ⟨by exact_mod_cast h7, by exact_mod_cast h4⟩
  refine ⟨by decide, by rw [hround]; decide, ?_⟩
  rw [hround]
  decide

/-- C4 amended: the probe count is max(1, min(30, floor of
bits_per_key times 0.69)) - the code rounds the product down, it does
not round ln 2 to nearest - and this count is stored as the last byte
of the encoded filter, surviving any sequence of AddKey calls. -/
theorem C4_probe_count_amended (bitsPerKey bytes : Nat) (hbytes : 0 < bytes)
    (hs : List Nat) :
    (((BloomBlock.create bitsPerKey bytes).addKeys hs).finish.1).getD
        ((((BloomBlock.create bitsPerKey bytes).addKeys hs).finish.1).length - 1) 0
      = min 30 (max 1 (bitsPerKey * 69 / 100)) := by
  have hbits : (BloomBlock.create bitsPerKey bytes).bits = 8 * bytes := rfl
  have hspace : (BloomBlock.create bitsPerKey bytes).space
      = List.replicate bytes 0 ++ [bloomProbes bitsPerKey] := rfl
  have hlen : (BloomBlock.create bitsPerKey bytes).space.length = bytes + 1 := by
    rw [hspace]; simp
  have hffields := addKeys_fields (BloomBlock.create bitsPerKey bytes) hs
  have hfinish : (((BloomBlock.create bitsPerKey bytes).addKeys hs).finish.1)
      = ((BloomBlock.create bitsPerKey bytes).addKeys hs).space := rfl
  rw [hfinish, hffields.2.2.2.2, hlen]
  simp only [Nat.add_sub_cancel]
  rw [addKeys_getD _ _ (by rw [hbits]; omega) (by rw [hbits]) 0, hspace]
  rw [List.getD_append_right _ _ _ _ (by simp)]
  simp [List.getD, bloomProbes]

/-- Closed witness for the amended C4 at a concrete configuration. -/
theorem C4_probe_count_amended_witness :
    0 < 2 ∧ (((BloomBlock.create 10 2).addKeys [7, 9]).finish.1).getD
        ((((BloomBlock.create 10 2).addKeys [7, 9]).finish.1).length - 1) 0
      = min 30 (max 1 (10 * 69 / 100)) :=
  ⟨by decide, C4_probe_count_amended 10 2 (by decide) [7, 9]⟩

/-! Bytewise comparator helpers FindShortestSeparator and
FindShortSuccessor of the leveldb-style bytewise comparator
(pdlfs-common, absent from src), modelled from the specification: the
separator is a short key s with last at most s and s below next where
such a key exists; where no shortening applies the key is left
unchanged, and the short successor increments the first byte below 255
and truncates there, leaving an all-255 key unchanged. -/

def findShortestSeparator (start limit : Bytes) : Bytes :=
  let d := sharedLen start limit
  if min start.length limit.length ≤ d then start
  else
    let b := start.getD d 0
    if b < 255 ∧ b + 1 < limit.getD d 0 then start.take d ++ [b + 1]
    else start

def findShortSuccessor : Bytes → Bytes
  | [] => []
  | b :: rest => if b < 255 then [b + 1] else b :: findShortSuccessor rest

theorem sharedLen_self (a : Bytes) : sharedLen a a = a.length := by
  induction a with
  | nil => rfl
  | cons x xs ih => simp [sharedLen, ih]

theorem byteCmp_append_same (p : Bytes) (a b : Bytes) :
    byteCmp (p ++ a) (p ++ b) = byteCmp a b := by
  induction p with
  | nil => rfl
  | cons x xs ih => simp [byteCmp, ih]

/-- The separator never falls below its first argument. -/
theorem findShortestSeparator_ge (start limit : Bytes) :
    byteLe start (findShortestSeparator start limit) := by
  unfold findShortestSeparator
  by_cases h1 : min start.length limit.length ≤ sharedLen start limit
  · simp only [h1, if_true]
    exact byteLe_refl start
  · simp only [h1, if_false]
    by_cases h2 : start.getD (sharedLen start limit) 0 < 255 ∧
        start.getD (sharedLen start limit) 0 + 1 < limit.getD (sharedLen start limit) 0
    · simp only [h2, and_self, if_true]
      set d := sharedLen start limit with hd
      have hdlt : d < start.length := by
        have := sharedLen_le_left start limit
        omega
      have hsplit : start = start.take d ++ start.getD d 0 :: start.drop (d + 1) := by
        rw [List.getD_eq_getElem?_getD]
        rw [List.getElem?_eq_getElem hdlt]
        simp only [Option.getD_some]
        conv_lhs => rw [← List.take_append_drop d start]
        congr 1
        rw [List.drop_eq_getElem_cons hdlt]
      conv_lhs => rw [hsplit]
      unfold byteLe
      rw [byteCmp_append_same]
      rw [byteCmp]
      rw [if_pos (by omega)]
      intro hc; cases hc
    · simp only [h2, if_false]
      exact byteLe_refl start

/-- When the first argument is strictly below the second, so is the
separator. -/
theorem findShortestSeparator_lt {start limit : Bytes} (h : byteLt start limit) :
    byteLt (findShortestSeparator start limit) limit := by
  unfold findShortestSeparator
  by_cases h1 : min start.length limit.length ≤ sharedLen start limit
  · simp only [h1, if_true]; exact h
  · simp only [h1, if_false]
    by_cases h2 : start.getD (sharedLen start limit) 0 < 255 ∧
        start.getD (sharedLen start limit) 0 + 1 < limit.getD (sharedLen start limit) 0
    · simp only [h2, and_self, if_true]
      set d := sharedLen start limit with hd
      have hdltl : d < limit.length := by
        have := sharedLen_le_left start limit
        omega
      have hsplitl : limit = limit.take d ++ limit.getD d 0 :: limit.drop (d + 1) := by
        rw [List.getD_eq_getElem?_getD]
        rw [List.getElem?_eq_getElem hdltl]
        simp only [Option.getD_some]
        conv_lhs => rw [← List.take_append_drop d limit]
        congr 1
        rw [List.drop_eq_getElem_cons hdltl]
      have htake : limit.take d = start.take d := sharedLen_take start limit
      conv_rhs => rw [hsplitl, htake]
      unfold byteLt
      rw [byteCmp_append_same]
      rw [byteCmp]
      rw [if_pos (by omega)]
    · simp only [h2, if_false]
      exact h

/-- The short successor never falls below its argument. -/
theorem findShortSuccessor_ge (key : Bytes) : byteLe key (findShortSuccessor key) := by
  induction key with
  | nil => exact byteLe_refl []
  | cons b rest ih =>
    unfold findShortSuccessor
    by_cases h : b < 255
    · simp only [h, if_true]
      unfold byteLe byteCmp
      rw [if_pos (by omega)]
      intro hc; cases hc
    · simp only [h, if_false]
      unfold byteLe byteCmp
      rw [if_neg (by omega), if_neg (by omega)]
      exact ih

/-! Status values, log sinks, and the recognized directory options. -/

/-- Status values of the embedded operations. -/
inductive Status where
  | ok
  | bufferFull
  | assertionFailed (msg : String)
  | corruption (msg : String)
  | ioError (msg : String)
deriving DecidableEq

def Status.isOk : Status → Bool
  | .ok => true
  | _ => false

theorem Status.isOk_iff (s : Status) : s.isOk = true ↔ s = .ok := by
  cases s <;> simp [Status.isOk]

/-- Transcription of the LogSink abstraction: an append-only byte stream
with a logical write offset that advances on success; a failing flag
models an underlying writable file that rejects appends. -/
structure LogSink where
  data : Bytes
  failing : Bool
deriving DecidableEq

def LogSink.ltell (s : LogSink) : Nat := s.data.length

def LogSink.lwrite (s : LogSink) (b : Bytes) : Status × LogSink :=
  if s.failing then (.ioError "write failed", s)
  else (.ok, { s with data := s.data ++ b })

/-- Modelled from the spec: the recognized options that drive the write
and the read path.  The field blockUtilized carries the truncated
product block_size times block_util that the add path compares size
estimates against; it stands in for the floating-point expression of the
source. -/
structure DirOptions where
  blockSize : Nat
  blockUtilized : Nat
  blockBuffer : Nat
  blockPadding : Bool
  indexBuffer : Nat
  tailPadding : Bool
  skipChecksums : Bool
  verifyChecksums : Bool
  uniqueKeys : Bool
  nonBlocking : Bool
  parallelReads : Bool
  bfBitsPerKey : Nat
deriving DecidableEq

/-- Modelled from the spec: the bounded epoch counter of the internal
header, which is absent from src. -/
def kMaxEpoches : Nat := 9999

/-- Modelled from the spec: the bounded per-epoch table counter of the
internal header, which is absent from src. -/
def kMaxTablesPerEpoch : Nat := 9999

/-! Transcription of TableLogger from src: the block, table and epoch
assembler writing to the data and index log sinks. -/

structure TableLogger where
  opts : DirOptions
  status : Status
  smallestKey : Bytes
  largestKey : Bytes
  lastKey : Bytes
  dataBlock : BlockBuilder
  indexBlock : BlockBuilder
  metaBlock : BlockBuilder
  pendingIndexEntry : Bool
  pendingIndexHandle : BlockHandle
  pendingMetaEntry : Bool
  pendingMetaHandle : TableHandle
  numTables : Nat
  numEpochs : Nat
  numUncommittedIndex : Nat
  numUncommittedData : Nat
  uncommittedIndexes : Bytes
  dataSink : LogSink
  indxSink : LogSink
  finished : Bool
deriving DecidableEq

/-- Transcription of the TableLogger constructor: data blocks use
restart interval 16, index and meta blocks restart interval 1. -/
def TableLogger.create (opts : DirOptions) (data indx : LogSink) : TableLogger :=
  { opts := opts, status := .ok, smallestKey := [], largestKey := [], lastKey := [],
    dataBlock := BlockBuilder.create 16, indexBlock := BlockBuilder.create 1,
    metaBlock := BlockBuilder.create 1,
    pendingIndexEntry := false, pendingIndexHandle := ⟨0, 0⟩,
    pendingMetaEntry := false, pendingMetaHandle := ⟨0, 0, 0, 0, [], []⟩,
    numTables := 0, numEpochs := 0, numUncommittedIndex := 0, numUncommittedData := 0,
    uncommittedIndexes := [], dataSink := data, indxSink := indx, finished := false }

def TableLogger.ok (t : TableLogger) : Bool := t.status.isOk

/-- Transcription of TableLogger EndBlock: finalize the current data
block into the shared store and record the pending index handle, whose
offset is relative to the store. -/
def TableLogger.endBlock (t : TableLogger) : TableLogger :=
  if t.dataBlock.empty then t
  else if !t.ok then t
  else
    let blockContents := t.dataBlock.finish.1
    let db1 := t.dataBlock.finish.2
    let blockSize := blockContents.length
    let fin :=
      if t.opts.blockPadding then
        db1.finalize (!t.opts.skipChecksums) (some t.opts.blockSize)
      else
        db1.finalize (!t.opts.skipChecksums) none
    let finalBlockSize := fin.1.length
    let blockOffset := fin.2.store.length - finalBlockSize
    { t with
      dataBlock := fin.2.reset,
      pendingIndexHandle := ⟨blockOffset, blockSize⟩,
      pendingIndexEntry := true,
      numUncommittedData := t.numUncommittedData + 1 }

/-- The loop of TableLogger Commit: decode the buffered uncommitted
index entries, rebase each handle by the flush offset and EncodeTo it
onto handle_encoding.  The source declares handle_encoding once, before
the loop, and never clears it between iterations while EncodeTo appends
(the same append semantics Add and EndTable rely on for
uncommitted_indexes_), so the k-th index entry is added with the
concatenation of the first k rebased handle encodings. -/
def commitIndexLoop : Nat → Bytes → Nat → Bytes → BlockBuilder → BlockBuilder
  | _, [], _, _, ib => ib
  | 0, _ :: _, _, _, ib => ib
  | fuel + 1, input@(_ :: _), offset, henc, ib =>
    match getLenPrefixed input with
    | none => ib
    | some (key, r1) =>
      match BlockHandle.decodeFrom r1 with
      | none => ib
      | some (h, r2) =>
        commitIndexLoop fuel r2 offset
          (henc ++ BlockHandle.encodeTo ⟨offset + h.offset, h.size⟩)
          (ib.add key
            (henc ++ BlockHandle.encodeTo ⟨offset + h.offset, h.size⟩))

/-- Transcription of TableLogger Commit: flush the staged data store to
the data sink and commit the buffered index entries with absolute
offsets. -/
def TableLogger.commit (t : TableLogger) : TableLogger :=
  if t.dataBlock.store = [] then t
  else if !t.ok then t
  else
    let offset := t.dataSink.ltell
    let w := t.dataSink.lwrite t.dataBlock.store
    let t1 := { t with status := w.1, dataSink := w.2 }
    if !t1.ok then t1
    else
      { t1 with
        indexBlock := commitIndexLoop t.uncommittedIndexes.length
          t.uncommittedIndexes offset [] t.indexBlock,
        numUncommittedData := 0, numUncommittedIndex := 0,
        uncommittedIndexes := [],
        dataBlock := t.dataBlock.clearReset }

/-- Transcription of TableLogger Add: track key bounds, emit the pending
index entry with a short separator, commit the store when the block
buffer is close to full, add the entry and close the block when the
size estimate reaches the utilization target. -/
def TableLogger.add (t0 : TableLogger) (key value : Bytes) : TableLogger :=
  if !t0.ok then t0
  else
    let t1 := if t0.smallestKey = [] then { t0 with smallestKey := key } else t0
    let t2 := { t1 with largestKey := key }
    let t3 :=
      if t2.pendingIndexEntry then
        let sep := findShortestSeparator t2.lastKey key
        { t2 with
          uncommittedIndexes := t2.uncommittedIndexes ++ putLenPrefixed sep ++
            t2.pendingIndexHandle.encodeTo,
          lastKey := sep,
          pendingIndexEntry := false,
          numUncommittedIndex := t2.numUncommittedIndex + 1 }
      else t2
    let t4 :=
      if t3.dataBlock.store.length + t3.opts.blockSize > t3.opts.blockBuffer then
        t3.commit
      else t3
    let t5 := { t4 with lastKey := key, dataBlock := t4.dataBlock.add key value }
    if t5.dataBlock.currentSizeEstimate + kBlockTrailerSize ≥ t5.opts.blockUtilized then
      t5.endBlock
    else t5

/-- Transcription of TableLogger EndTable: close the open block, emit
the final index entry with a short successor, commit, write the index
block and the optional filter block to the index sink, and append the
per-table handle with tight key bounds to the epoch meta block. -/
def TableLogger.endTable (t0 : TableLogger) (filter : Option BloomBlock) : TableLogger :=
  let t1 := t0.endBlock
  if !t1.ok then t1
  else
    let t2 :=
      if t1.pendingIndexEntry then
        let succ := findShortSuccessor t1.lastKey
        { t1 with
          lastKey := succ,
          uncommittedIndexes := t1.uncommittedIndexes ++ putLenPrefixed succ ++
            t1.pendingIndexHandle.encodeTo,
          pendingIndexEntry := false,
          numUncommittedIndex := t1.numUncommittedIndex + 1 }
      else t1
    let t3 := t2.commit
    if !t3.ok then t3
    else if t3.indexBlock.empty then t3
    else
      let indexContents := t3.indexBlock.finish.1
      let indexSize := indexContents.length
      let fin := (t3.indexBlock.finish.2).finalize (!t3.opts.skipChecksums) none
      let indexOffset := t3.indxSink.ltell
      let w := t3.indxSink.lwrite fin.1
      let t4 := { t3 with status := w.1, indxSink := w.2, indexBlock := fin.2 }
      if !t4.ok then t4
      else
        let filterOffset := t4.indxSink.ltell
        let filterSize :=
          match filter with
          | some fb => fb.finish.1.length
          | none => 0
        let t5 :=
          match filter with
          | some fb =>
            let ffin := (fb.finish.2).finalize (!t4.opts.skipChecksums)
            let w2 := t4.indxSink.lwrite ffin.1
            { t4 with status := w2.1, indxSink := w2.2 }
          | none => t4
        if !t5.ok then t5
        else
          let t6 :=
            { t5 with
              indexBlock := t5.indexBlock.reset,
              pendingMetaHandle := { t5.pendingMetaHandle with
                filterOffset := filterOffset, filterSize := filterSize,
                offset := indexOffset, size := indexSize },
              pendingMetaEntry := true }
          let t7 :=
            if kMaxTablesPerEpoch ≤ t6.numTables then
              { t6 with status := .assertionFailed "Too many tables" }
            else if t6.pendingMetaEntry then
              let largestSucc := findShortSuccessor t6.largestKey
              let handle := { t6.pendingMetaHandle with
                smallestKey := t6.smallestKey, largestKey := largestSucc }
              { t6 with
                largestKey := largestSucc,
                pendingMetaHandle := handle,
                metaBlock := t6.metaBlock.add (epochKey t6.numEpochs t6.numTables)
                  handle.encodeTo,
                pendingMetaEntry := false }
            else t6
          if t7.ok then
            { t7 with
              smallestKey := [], largestKey := [], lastKey := [],
              numTables := t7.numTables + 1 }
          else t7

/-- Transcription of TableLogger MakeEpoch. -/
def TableLogger.makeEpoch (t0 : TableLogger) : TableLogger :=
  let t1 := t0.endTable none
  if !t1.ok then t1
  else if t1.numTables = 0 then t1
  else if kMaxEpoches ≤ t1.numEpochs then
    { t1 with status := .assertionFailed "Too many epochs" }
  else
    { t1 with numTables := 0, numEpochs := t1.numEpochs + 1 }

/-- The tail padding step of TableLogger Finish: when tail_padding is
set and the prospective total including the footer is not aligned,
right-pad the index log with zeros. -/
def TableLogger.finishPad (t2 : TableLogger) (footerLen : Nat) : TableLogger :=
  if t2.opts.tailPadding then
    if (t2.indxSink.ltell + footerLen) % t2.opts.indexBuffer ≠ 0 then
      let w2 := t2.indxSink.lwrite
        (List.replicate (t2.opts.indexBuffer -
          (t2.indxSink.ltell + footerLen) % t2.opts.indexBuffer) 0)
      { t2 with status := w2.1, indxSink := w2.2 }
    else t2
  else t2

/-- The footer step of TableLogger Finish: optionally pad, then write
the footer. -/
def TableLogger.finishWriteFooter (t2 : TableLogger) (metaOffset metaSize : Nat) :
    Status × TableLogger :=
  let footerBuf := (Footer.mk ⟨metaOffset, metaSize⟩ t2.numEpochs).encodeTo
  let t3 := t2.finishPad footerBuf.length
  if t3.ok then
    let w3 := t3.indxSink.lwrite footerBuf
    (w3.1, { t3 with status := w3.1, indxSink := w3.2 })
  else (t3.status, t3)

/-- The meta block write step of TableLogger Finish. -/
def TableLogger.writeMeta (t1 : TableLogger) : TableLogger :=
  let fin := (t1.metaBlock.finish.2).finalize (!t1.opts.skipChecksums) none
  let w := t1.indxSink.lwrite fin.1
  { t1 with status := w.1, indxSink := w.2, metaBlock := fin.2 }

/-- Transcription of TableLogger Finish: close the epoch, write the root
meta block, optionally pad the index log so the total size including the
footer is a multiple of index_buffer, and write the footer. -/
def TableLogger.finish (t0 : TableLogger) : Status × TableLogger :=
  let t1 := { t0.makeEpoch with finished := true }
  if !t1.ok then (t1.status, t1)
  else
    let metaSize := t1.metaBlock.finish.1.length
    let metaOffset := t1.indxSink.ltell
    let t2 := t1.writeMeta
    if !t2.ok then (t2.status, t2)
    else t2.finishWriteFooter metaOffset metaSize

theorem LogSink.lwrite_not_failing {s : LogSink} (h : s.failing = false) (b : Bytes) :
    s.lwrite b = (.ok, ⟨s.data ++ b, false⟩) := by
  unfold LogSink.lwrite
  rw [if_neg (by rw [h]; exact Bool.false_ne_true)]
  rw [← h]

theorem LogSink.lwrite_failing {s : LogSink} (h : s.failing = true) (b : Bytes) :
    s.lwrite b = (.ioError "write failed", s) := by
  unfold LogSink.lwrite
  rw [if_pos h]

theorem LogSink.lwrite_ok_iff (s : LogSink) (b : Bytes) :
    ((s.lwrite b).1.isOk = true) ↔ s.failing = false := by
  cases h : s.failing
  · rw [LogSink.lwrite_not_failing h]; simp [Status.isOk]
  · rw [LogSink.lwrite_failing h]; simp [Status.isOk]

/-! The options field is constant across all table logger operations. -/

theorem TableLogger.opts_endBlock (t : TableLogger) : t.endBlock.opts = t.opts := by
  unfold TableLogger.endBlock
  simp [apply_ite (fun x : TableLogger => x.opts)]

theorem TableLogger.opts_commit (t : TableLogger) : t.commit.opts = t.opts := by
  unfold TableLogger.commit
  simp [apply_ite (fun x : TableLogger => x.opts)]

theorem TableLogger.opts_add (t : TableLogger) (k v : Bytes) :
    (t.add k v).opts = t.opts := by
  unfold TableLogger.add
  simp [apply_ite (fun x : TableLogger => x.opts),
    TableLogger.opts_endBlock, TableLogger.opts_commit]

theorem TableLogger.opts_endTable (t : TableLogger) (f : Option BloomBlock) :
    (t.endTable f).opts = t.opts := by
  cases f <;>
    (unfold TableLogger.endTable
     simp [apply_ite (fun x : TableLogger => x.opts),
       TableLogger.opts_endBlock, TableLogger.opts_commit])

theorem TableLogger.opts_makeEpoch (t : TableLogger) : t.makeEpoch.opts = t.opts := by
  unfold TableLogger.makeEpoch
  simp [apply_ite (fun x : TableLogger => x.opts), TableLogger.opts_endTable]

/-! The first non-OK status is sticky: every operation on an errored
logger returns early. -/

theorem TableLogger.endBlock_of_error {t : TableLogger} (h : t.ok = false) :
    t.endBlock = t := by
  unfold TableLogger.endBlock
  split
  · rfl
  · rw [if_pos (by simp [h])]

theorem TableLogger.commit_of_error {t : TableLogger} (h : t.ok = false) :
    t.commit = t := by
  unfold TableLogger.commit
  split
  · rfl
  · rw [if_pos (by simp [h])]

theorem TableLogger.add_of_error {t : TableLogger} (h : t.ok = false) (k v : Bytes) :
    t.add k v = t := by
  unfold TableLogger.add
  rw [if_pos (by simp [h])]

theorem TableLogger.endTable_of_error {t : TableLogger} (h : t.ok = false)
    (f : Option BloomBlock) : t.endTable f = t := by
  unfold TableLogger.endTable
  simp only [TableLogger.endBlock_of_error h]
  rw [if_pos (by simp [h])]

theorem TableLogger.makeEpoch_of_error {t : TableLogger} (h : t.ok = false) :
    t.makeEpoch = t := by
  unfold TableLogger.makeEpoch
  simp only [TableLogger.endTable_of_error h]
  rw [if_pos (by simp [h])]

theorem TableLogger.finish_of_error {t : TableLogger} (h : t.ok = false) :
    t.finish = (t.status, { t with finished := true }) := by
  unfold TableLogger.finish
  simp only [TableLogger.makeEpoch_of_error h]
  rw [if_pos (by simp [TableLogger.ok, h]; exact h)]

/-- C7 amended: once the table logger status is non-OK, every subsequent
Add, EndBlock, EndTable or MakeEpoch call is a no-op that leaves the
entire builder state and the two log sinks unchanged and preserves the
latched status; Finish also writes nothing and returns the latched
status, but it does flip the finished flag, which is the one builder
state change the original claim rules out.  Since the states are
unchanged, the first error is never overwritten by a later one. -/
theorem C7_sticky_error_amended (t : TableLogger) (k v : Bytes)
    (f : Option BloomBlock) (herr : t.status.isOk = false) :
    t.add k v = t ∧ t.endBlock = t ∧ t.endTable f = t ∧ t.makeEpoch = t ∧
    t.finish = (t.status, { t with finished := true }) :=
  ⟨TableLogger.add_of_error herr k v, TableLogger.endBlock_of_error herr,
   TableLogger.endTable_of_error herr f, TableLogger.makeEpoch_of_error herr,
   TableLogger.finish_of_error herr⟩

/-- Options shared by the concrete counterexample runs: no block padding,
checksums skipped, unique keys, no filter. -/
def exOptsBase : DirOptions :=
  { blockSize := 64, blockUtilized := 64, blockBuffer := 1024,
    blockPadding := false, indexBuffer := 4, tailPadding := false,
    skipChecksums := true, verifyChecksums := false, uniqueKeys := true,
    nonBlocking := false, parallelReads := false, bfBitsPerKey := 0 }

/-- A table logger that has latched a write error: its index sink
rejects appends, so EndTable fails when writing the index block. -/
def erroredLogger : TableLogger :=
  ((TableLogger.create exOptsBase ⟨[], false⟩ ⟨[], true⟩).add [97] [49]).endTable none

set_option maxHeartbeats 40000000 in
/-- C7 counterexample: on a logger with a latched non-OK status, Finish
is not a no-op on the builder state as the claim demands for every
listed operation: it flips the finished flag. -/
theorem C7_sticky_error_counterexample :
    erroredLogger.status.isOk = false ∧
    (erroredLogger.finish).2 ≠ erroredLogger := by
  refine ⟨by decide, ?_⟩
  have h1 : (erroredLogger.finish).2.finished = true := by decide
  have h2 : erroredLogger.finished = false := by decide
  intro he
  rw [he] at h1
  rw [h1] at h2
  cases h2

set_option maxHeartbeats 40000000 in
/-- Closed witness for the amended C7 at a concrete errored logger. -/
theorem C7_sticky_error_amended_witness :
    erroredLogger.status.isOk = false ∧
    (erroredLogger.add [98] [50] = erroredLogger ∧
     erroredLogger.endBlock = erroredLogger ∧
     erroredLogger.endTable none = erroredLogger ∧
     erroredLogger.makeEpoch = erroredLogger ∧
     erroredLogger.finish = (erroredLogger.status,
       { erroredLogger with finished := true })) :=
  ⟨by decide, C7_sticky_error_amended erroredLogger [98] [50] none (by decide)⟩

/-! Tail padding of the index log. -/

theorem TableLogger.finishPad_aligned (t2 : TableLogger) (fl : Nat)
    (hpad : t2.opts.tailPadding = true) (hbuf : 0 < t2.opts.indexBuffer)
    (hfail : t2.indxSink.failing = false) :
    (t2.finishPad fl).indxSink.failing = false ∧
    t2.opts.indexBuffer ∣ ((t2.finishPad fl).indxSink.data.length + fl) ∧
    (t2.status = Status.ok → (t2.finishPad fl).status = Status.ok) := by
  unfold TableLogger.finishPad
  rw [if_pos hpad]
  by_cases hov : (t2.indxSink.data.length + fl) % t2.opts.indexBuffer ≠ 0
  · rw [if_pos (show (t2.indxSink.ltell + fl) % t2.opts.indexBuffer ≠ 0 from hov)]
    rw [LogSink.lwrite_not_failing hfail]
    refine ⟨rfl, ?_, fun _ => rfl⟩
    simp only [List.length_append, List.length_replicate, LogSink.ltell]
    have hdm := Nat.div_add_mod (t2.indxSink.data.length + fl) t2.opts.indexBuffer
    have hlt := Nat.mod_lt (t2.indxSink.data.length + fl) hbuf
    refine ⟨(t2.indxSink.data.length + fl) / t2.opts.indexBuffer + 1, ?_⟩
    rw [Nat.mul_add, Nat.mul_one]
    omega
  · rw [if_neg (show ¬ (t2.indxSink.ltell + fl) % t2.opts.indexBuffer ≠ 0 from hov)]
    push_neg at hov
    exact ⟨hfail, Nat.dvd_of_mod_eq_zero hov, fun h => h⟩

/-- A table logger over empty sinks with tail padding on and an index
buffer of five bytes, used to finish an empty directory. -/
def c3Run : TableLogger :=
  TableLogger.create { exOptsBase with tailPadding := true, indexBuffer := 5 }
    ⟨[], false⟩ ⟨[], false⟩

set_option maxHeartbeats 40000000 in
/-- C3 counterexample: with tail_padding set and index_buffer 5,
finishing an empty directory returns OK with a 45-byte index log whose
footer begins at offset 13, not a multiple of index_buffer; the code
aligns the total size including the footer instead. -/
theorem C3_tail_padding_counterexample :
    ((c3Run.finish).1 = Status.ok) ∧
    (c3Run.finish).2.indxSink.data.length = 45 ∧
    (c3Run.finish).2.indxSink.data.length - footerEncodeLength = 13 ∧
    ¬ (5 ∣ 13) := by
  refine ⟨by decide, by decide, by decide, by decide⟩

theorem TableLogger.writeMeta_ok_iff (t1 : TableLogger) :
    t1.writeMeta.status.isOk = true ↔ t1.indxSink.failing = false := by
  unfold TableLogger.writeMeta
  exact LogSink.lwrite_ok_iff _ _

theorem TableLogger.writeMeta_preserves (t1 : TableLogger)
    (h : t1.indxSink.failing = false) :
    t1.writeMeta.indxSink.failing = false ∧ t1.writeMeta.status = Status.ok := by
  unfold TableLogger.writeMeta
  simp only []
  rw [LogSink.lwrite_not_failing h]
  exact ⟨rfl, rfl⟩

theorem TableLogger.finishWriteFooter_aligned (t2 : TableLogger) (mo ms : Nat)
    {B : Nat} (hB : t2.opts.indexBuffer = B)
    (hpad : t2.opts.tailPadding = true) (hbuf : 0 < t2.opts.indexBuffer)
    (hfail : t2.indxSink.failing = false) (hok2 : t2.status = Status.ok) :
    B ∣ ((t2.finishWriteFooter mo ms).2).indxSink.data.length := by
  subst hB
  unfold TableLogger.finishWriteFooter
  simp only []
  have hp := TableLogger.finishPad_aligned t2
    (Footer.mk ⟨mo, ms⟩ t2.numEpochs).encodeTo.length hpad hbuf hfail
  rw [if_pos (by unfold TableLogger.ok; rw [hp.2.2 hok2]; rfl)]
  simp only [LogSink.lwrite_not_failing hp.1, List.length_append]
  exact hp.2.1

/-- C3 amended: when tail_padding is set and Finish returns OK, the
total size of the index log including the footer is a multiple of
index_buffer; the size before the footer is aligned only when the fixed
footer size itself is. -/
theorem C3_tail_padding_amended (t : TableLogger)
    (hpad : t.opts.tailPadding = true) (hbuf : 0 < t.opts.indexBuffer)
    (hok : (t.finish).1 = Status.ok) :
    t.opts.indexBuffer ∣ (t.finish).2.indxSink.data.length := by
  have hopts1 : t.makeEpoch.opts = t.opts := TableLogger.opts_makeEpoch t
  unfold TableLogger.finish at hok ⊢
  rw [← hopts1] at hpad hbuf ⊢
  generalize t.makeEpoch = m at hok hpad hbuf ⊢
  simp only [] at hok ⊢
  split at hok
  · next hc =>
    exfalso
    simp only [Bool.not_eq_true'] at hc
    unfold TableLogger.ok at hc
    have hst : ({ m with finished := true } : TableLogger).status = Status.ok := hok
    rw [hst] at hc
    cases hc
  · next hc1 =>
    rw [if_neg hc1]
    split at hok
    · next hc2 =>
      exfalso
      simp only [Bool.not_eq_true'] at hc2
      unfold TableLogger.ok at hc2
      have hst2 : ({ m with finished := true } : TableLogger).writeMeta.status
          = Status.ok := hok
      rw [hst2] at hc2
      cases hc2
    · next hc2 =>
      rw [if_neg hc2]
      simp only [Bool.not_eq_true', Bool.not_eq_false] at hc2
      unfold TableLogger.ok at hc2
      have hfail0 : ({ m with finished := true } : TableLogger).indxSink.failing
          = false := (TableLogger.writeMeta_ok_iff _).1 hc2
      apply TableLogger.finishWriteFooter_aligned
      · rfl
      · exact hpad
      · exact hbuf
      · exact (TableLogger.writeMeta_preserves _ hfail0).1
      · exact (TableLogger.writeMeta_preserves _ hfail0).2

/-! Transcription of WriteBuffer from src: an append-only buffer of
length-prefixed key/value pairs with a parallel vector of entry start
offsets, sorted by key at finish time with std::sort. -/

structure WriteBuffer where
  offsets : List Nat
  buffer : Bytes
  numEntries : Nat
  finished : Bool
deriving DecidableEq

def WriteBuffer.create : WriteBuffer := ⟨[], [], 0, false⟩

/-- Transcription of WriteBuffer Add. -/
def WriteBuffer.add (wb : WriteBuffer) (key value : Bytes) : WriteBuffer :=
  { offsets := wb.offsets ++ [wb.buffer.length],
    buffer := wb.buffer ++ putLenPrefixed key ++ putLenPrefixed value,
    numEntries := wb.numEntries + 1,
    finished := wb.finished }

def WriteBuffer.currentBufferSize (wb : WriteBuffer) : Nat := wb.buffer.length

/-- The key stored at a given buffer offset. -/
def WriteBuffer.keyAt (wb : WriteBuffer) (off : Nat) : Bytes :=
  match getLenPrefixed (wb.buffer.drop off) with
  | some (k, _) => k
  | none => []

/-- The key/value entry stored at a given buffer offset. -/
def WriteBuffer.entryAt (wb : WriteBuffer) (off : Nat) : Bytes × Bytes :=
  match getLenPrefixed (wb.buffer.drop off) with
  | some (k, r) =>
    match getLenPrefixed r with
    | some (v, _) => (k, v)
    | none => (k, [])
  | none => ([], [])

/-- The semantics of the std::sort call in WriteBuffer FinishAndSort:
the offset array afterwards is some permutation of the offsets whose
keys are in non-decreasing order.  std::sort guarantees nothing more;
in particular it is not required to be stable, so the relative order of
equal keys is unspecified. -/
def SortOutcome (wb : WriteBuffer) (sorted : List Nat) : Prop :=
  sorted.Perm wb.offsets ∧
  sorted.Pairwise (fun a b => byteLe (wb.keyAt a) (wb.keyAt b))

/-- Transcription of WriteBuffer FinishAndSort, parameterized by the
chosen std::sort outcome. -/
def WriteBuffer.finishAndSorted (wb : WriteBuffer) (sorted : List Nat) : WriteBuffer :=
  { wb with offsets := sorted, finished := true }

/-- The entries yielded by the write buffer iterator, in cursor order. -/
def WriteBuffer.iterEntries (wb : WriteBuffer) : List (Bytes × Bytes) :=
  wb.offsets.map wb.entryAt

/-! Transcription of DirLogger from src, in the inline-compaction
configuration (no compaction pool and env threads disallowed), in which
MaybeScheduleCompaction runs DoCompaction on the calling thread.  The
nondeterministic std::sort outcome for the compacted buffer is an
explicit argument, constrained by SortOutcome in the theorems, and the
key-hash function of the optional bloom filter is likewise an argument
(keys enter the filter only through pdlfs-common Hash, absent from
src). -/

structure DirLogger where
  opts : DirOptions
  tbBytes : Nat
  fillThreshold : Nat
  buf0 : WriteBuffer
  buf1 : WriteBuffer
  memIsBuf0 : Bool
  immIsBuf0 : Option Bool
  immIsEpochFlush : Bool
  immIsFinal : Bool
  hasBgCompaction : Bool
  tl : TableLogger
  filter : Option BloomBlock
  numFlushRequested : Nat
  numFlushCompleted : Nat

/-- DirLogger constructor.  The sizing quantities entries_per_tb,
tb_bytes, the fill threshold tb_bytes times memtable_util and the bloom
filter byte size are computed with floating point from memtable_buffer,
lg_parts, key_size and value_size in the source; they enter here as the
resulting naturals. -/
def DirLogger.create (opts : DirOptions) (tbBytes fillThreshold bfBytes : Nat)
    (data indx : LogSink) : DirLogger :=
  { opts := opts, tbBytes := tbBytes, fillThreshold := fillThreshold,
    buf0 := WriteBuffer.create, buf1 := WriteBuffer.create,
    memIsBuf0 := true, immIsBuf0 := none,
    immIsEpochFlush := false, immIsFinal := false, hasBgCompaction := false,
    tl := TableLogger.create opts data indx,
    filter := if opts.bfBitsPerKey ≠ 0
      then some (BloomBlock.create opts.bfBitsPerKey bfBytes) else none,
    numFlushRequested := 0, numFlushCompleted := 0 }

def DirLogger.memBuf (d : DirLogger) : WriteBuffer :=
  if d.memIsBuf0 then d.buf0 else d.buf1

def DirLogger.setMemBuf (d : DirLogger) (wb : WriteBuffer) : DirLogger :=
  if d.memIsBuf0 then { d with buf0 := wb } else { d with buf1 := wb }

def DirLogger.immBufGet (d : DirLogger) : WriteBuffer :=
  match d.immIsBuf0 with
  | some true => d.buf0
  | some false => d.buf1
  | none => WriteBuffer.create

def DirLogger.setImmBuf (d : DirLogger) (wb : WriteBuffer) : DirLogger :=
  match d.immIsBuf0 with
  | some true => { d with buf0 := wb }
  | some false => { d with buf1 := wb }
  | none => d

/-- The compaction loop of CompactMemtable: feed each sorted entry to
the filter and the table logger, stopping once the logger status is
non-OK. -/
def compactLoop (hash : Bytes → Nat) :
    List (Bytes × Bytes) → TableLogger × Option BloomBlock →
    TableLogger × Option BloomBlock
  | [], s => s
  | (k, v) :: rest, s =>
    let bf1 := s.2.map fun f => f.addKey (hash k)
    let tb1 := s.1.add k v
    if tb1.ok then compactLoop hash rest (tb1, bf1) else (tb1, bf1)

/-- Transcription of DirLogger CompactMemtable: reset the filter, sort
the immutable buffer, feed it to the table logger, then close the table
and optionally the epoch and the directory. -/
def DirLogger.compactMemtable (d : DirLogger) (hash : Bytes → Nat)
    (sorted : List Nat) : DirLogger :=
  let bf := d.filter.map BloomBlock.reset
  let buffer := d.immBufGet.finishAndSorted sorted
  let r := compactLoop hash buffer.iterEntries (d.tl, bf)
  let tb2 :=
    if r.1.ok then
      let tbA := r.1.endTable r.2
      let tbB := if d.immIsEpochFlush then tbA.makeEpoch else tbA
      if d.immIsFinal then (tbB.finish).2 else tbB
    else r.1
  { d with tl := tb2, filter := r.2,
           numFlushCompleted := d.numFlushCompleted + 1 }

/-- Transcription of DirLogger DoCompaction in the inline configuration:
compact, reset the immutable buffer and clear the flags.  The trailing
MaybeScheduleCompaction re-check is a no-op since the slot was just
cleared. -/
def DirLogger.doCompaction (d : DirLogger) (hash : Bytes → Nat)
    (sorted : List Nat) : DirLogger :=
  let d1 := d.compactMemtable hash sorted
  let d2 := d1.setImmBuf WriteBuffer.create
  { d2 with immIsEpochFlush := false, immIsFinal := false,
            immIsBuf0 := none, hasBgCompaction := false }

/-- Transcription of MaybeScheduleCompaction in the inline
configuration. -/
def DirLogger.maybeScheduleCompaction (d : DirLogger) (hash : Bytes → Nat)
    (sorted : List Nat) : DirLogger :=
  if d.hasBgCompaction then d
  else
    match d.immIsBuf0 with
    | none => d
    | some _ => ({ d with hasBgCompaction := true }).doCompaction hash sorted

/-- Transcription of the DirLogger Prepare loop.  The fuel only bounds
the loop; in the inline configuration two iterations always suffice.
The loop yields none when it would block on the condition variable. -/
def DirLogger.prepareLoop (hash : Bytes → Nat) (sorted : List Nat) :
    Nat → DirLogger → Bool → Bool → Bool → Option (Status × DirLogger)
  | 0, _, _, _, _ => none
  | fuel + 1, d, force, epochFlush, final =>
    if !d.tl.ok then some (d.tl.status, d)
    else if !force ∧ d.memBuf.currentBufferSize < d.fillThreshold then
      some (.ok, d)
    else
      match d.immIsBuf0 with
      | some _ =>
        if d.opts.nonBlocking then some (.bufferFull, d)
        else none
      | none =>
        let d1 := { d with
          immIsBuf0 := some d.memIsBuf0,
          immIsEpochFlush := d.immIsEpochFlush || epochFlush,
          immIsFinal := d.immIsFinal || final }
        let d2 := d1.maybeScheduleCompaction hash sorted
        let d3 := { d2 with memIsBuf0 := !d2.memIsBuf0 }
        DirLogger.prepareLoop hash sorted fuel d3 false false false

/-- Transcription of DirLogger Add: prepare, then add to the active
memtable when the status is OK. -/
def DirLogger.add (d : DirLogger) (hash : Bytes → Nat) (sorted : List Nat)
    (key value : Bytes) : Option (Status × DirLogger) :=
  match DirLogger.prepareLoop hash sorted 3 d false false false with
  | none => none
  | some (st, d1) =>
    if st.isOk then some (st, d1.setMemBuf (d1.memBuf.add key value))
    else some (st, d1)

/-- Transcription of DirLogger Flush: wait for the immutable slot (or
fail in the non-blocking and dry-run modes), then force a buffer
switch.  In the inline configuration the scheduled compaction has
completed by the time Prepare returns, so the completion wait is
immediate. -/
def DirLogger.flush (d : DirLogger) (hash : Bytes → Nat) (sorted : List Nat)
    (dryRun epochFlush final : Bool) : Option (Status × DirLogger) :=
  match d.immIsBuf0 with
  | some _ =>
    if dryRun || d.opts.nonBlocking then some (.bufferFull, d) else none
  | none =>
    if dryRun then some (d.tl.status, d)
    else
      let d1 := { d with numFlushRequested := d.numFlushRequested + 1 }
      DirLogger.prepareLoop hash sorted 3 d1 true epochFlush final

/-- C8: with non_blocking set, whenever the active memtable is at or
above its fill threshold (the natural standing for tb_bytes times
memtable_util) and the immutable buffer slot is still occupied,
DirLogger Add returns BufferFull immediately, without blocking or
scheduling, and the state - in particular both write buffers - is
unchanged, so the pair is not added anywhere. -/
theorem C8_nonblocking_bufferfull (d : DirLogger) (hash : Bytes → Nat)
    (sorted : List Nat) (k v : Bytes)
    (hnb : d.opts.nonBlocking = true)
    (hok : d.tl.status.isOk = true)
    (hfull : d.fillThreshold ≤ d.memBuf.currentBufferSize)
    (himm : d.immIsBuf0.isSome = true) :
    d.add hash sorted k v = some (Status.bufferFull, d) := by
  obtain ⟨b, hb⟩ := Option.isSome_iff_exists.1 himm
  unfold DirLogger.add
  rw [show (3 : Nat) = 2 + 1 from rfl, DirLogger.prepareLoop]
  rw [if_neg (by simp [TableLogger.ok, hok])]
  rw [if_neg (fun hcon => absurd hcon.2 (by omega))]
  rw [hb]
  simp only []
  rw [if_pos hnb]
  simp [Status.isOk]

/-- A directory logger in the non-blocking configuration whose immutable
slot is occupied (as while a pooled compaction is in flight) and whose
active memtable has reached its fill threshold. -/
def c8State : DirLogger :=
  { DirLogger.create { exOptsBase with nonBlocking := true } 10 1 0
      ⟨[], false⟩ ⟨[], false⟩ with
    immIsBuf0 := some false,
    buf0 := WriteBuffer.create.add [97] [49],
    memIsBuf0 := true }

/-- Closed witness for C8 at a concrete full state. -/
theorem C8_nonblocking_bufferfull_witness :
    (c8State.opts.nonBlocking = true ∧ c8State.tl.status.isOk = true ∧
     c8State.fillThreshold ≤ c8State.memBuf.currentBufferSize ∧
     c8State.immIsBuf0.isSome = true) ∧
    c8State.add (fun _ => 0) [] [98] [50] = some (Status.bufferFull, c8State) :=
  ⟨⟨rfl, rfl, by decide, rfl⟩,
   C8_nonblocking_bufferfull c8State (fun _ => 0) [] [98] [50] rfl rfl (by decide) rfl⟩

/-! Transcription of the Dir reader from src: footer bootstrap, table
lookup through the epoch meta block, bloom gating, candidate block
search, and the serial and parallel read paths. -/

/-- Transcription of ReadBlock: read the block body (plus the trailer
when checksums are kept) from a log source, verify the checksum when
configured, and return the body. -/
def readBlock (src : Bytes) (opts : DirOptions) (offset size : Nat) :
    Except Status Bytes :=
  let m := if opts.skipChecksums then size else size + kBlockTrailerSize
  let contents := (src.drop offset).take m
  if contents.length ≠ m then .error (.corruption "Truncated block read")
  else if !opts.skipChecksums ∧ opts.verifyChecksums then
    let stored := crcUnmask ((getFixed32 (contents.drop (size + 1))).getD (0, [])).1
    let actual := crc32cValue (contents.take (size + 1))
    if actual ≠ stored then .error (.corruption "Block checksum mismatch")
    else .ok (contents.take size)
  else .ok (contents.take size)

/-- The block-level loop of Dir Fetch, from the first entry whose key is
not below the target: collect values of matching keys; a strictly larger
key, or the first match under unique keys, exhausts the search. -/
def fetchInBlockLoop (uniqueKeys : Bool) (key : Bytes) :
    List (Bytes × Bytes) → List Bytes × Bool
  | [] => ([], false)
  | (k, v) :: rest =>
    if k = key then
      if uniqueKeys then ([v], true)
      else
        let r := fetchInBlockLoop uniqueKeys key rest
        (v :: r.1, r.2)
    else ([], true)

/-- Transcription of the block-level Dir Fetch.  With unique keys the
iterator seeks by binary search; otherwise it seeks to the first entry
and advances while the key is larger - on the sorted blocks this writer
produces, both land on the first entry whose key is not below the
target. -/
def fetchBlock (dataSrc : Bytes) (opts : DirOptions) (key : Bytes)
    (h : BlockHandle) : Except Status (List Bytes × Bool) :=
  match readBlock dataSrc opts h.offset h.size with
  | .error st => .error st
  | .ok body =>
    match decodeBlock body with
    | none => .error (.corruption "bad block contents")
    | some entries =>
      .ok (fetchInBlockLoop opts.uniqueKeys key (entries.drop (seekIdx entries key)))

/-- Transcription of Dir KeyMayMatch: read the filter block and test the
key hash; read errors degrade to a may-match. -/
def keyMayMatch (indxSrc : Bytes) (opts : DirOptions) (keyHash : Nat)
    (h : BlockHandle) : Bool :=
  match readBlock indxSrc opts h.offset h.size with
  | .ok contents => bloomKeyMayMatch keyHash contents
  | .error _ => true

/-- The index-entry loop of the table-level Dir Fetch: decode each
candidate block handle and fetch it, stopping when a block reports the
key exhausted. -/
def fetchOverIndexLoop (dataSrc : Bytes) (opts : DirOptions) (key : Bytes) :
    List (Bytes × Bytes) → Except Status (List Bytes)
  | [] => .ok []
  | (_, hv) :: rest =>
    match BlockHandle.decodeFrom hv with
    | none => .error (.corruption "bad block handle")
    | some (h, _) =>
      match fetchBlock dataSrc opts key h with
      | .error st => .error st
      | .ok r =>
        if r.2 then .ok r.1
        else
          match fetchOverIndexLoop dataSrc opts key rest with
          | .error st => .error st
          | .ok vs2 => .ok (r.1 ++ vs2)

/-- Transcription of the table-level Dir Fetch: prune by the key bounds,
consult the bloom filter when one is present, then scan the candidate
data blocks located through the index block. -/
def fetchTable (dataSrc indxSrc : Bytes) (opts : DirOptions)
    (key : Bytes) (keyHash : Nat) (th : TableHandle) :
    Except Status (List Bytes) :=
  if byteCmp key th.smallestKey = .lt ∨ byteCmp key th.largestKey = .gt then .ok []
  else if th.filterSize ≠ 0 ∧
      !(keyMayMatch indxSrc opts keyHash ⟨th.filterOffset, th.filterSize⟩) then .ok []
  else
    match readBlock indxSrc opts th.offset th.size with
    | .error st => .error st
    | .ok body =>
      match decodeBlock body with
      | none => .error (.corruption "bad index block")
      | some entries =>
        fetchOverIndexLoop dataSrc opts key (entries.drop (seekIdx entries key))

/-- The opened directory: decoded footer data and the epoch index
entries, over the two log sources. -/
structure Dir where
  opts : DirOptions
  numEpoches : Nat
  dataSrc : Bytes
  indxSrc : Bytes
  epochs : List (Bytes × Bytes)
deriving DecidableEq

/-- Result of one per-epoch Get: the values saved, the epoch iterator
position for reuse, and the status. -/
structure GetOut where
  values : List Bytes
  iter : BlockIter
  status : Status
deriving DecidableEq

/-- The table loop of Dir Get.  The fuel only bounds the loop, one table
per iteration; the entry count of the epoch index plus one suffices for
the directories this writer produces. -/
def Dir.getLoop (d : Dir) (key : Bytes) (keyHash : Nat) (epoch : Nat) :
    Nat → Nat → BlockIter → List Bytes → GetOut
  | 0, _, it, acc => ⟨acc, it, .ok⟩
  | fuel + 1, table, it, acc =>
    let ek := epochKey epoch table
    let it1 := if it.valid ∧ it.key = ek then it else it.seek ek
    if !it1.valid then ⟨acc, it1, .ok⟩
    else if it1.key ≠ ek then ⟨acc, it1, .ok⟩
    else
      match TableHandle.decodeFrom it1.value with
      | none => ⟨acc, it1.next, .corruption "bad table handle"⟩
      | some r =>
        let it2 := it1.next
        match fetchTable d.dataSrc d.indxSrc d.opts key keyHash r.1 with
        | .error st => ⟨acc, it2, st⟩
        | .ok vals =>
          if vals ≠ [] ∧ d.opts.uniqueKeys then ⟨acc ++ vals, it2, .ok⟩
          else Dir.getLoop d key keyHash epoch fuel (table + 1) it2 (acc ++ vals)

/-- Transcription of Dir Get for one epoch, reusing the given epoch
iterator position when it already stands on the wanted table. -/
def Dir.get (d : Dir) (key : Bytes) (keyHash : Nat) (epoch : Nat)
    (it : BlockIter) : GetOut :=
  Dir.getLoop d key keyHash epoch (d.epochs.length + 1) 0 it []

/-- The serial read loop over epochs, threading one shared epoch
iterator and appending values directly to the destination, as SaveValue
does. -/
def Dir.readSerialLoop (d : Dir) (key : Bytes) (keyHash : Nat) :
    Nat → Nat → BlockIter → Bytes → Except Status Bytes
  | 0, _, _, dst => .ok dst
  | remaining + 1, epoch, it, dst =>
    let out := d.get key keyHash epoch it
    if out.status.isOk then
      Dir.readSerialLoop d key keyHash remaining (epoch + 1) out.iter
        (dst ++ out.values.flatten)
    else .error out.status

/-- Transcription of Dir Read in serial mode. -/
def Dir.readSerial (d : Dir) (key : Bytes) (keyHash : Nat) : Except Status Bytes :=
  Dir.readSerialLoop d key keyHash d.numEpoches 0 (BlockIter.fresh d.epochs) []

/-- The values one parallel per-epoch task produces; parallel tasks use
a fresh epoch iterator each. -/
def Dir.epochValues (d : Dir) (key : Bytes) (keyHash : Nat) (epoch : Nat) :
    List Bytes :=
  (d.get key keyHash epoch (BlockIter.fresh d.epochs)).values

/-- A parallel-read outcome: the epoch-tagged values that ended up in
the shared scratch buffer, in some order produced by the concurrently
running per-epoch tasks.  Each task appends its own records in order
under the mutex, so filtering the outcome by an epoch id yields exactly
the values of that epoch, in task order. -/
def IsParallelOutcome (d : Dir) (key : Bytes) (keyHash : Nat)
    (out : List (Nat × Bytes)) : Prop :=
  (∀ p ∈ out, p.1 < d.numEpoches) ∧
  ∀ e, e < d.numEpoches →
    (out.filter (fun p => p.1 == e)).map Prod.snd = d.epochValues key keyHash e

/-- One record of the shared scratch buffer, as ParaSaveValue appends
it: the varint epoch id followed by the length-prefixed value. -/
def recordBytes (p : Nat × Bytes) : Bytes := putVarint p.1 ++ putLenPrefixed p.2

/-- The shared scratch buffer of a parallel read. -/
def recordBuffer (out : List (Nat × Bytes)) : Bytes :=
  (out.map recordBytes).flatten

/-- The record offsets ParaSaveValue pushes: the buffer size right
before each append. -/
def recordOffsetsAux (base : Nat) : List (Nat × Bytes) → List Nat
  | [] => []
  | p :: rest => base :: recordOffsetsAux (base + (recordBytes p).length) rest

def recordOffsets (out : List (Nat × Bytes)) : List Nat :=
  recordOffsetsAux 0 out

/-- Decode the epoch tag at a record offset, as the Merge comparator
does. -/
def epochAt (buffer : Bytes) (off : Nat) : Nat :=
  match getVarint (buffer.drop off) with
  | some r => r.1
  | none => 0

/-- The semantics of the std::sort call in Dir Merge: a permutation of
the recorded offsets on which the decoded epoch ids are non-decreasing.
std::sort is not required to be stable, so the relative order of records
with equal epoch ids is unspecified. -/
def MergeSortOutcome (buffer : Bytes) (offsets sorted : List Nat) : Prop :=
  sorted.Perm offsets ∧
  sorted.Pairwise (fun a b => epochAt buffer a ≤ epochAt buffer b)

/-- Transcription of the concatenation loop of Dir Merge: decode each
record at its sorted offset and append the value. -/
def mergeOut (buffer : Bytes) (sorted : List Nat) : Bytes :=
  (sorted.map fun off =>
    match getVarint (buffer.drop off) with
    | some r =>
      match getLenPrefixed r.2 with
      | some q => q.1
      | none => []
    | none => []).flatten

/-- The value Read returns in parallel mode, given the task interleaving
and the merge sort outcome. -/
def Dir.readParallelOut (out : List (Nat × Bytes)) (sorted : List Nat) : Bytes :=
  mergeOut (recordBuffer out) sorted

/-- Transcription of Dir Open (named openDir since open is reserved):
read and decode the trailing footer, then load the epoch index block it
points at. -/
def Dir.openDir (opts : DirOptions) (dataSrc indxSrc : Bytes) : Except Status Dir :=
  if indxSrc.length < footerEncodeLength then
    .error (.corruption "Dir index too short to be valid")
  else
    match Footer.decodeFrom (indxSrc.drop (indxSrc.length - footerEncodeLength)) with
    | none => .error (.corruption "bad footer")
    | some f =>
      match readBlock indxSrc opts f.epochIndexHandle.offset f.epochIndexHandle.size with
      | .error st => .error st
      | .ok contents =>
        match decodeBlock contents with
        | none => .error (.corruption "bad epoch index block")
        | some entries =>
          .ok ⟨opts, f.numEpoches, dataSrc, indxSrc, entries⟩

deriving instance DecidableEq for Except

instance (d : Dir) (key : Bytes) (keyHash : Nat) (out : List (Nat × Bytes)) :
    Decidable (IsParallelOutcome d key keyHash out) := by
  unfold IsParallelOutcome; infer_instance

instance (buffer : Bytes) (offsets sorted : List Nat) :
    Decidable (MergeSortOutcome buffer offsets sorted) := by
  unfold MergeSortOutcome; infer_instance

/-! A concrete two-value directory: one epoch, one table, the key 97
written twice with values 88 then 89, built by the table logger and
reopened through the reader. -/

def c2Opts : DirOptions := { exOptsBase with uniqueKeys := false }

def c2Writer : Status × TableLogger :=
  (((TableLogger.create c2Opts ⟨[], false⟩ ⟨[], false⟩).add [97] [88]).add
    [97] [89]).finish

def c2Dir : Except Status Dir :=
  Dir.openDir c2Opts c2Writer.2.dataSink.data c2Writer.2.indxSink.data

def c2DirV : Dir := c2Dir.toOption.getD ⟨c2Opts, 0, [], [], []⟩

def c2Out : List (Nat × Bytes) := [(0, [88]), (0, [89])]

set_option maxHeartbeats 40000000 in
/-- C2 counterexample: on a directory holding two values of one key in a
single epoch (so unique_keys is off), the serial read path returns 88
then 89, while a legitimate std::sort outcome of the Merge step - the
offsets swapped, allowed because both records carry epoch id 0 and
std::sort is not stable - makes the parallel path return 89 then 88, so
the parallel result is not byte-identical to the serial one. -/
theorem C2_parallel_read_counterexample :
    c2Writer.1 = Status.ok ∧
    c2Dir = Except.ok c2DirV ∧
    c2DirV.readSerial [97] 0 = Except.ok [88, 89] ∧
    IsParallelOutcome c2DirV [97] 0 c2Out ∧
    MergeSortOutcome (recordBuffer c2Out) (recordOffsets c2Out) [3, 0] ∧
    Dir.readParallelOut c2Out [3, 0] = [89, 88] ∧
    ([89, 88] : Bytes) ≠ [88, 89] := by
  exact ⟨by decide, by decide, by decide, by decide, by decide, by decide,
    by decide⟩

set_option maxHeartbeats 40000000 in
/-- Closed witness for the amended C3 at a concrete finished directory. -/
theorem C3_tail_padding_amended_witness :
    (c3Run.opts.tailPadding = true ∧ 0 < c3Run.opts.indexBuffer ∧
      (c3Run.finish).1 = Status.ok) ∧
    c3Run.opts.indexBuffer ∣ (c3Run.finish).2.indxSink.data.length :=
  ⟨⟨rfl, by decide, by decide⟩,
   C3_tail_padding_amended c3Run rfl (by decide) (by decide)⟩

/-! Serial reads reuse one epoch iterator across epochs.  On a strictly
sorted epoch index, a reused iterator position coincides with what a
fresh seek would find, so the serial loop computes the same per-epoch
values as independent per-epoch gets - the fact the parallel path relies
on. -/

theorem seekIdx_cons_pos (e : Bytes × Bytes) (rest : List (Bytes × Bytes))
    (target : Bytes) (h : byteLt e.1 target) :
    seekIdx (e :: rest) target = seekIdx rest target + 1 := by
  unfold seekIdx
  rw [List.findIdx_cons]
  have hfalse : (!(byteCmp e.1 target == Ordering.lt)) = false := by
    rw [byteLt] at h; rw [h]; rfl
  rw [hfalse]
  rfl

theorem seekIdx_cons_self (e : Bytes × Bytes) (rest : List (Bytes × Bytes)) :
    seekIdx (e :: rest) e.1 = 0 := by
  unfold seekIdx
  rw [List.findIdx_cons]
  have htrue : (!(byteCmp e.1 e.1 == Ordering.lt)) = true := by
    rw [byteCmp_self]; rfl
  rw [htrue]
  rfl

theorem seekIdx_of_sorted :
    ∀ (entries : List (Bytes × Bytes)),
      entries.Pairwise (fun a b => byteLt a.1 b.1) →
      ∀ (pos : Nat) (hpos : pos < entries.length),
        seekIdx entries (entries.get ⟨pos, hpos⟩).1 = pos
  | [], _, pos, hpos => absurd hpos (by simp)
  | e :: rest, hs, 0, _ => seekIdx_cons_self e rest
  | e :: rest, hs, m + 1, hpos => by
    have hm : m < rest.length := by simpa using hpos
    have htarget : ((e :: rest).get ⟨m + 1, hpos⟩) = rest.get ⟨m, hm⟩ := rfl
    rw [htarget]
    have hlt : byteLt e.1 (rest.get ⟨m, hm⟩).1 :=
      (List.pairwise_cons.1 hs).1 _ (List.get_mem rest m hm)
    rw [seekIdx_cons_pos e rest _ hlt,
      seekIdx_of_sorted rest (List.pairwise_cons.1 hs).2 m hm]

/-- The iterator normalization at the head of the Get table loop: with a
strictly sorted epoch index, reusing a valid matching position equals
seeking afresh. -/
theorem getLoop_normIter {entries : List (Bytes × Bytes)}
    (hs : entries.Pairwise fun a b => byteLt a.1 b.1)
    (x : BlockIter) (hx : x.entries = entries) (ek : Bytes) :
    (if x.valid ∧ x.key = ek then x else x.seek ek)
      = ⟨entries, seekIdx entries ek⟩ := by
  subst hx
  by_cases h : x.valid = true ∧ x.key = ek
  · rw [if_pos h]
    obtain ⟨hv, hk⟩ := h
    have hpos : x.pos < x.entries.length := by
      unfold BlockIter.valid at hv
      exact of_decide_eq_true hv
    unfold BlockIter.key at hk
    have hget : x.entries.getD x.pos ([], []) = x.entries.get ⟨x.pos, hpos⟩ := by
      rw [List.getD_eq_getElem?_getD, List.getElem?_eq_getElem hpos]
      rfl
    rw [hget] at hk
    cases x with
    | mk es pos =>
      simp only at hpos hk ⊢
      rw [← hk, seekIdx_of_sorted es hs pos hpos]
  · rw [if_neg h]
    rfl

theorem Dir.getLoop_congr (d : Dir) (key : Bytes) (kh epoch fuel table : Nat)
    (acc : List Bytes) (x y : BlockIter)
    (hs : d.epochs.Pairwise fun a b => byteLt a.1 b.1)
    (hx : x.entries = d.epochs) (hy : y.entries = d.epochs) :
    Dir.getLoop d key kh epoch (fuel + 1) table x acc
      = Dir.getLoop d key kh epoch (fuel + 1) table y acc := by
  rw [Dir.getLoop, Dir.getLoop]
  simp only []
  rw [getLoop_normIter hs x hx, getLoop_normIter hs y hy]

theorem Dir.getLoop_iter_entries (d : Dir) (key : Bytes) (kh epoch : Nat) :
    ∀ (fuel table : Nat) (x : BlockIter) (acc : List Bytes),
      (Dir.getLoop d key kh epoch fuel table x acc).iter.entries = x.entries
  | 0, table, x, acc => rfl
  | fuel + 1, table, x, acc => by
    rw [Dir.getLoop]
    simp only []
    have hit1 : (if x.valid ∧ x.key = epochKey epoch table then x
        else x.seek (epochKey epoch table)).entries = x.entries := by
      split <;> rfl
    generalize hgen : (if x.valid ∧ x.key = epochKey epoch table then x
        else x.seek (epochKey epoch table)) = it1 at hit1 ⊢
    split
    · exact hit1
    · split
      · exact hit1
      · split
        · exact hit1
        · split
          · exact hit1
          · split
            · exact hit1
            · rw [Dir.getLoop_iter_entries d key kh epoch fuel _ _ _]
              exact hit1

theorem Dir.get_congr (d : Dir) (key : Bytes) (kh epoch : Nat) (x : BlockIter)
    (hs : d.epochs.Pairwise fun a b => byteLt a.1 b.1)
    (hx : x.entries = d.epochs) :
    d.get key kh epoch x = d.get key kh epoch (BlockIter.fresh d.epochs) := by
  unfold Dir.get
  exact Dir.getLoop_congr d key kh epoch _ 0 [] x _ hs hx rfl

theorem Dir.readSerialLoop_ok (d : Dir) (key : Bytes) (kh : Nat)
    (hs : d.epochs.Pairwise fun a b => byteLt a.1 b.1) :
    ∀ (remaining epoch : Nat) (it : BlockIter) (dst dst2 : Bytes),
      it.entries = d.epochs →
      Dir.readSerialLoop d key kh remaining epoch it dst = .ok dst2 →
      dst2 = dst ++ ((List.range remaining).map
        (fun i => (d.epochValues key kh (epoch + i)).flatten)).flatten
  | 0, epoch, it, dst, dst2, hit, h => by
    rw [Dir.readSerialLoop] at h
    cases h
    simp
  | n + 1, epoch, it, dst, dst2, hit, h => by
    rw [Dir.readSerialLoop] at h
    by_cases hok : (d.get key kh epoch it).status.isOk = true
    · rw [if_pos hok] at h
      have hiter : (d.get key kh epoch it).iter.entries = d.epochs := by
        unfold Dir.get
        rw [Dir.getLoop_iter_entries]
        exact hit
      have hrec := Dir.readSerialLoop_ok d key kh hs n (epoch + 1) _ _ _ hiter h
      have hv : d.get key kh epoch it = d.get key kh epoch (BlockIter.fresh d.epochs) :=
        Dir.get_congr d key kh epoch it hs hit
      rw [hrec, hv]
      rw [List.range_succ_eq_map, List.map_cons, List.flatten_cons, List.map_map]
      have harg : ((fun i => (d.epochValues key kh (epoch + i)).flatten) ∘ Nat.succ)
          = fun i => (d.epochValues key kh (epoch + 1 + i)).flatten := by
        funext i
        show (d.epochValues key kh (epoch + (i + 1))).flatten = _
        rw [show epoch + (i + 1) = epoch + 1 + i from by omega]
      rw [harg]
      simp [Dir.epochValues, List.append_assoc]
    · rw [if_neg hok] at h
      exact absurd h (by simp)

theorem Dir.readSerial_ok (d : Dir) (key : Bytes) (kh : Nat) (dst : Bytes)
    (hs : d.epochs.Pairwise fun a b => byteLt a.1 b.1)
    (h : d.readSerial key kh = .ok dst) :
    dst = ((List.range d.numEpoches).map
      (fun e => (d.epochValues key kh e).flatten)).flatten := by
  have hh := Dir.readSerialLoop_ok d key kh hs d.numEpoches 0 _ [] dst rfl h
  simpa using hh

/-! The parallel merge: decoding the scratch buffer back gives the
interleaved records, and sorting offsets by epoch recovers the epoch
order when each epoch holds at most one record. -/

/-- Decode one record of the parallel scratch buffer at an offset. -/
def recordAt (buffer : Bytes) (off : Nat) : Nat × Bytes :=
  match getVarint (buffer.drop off) with
  | some r =>
    match getLenPrefixed r.2 with
    | some q => (r.1, q.1)
    | none => (r.1, [])
  | none => (0, [])

theorem epochAt_eq_recordAt_fst (buffer : Bytes) (off : Nat) :
    epochAt buffer off = (recordAt buffer off).1 := by
  unfold epochAt recordAt
  cases getVarint (buffer.drop off) with
  | none => rfl
  | some r =>
    show r.1 = (match getLenPrefixed r.2 with
      | some q => (r.1, q.1)
      | none => (r.1, ([] : Bytes))).1
    cases getLenPrefixed r.2 <;> rfl

theorem mergeOut_eq_map_recordAt (buffer : Bytes) (sorted : List Nat) :
    mergeOut buffer sorted
      = (sorted.map fun off => (recordAt buffer off).2).flatten := by
  unfold mergeOut
  congr 1
  apply List.map_congr_left
  intro off _
  unfold recordAt
  cases getVarint (buffer.drop off) with
  | none => rfl
  | some r =>
    show (match getLenPrefixed r.2 with
      | some q => q.1
      | none => ([] : Bytes)) = (match getLenPrefixed r.2 with
      | some q => (r.1, q.1)
      | none => (r.1, ([] : Bytes))).2
    cases getLenPrefixed r.2 <;> rfl

theorem recordAt_offsetsAux :
    ∀ (out : List (Nat × Bytes)) (pre : Bytes),
      (recordOffsetsAux pre.length out).map (recordAt (pre ++ recordBuffer out)) = out
  | [], pre => rfl
  | p :: rest, pre => by
    rw [recordOffsetsAux, List.map_cons]
    have hbuf : recordBuffer (p :: rest) = recordBytes p ++ recordBuffer rest := by
      unfold recordBuffer
      rw [List.map_cons, List.flatten_cons]
    have hhead : recordAt (pre ++ recordBuffer (p :: rest)) pre.length = p := by
      rw [hbuf]
      unfold recordAt
      rw [List.drop_left]
      unfold recordBytes
      rw [List.append_assoc, getVarint_putVarint]
      show (match getLenPrefixed (putLenPrefixed p.2 ++ recordBuffer rest) with
        | some q => (p.1, q.1)
        | none => (p.1, ([] : Bytes))) = p
      rw [getLenPrefixed_putLenPrefixed]
    have htail : (recordOffsetsAux (pre.length + (recordBytes p).length) rest).map
        (recordAt (pre ++ recordBuffer (p :: rest))) = rest := by
      rw [hbuf, ← List.append_assoc,
        show pre.length + (recordBytes p).length = (pre ++ recordBytes p).length from
          (List.length_append _ _).symm]
      exact recordAt_offsetsAux rest (pre ++ recordBytes p)
    rw [hhead, htail]

theorem recordAt_offsets (out : List (Nat × Bytes)) :
    (recordOffsets out).map (recordAt (recordBuffer out)) = out := by
  have hh := recordAt_offsetsAux out []
  simpa [recordOffsets] using hh

theorem pairwise_fst_ne_of_le_one (N : Nat) :
    ∀ (out : List (Nat × Bytes)),
      (∀ p ∈ out, p.1 < N) →
      (∀ e, e < N → (out.filter fun p => p.1 == e).length ≤ 1) →
      out.Pairwise fun p q => p.1 ≠ q.1
  | [], _, _ => List.Pairwise.nil
  | p :: rest, hmem, hone => by
    refine List.Pairwise.cons ?_ (pairwise_fst_ne_of_le_one N rest
      (fun q hq => hmem q (List.mem_cons_of_mem _ hq)) ?_)
    · intro q hq heq
      have h1 := hone p.1 (hmem p (List.mem_cons_self _ _))
      rw [List.filter_cons, if_pos (by simp)] at h1
      have h2 : (rest.filter fun r => r.1 == p.1) = [] := by
        rw [List.length_cons] at h1
        exact List.length_eq_zero.1 (by omega)
      have hqf : q ∈ rest.filter fun r => r.1 == p.1 :=
        List.mem_filter.2 ⟨hq, by simp [heq]⟩
      rw [h2] at hqf
      exact absurd hqf (List.not_mem_nil q)
    · intro e he
      have h1 := hone e he
      rw [List.filter_cons] at h1
      by_cases hpe : (p.1 == e) = true
      · rw [if_pos hpe, List.length_cons] at h1
        omega
      · rw [if_neg hpe] at h1
        exact h1

theorem flatten_filter_cons_perm :
    ∀ (es : List Nat) (p : Nat × Bytes) (l : List (Nat × Bytes)),
      es.Nodup → p.1 ∈ es →
      ((es.map fun e => (p :: l).filter fun q => q.1 == e).flatten).Perm
        (p :: (es.map fun e => l.filter fun q => q.1 == e).flatten)
  | [], p, l, _, hmem => absurd hmem (List.not_mem_nil _)
  | e :: es', p, l, hnd, hmem => by
    rw [List.map_cons, List.flatten_cons, List.map_cons, List.flatten_cons]
    by_cases hpe : p.1 = e
    · have hfe : (p :: l).filter (fun q => q.1 == e)
          = p :: l.filter fun q => q.1 == e := by
        rw [List.filter_cons, if_pos (by simp [hpe])]
      rw [hfe]
      have htail : (es'.map fun e2 => (p :: l).filter fun q => q.1 == e2)
          = es'.map fun e2 => l.filter fun q => q.1 == e2 := by
        apply List.map_congr_left
        intro e2 he2
        have hne : p.1 ≠ e2 := by
          rw [hpe]
          exact fun hc => (List.nodup_cons.1 hnd).1 (hc ▸ he2)
        rw [List.filter_cons, if_neg (by simp [hne])]
      rw [htail, List.cons_append]
    · have hfe : (p :: l).filter (fun q => q.1 == e)
          = l.filter fun q => q.1 == e := by
        rw [List.filter_cons, if_neg (by simp [hpe])]
      rw [hfe]
      have hmem2 : p.1 ∈ es' := by
        rcases List.mem_cons.1 hmem with hc | hc
        · exact absurd hc hpe
        · exact hc
      have hperm := flatten_filter_cons_perm es' p l (List.nodup_cons.1 hnd).2 hmem2
      exact (hperm.append_left _).trans List.perm_middle

theorem flatten_filter_range_perm (N : Nat) :
    ∀ (l : List (Nat × Bytes)), (∀ p ∈ l, p.1 < N) →
      (((List.range N).map fun e => l.filter fun q => q.1 == e).flatten).Perm l
  | [], _ => by simp
  | p :: rest, hmem => by
    have h1 := flatten_filter_cons_perm (List.range N) p rest (List.nodup_range N)
      (List.mem_range.2 (hmem p (List.mem_cons_self _ _)))
    have h2 := flatten_filter_range_perm N rest
      fun q hq => hmem q (List.mem_cons_of_mem _ hq)
    exact h1.trans (h2.cons p)

theorem flatten_flatten : ∀ (L : List (List (List Nat))),
    L.flatten.flatten = (L.map List.flatten).flatten
  | [] => rfl
  | l :: L => by
    rw [List.flatten_cons, List.flatten_append, List.map_cons, List.flatten_cons,
      flatten_flatten L]

/-- C2 (amended): with parallel reads, sorting the scratch records by
epoch id with an unstable sort still reproduces the serial result
whenever each epoch contributes at most one record for the key - in
particular whenever keys are unique - provided the epoch index is
strictly sorted, as the table logger builds it. -/
theorem C2_parallel_read_amended (d : Dir) (key : Bytes) (kh : Nat)
    (out : List (Nat × Bytes)) (sorted : List Nat) (dst : Bytes)
    (hs : d.epochs.Pairwise fun a b => byteLt a.1 b.1)
    (hone : ∀ e, e < d.numEpoches → (d.epochValues key kh e).length ≤ 1)
    (hout : IsParallelOutcome d key kh out)
    (hsorted : MergeSortOutcome (recordBuffer out) (recordOffsets out) sorted)
    (hserial : d.readSerial key kh = .ok dst) :
    Dir.readParallelOut out sorted = dst := by
  obtain ⟨hmem, hvals⟩ := hout
  obtain ⟨hperm0, hpair0⟩ := hsorted
  have hdst := Dir.readSerial_ok d key kh dst hs hserial
  have hfilterlen : ∀ e, e < d.numEpoches →
      (out.filter fun p => p.1 == e).length ≤ 1 := by
    intro e he
    have hlen : ((out.filter fun p => p.1 == e).map Prod.snd).length
        = (d.epochValues key kh e).length := by rw [hvals e he]
    rw [List.length_map] at hlen
    rw [hlen]
    exact hone e he
  have hne_out := pairwise_fst_ne_of_le_one d.numEpoches out hmem hfilterlen
  have hpermRec : (sorted.map (recordAt (recordBuffer out))).Perm out := by
    have hh := hperm0.map (recordAt (recordBuffer out))
    rw [recordAt_offsets] at hh
    exact hh
  have hpermSpec := flatten_filter_range_perm d.numEpoches out hmem
  have hsortedRec : (sorted.map (recordAt (recordBuffer out))).Pairwise
      fun a b => a.1 ≤ b.1 := by
    rw [List.pairwise_map]
    exact hpair0.imp fun {a b} hab => by
      rw [epochAt_eq_recordAt_fst, epochAt_eq_recordAt_fst] at hab
      exact hab
  have hsortedSpec : (((List.range d.numEpoches).map
      fun e => out.filter fun q => q.1 == e).flatten).Pairwise
        fun a b => a.1 ≤ b.1 := by
    rw [List.pairwise_flatten]
    constructor
    · intro s hsm
      rw [List.mem_map] at hsm
      obtain ⟨e, _, hse⟩ := hsm
      apply List.pairwise_of_forall_mem_list
      intro a ha b hb
      rw [← hse] at ha hb
      have hae : a.1 = e := by simpa using (List.mem_filter.1 ha).2
      have hbe : b.1 = e := by simpa using (List.mem_filter.1 hb).2
      rw [hae, hbe]
    · rw [List.pairwise_map]
      apply List.Pairwise.imp ?_ (List.pairwise_lt_range d.numEpoches)
      intro e1 e2 h12 a ha b hb
      have hae : a.1 = e1 := by simpa using (List.mem_filter.1 ha).2
      have hbe : b.1 = e2 := by simpa using (List.mem_filter.1 hb).2
      rw [hae, hbe]
      exact Nat.le_of_lt h12
  have hneRec : (sorted.map (recordAt (recordBuffer out))).Pairwise
      fun p q => p.1 ≠ q.1 :=
    (hpermRec.pairwise_iff (fun h hc => h hc.symm)).2 hne_out
  have hneSpec : (((List.range d.numEpoches).map
      fun e => out.filter fun q => q.1 == e).flatten).Pairwise
        fun p q => p.1 ≠ q.1 :=
    (hpermSpec.pairwise_iff (fun h hc => h hc.symm)).2 hne_out
  haveI : IsAntisymm (Nat × Bytes) fun a b => a.1 < b.1 :=
    ⟨fun a b h1 h2 => absurd (Nat.lt_trans h1 h2) (Nat.lt_irrefl _)⟩
  have hstrictRec : (sorted.map (recordAt (recordBuffer out))).Pairwise
      (fun a b : Nat × Bytes => a.1 < b.1) :=
    (hsortedRec.and hneRec).imp fun hab => Nat.lt_of_le_of_ne hab.1 hab.2
  have hstrictSpec : (((List.range d.numEpoches).map
      fun e => out.filter fun q => q.1 == e).flatten).Pairwise
        (fun a b : Nat × Bytes => a.1 < b.1) :=
    (hsortedSpec.and hneSpec).imp fun hab => Nat.lt_of_le_of_ne hab.1 hab.2
  have heq : sorted.map (recordAt (recordBuffer out))
      = ((List.range d.numEpoches).map fun e => out.filter fun q => q.1 == e).flatten :=
    List.eq_of_perm_of_sorted (hpermRec.trans hpermSpec.symm) hstrictRec hstrictSpec
  have hpar : Dir.readParallelOut out sorted
      = ((sorted.map (recordAt (recordBuffer out))).map Prod.snd).flatten := by
    unfold Dir.readParallelOut
    rw [mergeOut_eq_map_recordAt, List.map_map]
    rfl
  rw [hpar, heq, hdst]
  rw [List.map_flatten, List.map_map]
  have hcongr : ((List.range d.numEpoches).map
      (List.map Prod.snd ∘ fun e => out.filter fun q => q.1 == e))
      = (List.range d.numEpoches).map fun e => d.epochValues key kh e := by
    apply List.map_congr_left
    intro e he
    show (out.filter fun q => q.1 == e).map Prod.snd = _
    exact hvals e (List.mem_range.1 he)
  rw [hcongr, flatten_flatten, List.map_map]
  rfl

/-! A one-value unique-keys directory for the amended C2 witness. -/

def c2uWriter : Status × TableLogger :=
  ((TableLogger.create exOptsBase ⟨[], false⟩ ⟨[], false⟩).add [97] [88]).finish

def c2uDirV : Dir :=
  (Dir.openDir exOptsBase c2uWriter.2.dataSink.data
    c2uWriter.2.indxSink.data).toOption.getD ⟨exOptsBase, 0, [], [], []⟩

set_option maxHeartbeats 40000000 in
/-- Closed witness for the amended C2 at a one-value directory: the only
parallel outcome and merge order reproduce the serial result 88. -/
theorem C2_parallel_read_amended_witness :
    ((c2uDirV.epochs.Pairwise fun a b => byteLt a.1 b.1) ∧
     (∀ e, e < c2uDirV.numEpoches → (c2uDirV.epochValues [97] 0 e).length ≤ 1) ∧
     IsParallelOutcome c2uDirV [97] 0 [(0, [88])] ∧
     MergeSortOutcome (recordBuffer [(0, [88])]) (recordOffsets [(0, [88])]) [0] ∧
     c2uDirV.readSerial [97] 0 = Except.ok [88]) ∧
    Dir.readParallelOut [(0, [88])] [0] = [88] :=
  ⟨⟨by decide, by decide, by decide, by decide, by decide⟩,
   C2_parallel_read_amended c2uDirV [97] 0 [(0, [88])] [0] [88]
     (by decide) (by decide) (by decide) (by decide) (by decide)⟩

instance (wb : WriteBuffer) (sorted : List Nat) :
    Decidable (SortOutcome wb sorted) := by
  unfold SortOutcome; infer_instance

/-! C5: the write buffer 97 maps to 88 then to 89; FinishAndSort may
swap the two equal keys, and the swap propagates through compaction and
the reader. -/

def c5Buffer : WriteBuffer := (WriteBuffer.create.add [97] [88]).add [97] [89]

/-- Write the key 97 twice (value 88 then value 89) through the logger,
then flush as a final epoch flush, with the compaction sort outcome
supplied from outside. -/
def c5Driver (sorted : List Nat) : Option (Status × DirLogger) :=
  let d0 := DirLogger.create c2Opts 1000 1000 0 ⟨[], false⟩ ⟨[], false⟩
  match d0.add (fun _ => 0) [] [97] [88] with
  | none => none
  | some (_, d1) =>
    match d1.add (fun _ => 0) [] [97] [89] with
    | none => none
    | some (_, d2) => d2.flush (fun _ => 0) sorted false true true

def c5DirV : Dir :=
  match c5Driver [4, 0] with
  | some (_, d) =>
    (Dir.openDir c2Opts d.tl.dataSink.data d.tl.indxSink.data).toOption.getD
      ⟨c2Opts, 0, [], [], []⟩
  | none => ⟨c2Opts, 0, [], [], []⟩

set_option maxHeartbeats 40000000 in
/-- C5 counterexample: the memtable holds the entries of key 97 in
insertion order 88 then 89 at offsets 0 and 4; the swapped offset list
is a legitimate std::sort outcome of FinishAndSort, because both entries
have equal keys and std::sort is not stable, and with it the flushed
directory serves Read(97) as 89 followed by 88 - not the in-block
insertion order the claim promises. -/
theorem C5_multi_value_order_counterexample :
    c5Buffer.offsets = [0, 4] ∧
    c5Buffer.iterEntries = [([97], [88]), ([97], [89])] ∧
    SortOutcome c5Buffer [4, 0] ∧
    (c5Buffer.finishAndSorted [4, 0]).iterEntries
      = [([97], [89]), ([97], [88])] ∧
    (c5Driver [4, 0]).map Prod.fst = some Status.ok ∧
    c5DirV.readSerial [97] 0 = Except.ok [89, 88] ∧
    ([89, 88] : Bytes) ≠ [88, 89] := by
  exact ⟨by decide, by decide, by decide, by decide, by decide, by decide,
    by decide⟩

theorem WriteBuffer.keyAt_eq_entryAt_fst (wb : WriteBuffer) (off : Nat) :
    wb.keyAt off = (wb.entryAt off).1 := by
  unfold WriteBuffer.keyAt WriteBuffer.entryAt
  cases h1 : getLenPrefixed (wb.buffer.drop off) with
  | none => rfl
  | some r =>
    obtain ⟨k, rest⟩ := r
    cases h2 : getLenPrefixed rest with
    | none => simp [h2]
    | some q => simp [h2]

/-- C5 (amended): whatever outcome std::sort picks in FinishAndSort, the
entries the sorted write buffer yields are a permutation of the inserted
entries whose keys are in non-decreasing order; the relative order of
equal keys is unspecified since std::sort is not stable. -/
theorem C5_multi_value_order_amended (wb : WriteBuffer) (sorted : List Nat)
    (h : SortOutcome wb sorted) :
    (wb.finishAndSorted sorted).iterEntries.Perm (wb.offsets.map wb.entryAt) ∧
    (wb.finishAndSorted sorted).iterEntries.Pairwise
      fun a b => byteLe a.1 b.1 := by
  obtain ⟨hperm, hsort⟩ := h
  constructor
  · exact hperm.map wb.entryAt
  · show (sorted.map wb.entryAt).Pairwise fun a b => byteLe a.1 b.1
    rw [List.pairwise_map]
    apply hsort.imp
    intro a b hab
    rwa [WriteBuffer.keyAt_eq_entryAt_fst, WriteBuffer.keyAt_eq_entryAt_fst]
      at hab

/-- Closed witness for the amended C5 at the two-entry buffer with the
identity sort outcome. -/
theorem C5_multi_value_order_amended_witness :
    SortOutcome c5Buffer [0, 4] ∧
    ((c5Buffer.finishAndSorted [0, 4]).iterEntries.Perm
        (c5Buffer.offsets.map c5Buffer.entryAt) ∧
     (c5Buffer.finishAndSorted [0, 4]).iterEntries.Pairwise
        fun a b => byteLe a.1 b.1) :=
  ⟨by decide, C5_multi_value_order_amended c5Buffer [0, 4] (by decide)⟩

/-! C9: index separators.  EndBlock leaves the index entry pending; the
next Add keys it with FindShortestSeparator(last key of the ended block,
incoming key).  When the two are equal - possible across a block
boundary with unique_keys off - the separator equals the first key of
the following block. -/

theorem TableLogger.endBlock_uncommitted (t : TableLogger) :
    t.endBlock.uncommittedIndexes = t.uncommittedIndexes := by
  unfold TableLogger.endBlock
  simp [apply_ite (fun x : TableLogger => x.uncommittedIndexes)]

def c9Opts : DirOptions :=
  { exOptsBase with uniqueKeys := false, blockUtilized := 10 }

/-- A finished two-block table from the non-decreasing key sequence
97, 97: the harsh utilization target ends a block after every entry. -/
def c9Table : TableLogger :=
  (((TableLogger.create c9Opts ⟨[], false⟩ ⟨[], false⟩).add [97] [120]).add
    [97] [121]).endTable none

/-- The entries of the index block the table wrote, recovered from the
index log through the handle EndTable recorded. -/
def c9IndexEntries : List (Bytes × Bytes) :=
  match readBlock c9Table.indxSink.data c9Opts c9Table.pendingMetaHandle.offset
      c9Table.pendingMetaHandle.size with
  | .ok body => (decodeBlock body).getD []
  | .error _ => []

/-- The keys of the data block the i-th index entry points at. -/
def c9BlockKeys (i : Nat) : List Bytes :=
  match BlockHandle.decodeFrom ((c9IndexEntries.getD i ([], [])).2) with
  | some r =>
    match readBlock c9Table.dataSink.data c9Opts r.1.offset r.1.size with
    | .ok body => ((decodeBlock body).getD []).map Prod.fst
    | .error _ => []
  | none => []

set_option maxHeartbeats 40000000 in
/-- C9 counterexample: on the non-decreasing (not strictly increasing)
key sequence 97, 97 the finished table has two one-entry data blocks and
its index block keys the first of them with separator 97, which is not
strictly below the first key 97 of the following block. -/
theorem C9_index_separator_counterexample :
    byteLe ([97] : Bytes) [97] ∧
    c9Table.status = Status.ok ∧
    c9IndexEntries.length = 2 ∧
    (c9IndexEntries.getD 0 ([], [])).1 = [97] ∧
    c9BlockKeys 0 = [[97]] ∧
    c9BlockKeys 1 = [[97]] ∧
    ¬ byteLt (c9IndexEntries.getD 0 ([], [])).1 [97] := by
  exact ⟨by decide, by decide, by decide, by decide, by decide, by decide,
    by decide⟩

/-- C9 (amended): when the incoming key is strictly above the last key
of the block just ended - guaranteed whenever the key sequence is
strictly increasing, in particular under unique_keys - the index entry
Add emits for that block is keyed by a separator s with
last key of covered block le s and s lt first key of the following
block, carrying the handle of the covered block. -/
theorem C9_index_separator_amended (t : TableLogger) (key value : Bytes)
    (hok : t.ok = true) (hpend : t.pendingIndexEntry = true)
    (hnocommit : ¬ t.dataBlock.store.length + t.opts.blockSize
      > t.opts.blockBuffer)
    (hlt : byteLt t.lastKey key) :
    (t.add key value).uncommittedIndexes
      = t.uncommittedIndexes
        ++ putLenPrefixed (findShortestSeparator t.lastKey key)
        ++ t.pendingIndexHandle.encodeTo ∧
    byteLe t.lastKey (findShortestSeparator t.lastKey key) ∧
    byteLt (findShortestSeparator t.lastKey key) key := by
  refine ⟨?_, findShortestSeparator_ge _ _, findShortestSeparator_lt hlt⟩
  unfold TableLogger.add
  rw [if_neg (by rw [hok]; simp)]
  by_cases hsk : t.smallestKey = [] <;>
    simp [hsk, hpend, hnocommit,
      apply_ite (fun x : TableLogger => x.uncommittedIndexes),
      TableLogger.endBlock_uncommitted]

/-- A one-block-pending logger for the amended C9 witness. -/
def c9WitnessState : TableLogger :=
  (TableLogger.create { exOptsBase with blockUtilized := 10 } ⟨[], false⟩
    ⟨[], false⟩).add [97] [120]

set_option maxHeartbeats 40000000 in
/-- Closed witness for the amended C9: after writing key 97 and ending
its block, adding the strictly larger key 98 emits the index entry for
the first block keyed by the separator 97. -/
theorem C9_index_separator_amended_witness :
    (c9WitnessState.ok = true ∧ c9WitnessState.pendingIndexEntry = true ∧
     (¬ c9WitnessState.dataBlock.store.length + c9WitnessState.opts.blockSize
        > c9WitnessState.opts.blockBuffer) ∧
     byteLt c9WitnessState.lastKey [98]) ∧
    ((c9WitnessState.add [98] [121]).uncommittedIndexes
      = c9WitnessState.uncommittedIndexes
        ++ putLenPrefixed (findShortestSeparator c9WitnessState.lastKey [98])
        ++ c9WitnessState.pendingIndexHandle.encodeTo ∧
     byteLe c9WitnessState.lastKey
       (findShortestSeparator c9WitnessState.lastKey [98]) ∧
     byteLt (findShortestSeparator c9WitnessState.lastKey [98]) [98]) :=
  ⟨⟨by decide, by decide, by decide, by decide⟩,
   C9_index_separator_amended c9WitnessState [98] [121]
     (by decide) (by decide) (by decide) (by decide)⟩

/-! C10: EndBlock records block handles relative to the staged block
buffer; Commit flushes the buffer to the data sink and rebases every
buffered handle by the sink write offset, making it absolute. -/

/-- The uncommitted index entries, decoded from the staging buffer. -/
def decodeUncommitted : Nat → Bytes → List (Bytes × BlockHandle)
  | _, [] => []
  | 0, _ :: _ => []
  | fuel + 1, input@(_ :: _) =>
    match getLenPrefixed input with
    | none => []
    | some (key, r1) =>
      match BlockHandle.decodeFrom r1 with
      | none => []
      | some (h, r2) => (key, h) :: decodeUncommitted fuel r2

theorem commitIndexLoop_eq (off : Nat) :
    ∀ (fuel : Nat) (input : Bytes) (henc : Bytes) (ib : BlockBuilder),
      commitIndexLoop fuel input off henc ib
        = ((decodeUncommitted fuel input).foldl
            (fun s e =>
              (s.1 ++ BlockHandle.encodeTo ⟨off + e.2.offset, e.2.size⟩,
               s.2.add e.1
                 (s.1 ++ BlockHandle.encodeTo ⟨off + e.2.offset, e.2.size⟩)))
            (henc, ib)).2
  | 0, [], _, _ => rfl
  | 0, _ :: _, _, _ => rfl
  | _ + 1, [], _, _ => rfl
  | fuel + 1, x :: xs, henc, ib => by
    rw [commitIndexLoop, decodeUncommitted]
    split
    · rfl
    · split
      · rfl
      · rw [commitIndexLoop_eq off fuel _ _ _]
        rfl

/-- Finalize only appends to the store and keeps the block start. -/
theorem BlockBuilder.finalize_shape (b : BlockBuilder) (crc : Bool)
    (padTo : Option Nat) :
    ∃ extra, (b.finalize crc padTo).2 = { b with store := b.store ++ extra } ∧
      (b.finalize crc padTo).1 = (b.store ++ extra).drop b.blockStart := by
  unfold BlockBuilder.finalize
  cases padTo with
  | none => exact ⟨_, rfl, rfl⟩
  | some p =>
    by_cases hp : p = 0
    · subst hp
      exact ⟨_, rfl, rfl⟩
    · simp only [hp, if_false]
      refine ⟨(0 :: (if crc = true then
            putFixed32 (crcMask (crc32cValue (List.drop b.blockStart b.store ++ [0])))
          else putFixed32 0)) ++ List.replicate
            ((p - (List.length (b.store ++ 0 :: (if crc = true then
                putFixed32 (crcMask (crc32cValue (List.drop b.blockStart b.store ++ [0])))
              else putFixed32 0)) - b.blockStart) % p) % p) 0, ?_, ?_⟩
      · rw [← List.append_assoc]
      · rw [← List.append_assoc]

/-- EndBlock records the handle of the closed block relative to the
staged block buffer: the offset is the block start inside the buffer,
the size is that of the block body excluding trailer and padding, and
the buffer at that offset holds exactly the body. -/
theorem TableLogger.endBlock_handle_relative (t : TableLogger)
    (hok : t.ok = true) (hne : t.dataBlock.empty = false)
    (hbs : t.dataBlock.blockStart ≤ t.dataBlock.store.length) :
    t.endBlock.pendingIndexHandle.offset = t.dataBlock.blockStart ∧
    t.endBlock.pendingIndexHandle.size = t.dataBlock.finish.1.length ∧
    (t.endBlock.dataBlock.store.drop t.dataBlock.blockStart).take
      t.dataBlock.finish.1.length = t.dataBlock.finish.1 := by
  unfold TableLogger.endBlock
  rw [if_neg (by rw [hne]; exact Bool.false_ne_true),
    if_neg (by rw [hok]; simp)]
  simp only []
  have hshape : ∃ extra,
      (if t.opts.blockPadding then
        (t.dataBlock.finish.2).finalize (!t.opts.skipChecksums)
          (some t.opts.blockSize)
      else (t.dataBlock.finish.2).finalize (!t.opts.skipChecksums) none).2
        = { t.dataBlock.finish.2 with
            store := (t.dataBlock.finish.2).store ++ extra } ∧
      (if t.opts.blockPadding then
        (t.dataBlock.finish.2).finalize (!t.opts.skipChecksums)
          (some t.opts.blockSize)
      else (t.dataBlock.finish.2).finalize (!t.opts.skipChecksums) none).1
        = ((t.dataBlock.finish.2).store ++ extra).drop
            (t.dataBlock.finish.2).blockStart := by
    split
    · exact BlockBuilder.finalize_shape _ _ _
    · exact BlockBuilder.finalize_shape _ _ _
  obtain ⟨extra, h2, h1⟩ := hshape
  rw [h2, h1]
  have hfin2store : (t.dataBlock.finish.2).store
      = t.dataBlock.store ++ ((t.dataBlock.restarts.map putFixed32).flatten
        ++ putFixed32 t.dataBlock.restarts.length) := by
    rw [BlockBuilder.finish, List.append_assoc]
  have hfin2start : (t.dataBlock.finish.2).blockStart
      = t.dataBlock.blockStart := rfl
  have hfin1 : t.dataBlock.finish.1 = (t.dataBlock.finish.2).store.drop
      t.dataBlock.blockStart := rfl
  have hbs2 : t.dataBlock.blockStart ≤ (t.dataBlock.finish.2).store.length := by
    rw [hfin2store, List.length_append]
    omega
  refine ⟨?_, ?_, ?_⟩
  · show ((t.dataBlock.finish.2).store ++ extra).length
        - (((t.dataBlock.finish.2).store ++ extra).drop
            (t.dataBlock.finish.2).blockStart).length
      = t.dataBlock.blockStart
    rw [List.length_drop, hfin2start, List.length_append]
    omega
  · trivial
  · show ((({ t.dataBlock.finish.2 with
        store := (t.dataBlock.finish.2).store ++ extra } : BlockBuilder).reset).store.drop
          t.dataBlock.blockStart).take t.dataBlock.finish.1.length
      = t.dataBlock.finish.1
    show ((((t.dataBlock.finish.2).store ++ extra)).drop
          t.dataBlock.blockStart).take t.dataBlock.finish.1.length
      = t.dataBlock.finish.1
    rw [List.drop_append_of_le_length hbs2, hfin1]
    exact List.take_left _ _

/-- A logger holding two closed blocks and two buffered uncommitted
index entries, right before the commit that exhibits the
handle_encoding accumulation. -/
def c10State : TableLogger :=
  (((((TableLogger.create { exOptsBase with blockUtilized := 20 } ⟨[], false⟩
    ⟨[], false⟩).add [97] [120]).add [98] [121]).add [99] [122]).add
    [100] [123]).add [101] [124]

set_option maxHeartbeats 40000000 in
/-- C10, the divergence Commit exhibits: two blocks are closed with
relative handles 0+18 and 23+18, and Commit rebases both by the sink
write offset 0, but re-encodes them onto the never-cleared
handle_encoding string, so the second committed index entry stores the
concatenation of both encodings; the handle a reader decodes from that
value is the first block's, whose block holds keys 97, 98 and not the
keys 99, 100 the entry covers. -/
theorem C10_commit_rebases_offsets_code_bug :
    c10State.status = Status.ok ∧
    c10State.dataSink.ltell = 0 ∧
    (decodeUncommitted c10State.uncommittedIndexes.length
        c10State.uncommittedIndexes).map
      (fun e => (e.1, e.2.offset, e.2.size))
      = [([98], 0, 18), ([100], 23, 18)] ∧
    decodeBlock (c10State.commit.indexBlock.finish.1)
      = some [([98], BlockHandle.encodeTo ⟨0, 18⟩),
          ([100], BlockHandle.encodeTo ⟨0, 18⟩
            ++ BlockHandle.encodeTo ⟨23, 18⟩)] ∧
    BlockHandle.decodeFrom
        (BlockHandle.encodeTo ⟨0, 18⟩ ++ BlockHandle.encodeTo ⟨23, 18⟩)
      = some (⟨0, 18⟩, BlockHandle.encodeTo ⟨23, 18⟩) ∧
    (readBlock c10State.commit.dataSink.data
        { exOptsBase with blockUtilized := 20 } 0 18).toOption.map
      (fun b => (decodeBlock b).map (List.map Prod.fst))
      = some (some [[97], [98]]) ∧
    (readBlock c10State.commit.dataSink.data
        { exOptsBase with blockUtilized := 20 } 23 18).toOption.map
      (fun b => (decodeBlock b).map (List.map Prod.fst))
      = some (some [[99], [100]]) := by
  exact ⟨by decide, by decide, by decide, by decide, by decide, by decide,
    by decide⟩

/-! C1 groundwork, part 1: a block built by the block builder decodes
back to exactly the entries that were added, whatever restart points and
shared prefixes the builder chose. -/

theorem sharedLen_le_right : ∀ (a b : Bytes), sharedLen a b ≤ b.length
  | [], _ => by simp [sharedLen]
  | _ :: _, [] => by simp [sharedLen]
  | a :: as, b :: bs => by
    by_cases h : a = b
    · simp only [sharedLen, h, if_true, List.length_cons]
      exact Nat.succ_le_succ (sharedLen_le_right as bs)
    · simp [sharedLen, h]

/-- Validity of a chain of (shared, key, value) block entries against
the running previous key. -/
def entryChainOk (prev : Bytes) : List (Nat × Bytes × Bytes) → Prop
  | [] => True
  | c :: rest => c.1 ≤ prev.length ∧ c.1 ≤ c.2.1.length ∧
      prev.take c.1 = c.2.1.take c.1 ∧ entryChainOk c.2.1 rest

def encodeChain : List (Nat × Bytes × Bytes) → Bytes
  | [] => []
  | c :: rest => entryEncode c.1 c.2.1 c.2.2 ++ encodeChain rest

theorem encodeChain_length_ge :
    ∀ (chunks : List (Nat × Bytes × Bytes)), chunks.length ≤ (encodeChain chunks).length
  | [] => Nat.le_refl 0
  | c :: rest => by
    rw [encodeChain, List.length_append, List.length_cons]
    have h1 : 1 ≤ (entryEncode c.1 c.2.1 c.2.2).length := by
      unfold entryEncode
      rw [List.length_append, List.length_append, List.length_append,
        List.length_append]
      have := putVarint_length_pos c.1
      omega
    have h2 := encodeChain_length_ge rest
    omega

/-- Unfolding step of entry decoding on non-empty data. -/
theorem decodeEntries_step (fuel : Nat) (data : Bytes) (prev : Bytes)
    (hne : data ≠ []) :
    decodeEntries (fuel + 1) data prev
      = (match getVarint data with
        | none => none
        | some (shared, r1) =>
          match getVarint r1 with
          | none => none
          | some (nonShared, r2) =>
            match getVarint r2 with
            | none => none
            | some (vlen, r3) =>
              if shared ≤ prev.length ∧ nonShared + vlen ≤ r3.length then
                let key := prev.take shared ++ r3.take nonShared
                let rest := r3.drop nonShared
                let value := rest.take vlen
                match decodeEntries fuel (rest.drop vlen) key with
                | some es => some ((key, value) :: es)
                | none => none
              else none) := by
  cases data with
  | nil => exact absurd rfl hne
  | cons b bs => rfl

theorem decodeEntries_encodeChain :
    ∀ (chunks : List (Nat × Bytes × Bytes)) (prev : Bytes) (fuel : Nat),
      entryChainOk prev chunks → chunks.length ≤ fuel →
      decodeEntries fuel (encodeChain chunks) prev
        = some (chunks.map fun c => (c.2.1, c.2.2))
  | [], prev, fuel, _, _ => by
    cases fuel <;> rfl
  | (s, k, v) :: rest, prev, fuel, hok, hfuel => by
    obtain ⟨hs1, hs2, hs3, hrest⟩ := hok
    cases fuel with
    | zero => exact absurd hfuel (by simp)
    | succ f =>
      have hassoc : encodeChain ((s, k, v) :: rest)
          = putVarint s ++ (putVarint (k.length - s) ++ (putVarint v.length ++
            (k.drop s ++ (v ++ encodeChain rest)))) := by
        rw [encodeChain, entryEncode]
        simp [List.append_assoc]
      rw [hassoc, decodeEntries_step f _ prev
        (by simp [putVarint_ne_nil s])]
      simp only [getVarint_putVarint]
      have hlen : (k.drop s).length = k.length - s := List.length_drop ..
      rw [if_pos (by
        refine ⟨hs1, ?_⟩
        simp only [List.length_append, hlen]
        omega)]
      rw [List.take_left' (by rw [hlen]),
        List.drop_left' (by rw [hlen])]
      rw [List.take_left, List.drop_left]
      rw [hs3, List.take_append_drop]
      rw [decodeEntries_encodeChain rest k f hrest (by
        rw [List.length_cons] at hfuel; omega)]
      rfl

/-! C1 groundwork, part 2: characterizing the block builder fold. -/

def blockAddAll (b : BlockBuilder) (es : List (Bytes × Bytes)) : BlockBuilder :=
  es.foldl (fun bb e => bb.add e.1 e.2) b

theorem BlockBuilder.add_proj (b : BlockBuilder) (k v : Bytes) :
    ∃ sh, sh ≤ b.lastKey.length ∧ sh ≤ k.length ∧
      b.lastKey.take sh = k.take sh ∧
      (b.add k v).store = b.store ++ entryEncode sh k v ∧
      (b.add k v).blockStart = b.blockStart ∧
      (b.add k v).restartInterval = b.restartInterval ∧
      (b.add k v).finished = b.finished ∧
      (b.add k v).lastKey = k ∧
      b.restarts.length ≤ (b.add k v).restarts.length ∧
      (b.add k v).restarts.length ≤ b.restarts.length + 1 := by
  unfold BlockBuilder.add
  by_cases hc : b.counter < b.restartInterval
  · rw [if_pos hc]
    exact ⟨sharedLen b.lastKey k, sharedLen_le_left _ _, sharedLen_le_right _ _,
      (sharedLen_take _ _).symm, rfl, rfl, rfl, rfl, rfl, Nat.le_refl _,
      Nat.le_succ _⟩
  · rw [if_neg hc]
    refine ⟨0, Nat.zero_le _, Nat.zero_le _, rfl, rfl, rfl, rfl, rfl, rfl, ?_, ?_⟩
    · rw [List.length_append]
      simp
    · rw [List.length_append]
      simp

theorem blockAddAll_spec :
    ∀ (es : List (Bytes × Bytes)) (b : BlockBuilder),
      ∃ chunks : List (Nat × Bytes × Bytes),
        entryChainOk b.lastKey chunks ∧
        (chunks.map fun c => (c.2.1, c.2.2)) = es ∧
        chunks.length = es.length ∧
        (blockAddAll b es).store = b.store ++ encodeChain chunks ∧
        (blockAddAll b es).blockStart = b.blockStart ∧
        (blockAddAll b es).restartInterval = b.restartInterval ∧
        (blockAddAll b es).finished = b.finished ∧
        (blockAddAll b es).lastKey = (es.map Prod.fst).getLastD b.lastKey ∧
        (blockAddAll b es).restarts.length ≤ b.restarts.length + es.length
  | [], b => by
    refine ⟨[], trivial, rfl, rfl, ?_, rfl, rfl, rfl, rfl, ?_⟩
    · rw [encodeChain, List.append_nil]
      rfl
    · simp [blockAddAll]
  | (k, v) :: rest, b => by
    obtain ⟨sh, hsh1, hsh2, hsh3, hstore, hbs, hri, hfin, hlk, hrge, hrle⟩ :=
      BlockBuilder.add_proj b k v
    obtain ⟨chunks, hok, hmap, hclen, hstore2, hbs2, hri2, hfin2, hlk2, hr2⟩ :=
      blockAddAll_spec rest (b.add k v)
    have hfold : blockAddAll b ((k, v) :: rest) = blockAddAll (b.add k v) rest :=
      rfl
    refine ⟨(sh, k, v) :: chunks, ⟨hsh1, hsh2, hsh3, ?_⟩, ?_, ?_, ?_, ?_, ?_, ?_,
      ?_, ?_⟩
    · rw [← hlk]
      exact hok
    · rw [List.map_cons, hmap]
    · rw [List.length_cons, List.length_cons, hclen]
    · rw [hfold, hstore2, hstore, encodeChain, List.append_assoc]
    · rw [hfold, hbs2, hbs]
    · rw [hfold, hri2, hri]
    · rw [hfold, hfin2, hfin]
    · rw [hfold, hlk2, hlk, List.map_cons, List.getLastD_cons]
    · rw [hfold]
      refine Nat.le_trans hr2 ?_
      rw [List.length_cons]
      omega

theorem BlockBuilder.add_store_le (b : BlockBuilder) (k v : Bytes) :
    b.store.length ≤ (b.add k v).store.length := by
  obtain ⟨sh, _, _, _, hstore, _⟩ := BlockBuilder.add_proj b k v
  rw [hstore, List.length_append]
  omega

theorem BlockBuilder.add_estimate_le (b : BlockBuilder) (k v : Bytes) :
    b.currentSizeEstimate ≤ (b.add k v).currentSizeEstimate := by
  obtain ⟨sh, _, _, _, hstore, hbs, _, _, _, hrge, _⟩ := BlockBuilder.add_proj b k v
  unfold BlockBuilder.currentSizeEstimate
  rw [hstore, hbs, List.length_append]
  omega

theorem blockAddAll_store_le :
    ∀ (es : List (Bytes × Bytes)) (b : BlockBuilder),
      b.store.length ≤ (blockAddAll b es).store.length
  | [], _ => Nat.le_refl _
  | (k, v) :: rest, b =>
    Nat.le_trans (BlockBuilder.add_store_le b k v)
      (blockAddAll_store_le rest (b.add k v))

theorem blockAddAll_estimate_le :
    ∀ (es : List (Bytes × Bytes)) (b : BlockBuilder),
      b.currentSizeEstimate ≤ (blockAddAll b es).currentSizeEstimate
  | [], _ => Nat.le_refl _
  | (k, v) :: rest, b =>
    Nat.le_trans (BlockBuilder.add_estimate_le b k v)
      (blockAddAll_estimate_le rest (b.add k v))

theorem restartsEnc_length (rs : List Nat) :
    ((rs.map putFixed32).flatten).length = 4 * rs.length := by
  induction rs with
  | nil => rfl
  | cons r rs ih =>
    rw [List.map_cons, List.flatten_cons, List.length_append, ih,
      putFixed32_length, List.length_cons]
    omega

/-- The block round trip: a finished block decodes to exactly the added
entries (the restart count must fit in 32 bits for its fixed32 footer
field to survive the trip). -/
theorem decodeBlock_blockAddAll (I : Nat) (es : List (Bytes × Bytes))
    (hn : (blockAddAll (BlockBuilder.create I) es).restarts.length < 4294967296) :
    decodeBlock ((blockAddAll (BlockBuilder.create I) es).finish.1) = some es := by
  obtain ⟨chunks, hok, hmap, hclen, hstore, hbs, _, _, _, _⟩ :=
    blockAddAll_spec es (BlockBuilder.create I)
  rw [show (BlockBuilder.create I).store = [] from rfl, List.nil_append] at hstore
  rw [show (BlockBuilder.create I).blockStart = 0 from rfl] at hbs
  rw [show (BlockBuilder.create I).lastKey = [] from rfl] at hok
  rw [BlockBuilder.finish]
  simp only []
  rw [hbs, List.drop_zero, hstore]
  have hREl : ((blockAddAll (BlockBuilder.create I) es).restarts.map
      putFixed32).flatten.length
      = 4 * (blockAddAll (BlockBuilder.create I) es).restarts.length :=
    restartsEnc_length _
  have hL : (encodeChain chunks
      ++ ((blockAddAll (BlockBuilder.create I) es).restarts.map putFixed32).flatten
      ++ putFixed32 (blockAddAll (BlockBuilder.create I) es).restarts.length).length
      = (encodeChain chunks).length
        + 4 * (blockAddAll (BlockBuilder.create I) es).restarts.length + 4 := by
    rw [List.length_append, List.length_append, hREl, putFixed32_length]
  have hdrop : (encodeChain chunks
      ++ ((blockAddAll (BlockBuilder.create I) es).restarts.map putFixed32).flatten
      ++ putFixed32 (blockAddAll (BlockBuilder.create I) es).restarts.length).drop
        ((encodeChain chunks
          ++ ((blockAddAll (BlockBuilder.create I) es).restarts.map putFixed32).flatten
          ++ putFixed32 (blockAddAll (BlockBuilder.create I) es).restarts.length).length
          - 4)
      = putFixed32 (blockAddAll (BlockBuilder.create I) es).restarts.length := by
    refine List.drop_left' ?_
    rw [List.length_append, hREl, hL]
    omega
  have hget : getFixed32
      (putFixed32 (blockAddAll (BlockBuilder.create I) es).restarts.length)
      = some ((blockAddAll (BlockBuilder.create I) es).restarts.length, []) := by
    rw [← List.append_nil (putFixed32
      (blockAddAll (BlockBuilder.create I) es).restarts.length)]
    exact getFixed32_putFixed32 _ hn []
  have htake : (encodeChain chunks
      ++ ((blockAddAll (BlockBuilder.create I) es).restarts.map putFixed32).flatten
      ++ putFixed32 (blockAddAll (BlockBuilder.create I) es).restarts.length).take
        ((encodeChain chunks
          ++ ((blockAddAll (BlockBuilder.create I) es).restarts.map putFixed32).flatten
          ++ putFixed32 (blockAddAll (BlockBuilder.create I) es).restarts.length).length
          - 4
          - 4 * (blockAddAll (BlockBuilder.create I) es).restarts.length)
      = encodeChain chunks := by
    rw [List.append_assoc]
    refine List.take_left' ?_
    rw [← List.append_assoc, hL]
    omega
  rw [decodeBlock]
  rw [if_neg (by rw [hL]; omega)]
  simp only [hdrop, hget]
  rw [if_pos (by rw [hL]; omega)]
  rw [htake]
  rw [decodeEntries_encodeChain chunks [] _ hok (by
    have h1 := encodeChain_length_ge chunks
    rw [hL]
    omega), hmap]

/-! C1 groundwork, part 3: filling the write buffer and reading its
entries back in iteration order. -/

def wbAddAll (wb : WriteBuffer) (pairs : List (Bytes × Bytes)) : WriteBuffer :=
  pairs.foldl (fun w e => w.add e.1 e.2) wb

def encodePairs : List (Bytes × Bytes) → Bytes
  | [] => []
  | (k, v) :: rest => putLenPrefixed k ++ putLenPrefixed v ++ encodePairs rest

def pairOffsetsAux (base : Nat) : List (Bytes × Bytes) → List Nat
  | [] => []
  | (k, v) :: rest =>
    base :: pairOffsetsAux (base + ((putLenPrefixed k).length
      + (putLenPrefixed v).length)) rest

theorem wbAddAll_spec :
    ∀ (pairs : List (Bytes × Bytes)) (wb : WriteBuffer),
      (wbAddAll wb pairs).buffer = wb.buffer ++ encodePairs pairs ∧
      (wbAddAll wb pairs).offsets
        = wb.offsets ++ pairOffsetsAux wb.buffer.length pairs ∧
      (wbAddAll wb pairs).finished = wb.finished
  | [], wb => by
    refine ⟨?_, ?_, rfl⟩
    · rw [encodePairs, List.append_nil]
      rfl
    · rw [pairOffsetsAux, List.append_nil]
      rfl
  | (k, v) :: rest, wb => by
    obtain ⟨hbuf, hoffs, hfin⟩ := wbAddAll_spec rest (wb.add k v)
    have hfold : wbAddAll wb ((k, v) :: rest) = wbAddAll (wb.add k v) rest := rfl
    have haddbuf : (wb.add k v).buffer
        = wb.buffer ++ (putLenPrefixed k ++ putLenPrefixed v) := by
      rw [WriteBuffer.add]
      rw [List.append_assoc]
    have haddoffs : (wb.add k v).offsets = wb.offsets ++ [wb.buffer.length] := rfl
    refine ⟨?_, ?_, ?_⟩
    · rw [hfold, hbuf, haddbuf, List.append_assoc, encodePairs,
        List.append_assoc]
    · rw [hfold, hoffs, haddoffs, List.append_assoc, pairOffsetsAux]
      congr 1
      rw [haddbuf, List.length_append, List.length_append]
      rfl
    · rw [hfold, hfin]
      rfl

theorem entryAt_head (buffer pre : Bytes) (k v tail : Bytes) (offs : List Nat)
    (n : Nat) (f : Bool)
    (hbuf : buffer = pre ++ (putLenPrefixed k ++ (putLenPrefixed v ++ tail))) :
    WriteBuffer.entryAt ⟨offs, buffer, n, f⟩ pre.length = (k, v) := by
  unfold WriteBuffer.entryAt
  rw [hbuf]
  show (match getLenPrefixed ((pre ++ (putLenPrefixed k
      ++ (putLenPrefixed v ++ tail))).drop pre.length) with
    | some (k2, r) =>
      match getLenPrefixed r with
      | some (v2, _) => (k2, v2)
      | none => (k2, [])
    | none => ([], [])) = (k, v)
  rw [List.drop_left]
  simp [getLenPrefixed_putLenPrefixed]

theorem entryAt_pairOffsetsAux :
    ∀ (pairs : List (Bytes × Bytes)) (pre : Bytes) (offs : List Nat) (n : Nat)
      (f : Bool),
      (pairOffsetsAux pre.length pairs).map
        (WriteBuffer.entryAt ⟨offs, pre ++ encodePairs pairs, n, f⟩) = pairs
  | [], _, _, _, _ => rfl
  | (k, v) :: rest, pre, offs, n, f => by
    rw [pairOffsetsAux, List.map_cons]
    have henc : encodePairs ((k, v) :: rest)
        = (putLenPrefixed k ++ putLenPrefixed v) ++ encodePairs rest := by
      rw [encodePairs]
    have hh : WriteBuffer.entryAt ⟨offs, pre ++ encodePairs ((k, v) :: rest), n, f⟩
        pre.length = (k, v) := by
      refine entryAt_head _ pre k v (encodePairs rest) offs n f ?_
      rw [henc]
      simp [List.append_assoc]
    rw [hh]
    have hbase : pre.length + ((putLenPrefixed k).length
        + (putLenPrefixed v).length)
        = (pre ++ (putLenPrefixed k ++ putLenPrefixed v)).length := by
      rw [List.length_append, List.length_append]
    have hbuf2 : pre ++ encodePairs ((k, v) :: rest)
        = (pre ++ (putLenPrefixed k ++ putLenPrefixed v)) ++ encodePairs rest := by
      rw [henc]
      simp [List.append_assoc]
    rw [hbase, hbuf2]
    rw [entryAt_pairOffsetsAux rest (pre ++ (putLenPrefixed k ++ putLenPrefixed v))
      offs n f]

/-- Entries of the filled buffer, in insertion order. -/
theorem wbAddAll_entries (pairs : List (Bytes × Bytes)) :
    (wbAddAll WriteBuffer.create pairs).offsets.map
      (wbAddAll WriteBuffer.create pairs).entryAt = pairs := by
  obtain ⟨hbuf, hoffs, _⟩ := wbAddAll_spec pairs WriteBuffer.create
  have hwb : wbAddAll WriteBuffer.create pairs
      = ⟨pairOffsetsAux (0 : Nat) pairs, encodePairs pairs,
        (wbAddAll WriteBuffer.create pairs).numEntries,
        (wbAddAll WriteBuffer.create pairs).finished⟩ := by
    cases hw : wbAddAll WriteBuffer.create pairs with
    | mk o b ne fi =>
      rw [hw] at hbuf hoffs
      simp only at hbuf hoffs
      rw [show WriteBuffer.create.buffer = [] from rfl, List.nil_append] at hbuf
      rw [show WriteBuffer.create.offsets = [] from rfl, List.nil_append,
        show WriteBuffer.create.buffer = [] from rfl] at hoffs
      simp [hbuf, hoffs]
  rw [hwb]
  have h0 : (0 : Nat) = (([] : Bytes)).length := rfl
  rw [h0, show encodePairs pairs = [] ++ encodePairs pairs from
    (List.nil_append _).symm]
  exact entryAt_pairOffsetsAux pairs [] _ _ _

/-- Any sort outcome yields a key-sorted permutation of the insertions
(shared core of several results). -/
theorem sortOutcome_iterEntries (wb : WriteBuffer) (sorted : List Nat)
    (h : SortOutcome wb sorted) :
    (wb.finishAndSorted sorted).iterEntries.Perm (wb.offsets.map wb.entryAt) ∧
    (wb.finishAndSorted sorted).iterEntries.Pairwise
      fun a b => byteLe a.1 b.1 := by
  obtain ⟨hperm, hsort⟩ := h
  constructor
  · exact hperm.map wb.entryAt
  · show (sorted.map wb.entryAt).Pairwise fun a b => byteLe a.1 b.1
    rw [List.pairwise_map]
    apply hsort.imp
    intro a b hab
    rwa [WriteBuffer.keyAt_eq_entryAt_fst, WriteBuffer.keyAt_eq_entryAt_fst]
      at hab

/-- With pairwise distinct keys, the iterated entries of any sort
outcome are a strictly key-sorted permutation of the insertions. -/
theorem sortOutcome_entries_strict (pairs : List (Bytes × Bytes))
    (sorted : List Nat)
    (hdist : pairs.Pairwise fun a b => a.1 ≠ b.1)
    (h : SortOutcome (wbAddAll WriteBuffer.create pairs) sorted) :
    ((wbAddAll WriteBuffer.create pairs).finishAndSorted sorted).iterEntries.Perm
      pairs ∧
    ((wbAddAll WriteBuffer.create pairs).finishAndSorted
      sorted).iterEntries.Pairwise fun a b => byteLt a.1 b.1 := by
  obtain ⟨hperm, hle⟩ := sortOutcome_iterEntries _ _ h
  rw [wbAddAll_entries pairs] at hperm
  have hne : ((wbAddAll WriteBuffer.create pairs).finishAndSorted
      sorted).iterEntries.Pairwise fun a b => a.1 ≠ b.1 :=
    (hperm.pairwise_iff (fun h hc => h hc.symm)).2 hdist
  refine ⟨hperm, ?_⟩
  exact (hle.and hne).imp fun hab => by
    rcases byteLe_iff.1 hab.1 with hlt | heq
    · exact hlt
    · exact absurd heq hab.2

/-! C1 groundwork, part 4: searching a strictly sorted block. -/

theorem seekIdx_lookup :
    ∀ (es : List (Bytes × Bytes)) (k v : Bytes),
      es.Pairwise (fun a b => byteLt a.1 b.1) → (k, v) ∈ es →
      ∃ rest, es.drop (seekIdx es k) = (k, v) :: rest
  | [], k, v, _, hmem => absurd hmem (List.not_mem_nil _)
  | e :: es', k, v, hs, hmem => by
    cases hc : byteCmp e.1 k with
    | eq =>
      have hek : e.1 = k := byteCmp_eq_iff.1 hc
      have h0 : seekIdx (e :: es') k = 0 := by
        unfold seekIdx
        rw [List.findIdx_cons]
        have hp : (!(byteCmp e.1 k == Ordering.lt)) = true := by rw [hc]; rfl
        rw [hp]
        rfl
      rw [h0, List.drop_zero]
      rcases List.mem_cons.1 hmem with he | he
      · exact ⟨es', by rw [← he]⟩
      · have hlt := (List.pairwise_cons.1 hs).1 (k, v) he
        rw [byteLt, hek, byteCmp_self] at hlt
        cases hlt
    | lt =>
      have hstep : seekIdx (e :: es') k = seekIdx es' k + 1 :=
        seekIdx_cons_pos e es' k hc
      rw [hstep, List.drop_succ_cons]
      rcases List.mem_cons.1 hmem with he | he
      · rw [← he, byteCmp_self] at hc
        cases hc
      · exact seekIdx_lookup es' k v (List.pairwise_cons.1 hs).2 he
    | gt =>
      rcases List.mem_cons.1 hmem with he | he
      · rw [← he, byteCmp_self] at hc
        cases hc
      · have h2 := (List.pairwise_cons.1 hs).1 (k, v) he
        rw [byteLt] at h2
        rw [h2] at hc
        cases hc

theorem fetchInBlockLoop_found (k v : Bytes) (rest : List (Bytes × Bytes)) :
    fetchInBlockLoop true k ((k, v) :: rest) = ([v], true) := by
  rw [fetchInBlockLoop, if_pos rfl, if_pos rfl]

/-! C1 groundwork, part 5: the table logger over a sequence of adds that
stays within one data block and one staged buffer. -/

def tableAddAll (t : TableLogger) (es : List (Bytes × Bytes)) : TableLogger :=
  es.foldl (fun tt e => tt.add e.1 e.2) t

theorem TableLogger.add_no_flush (t : TableLogger) (k v : Bytes)
    (hok : t.ok = true) (hpend : t.pendingIndexEntry = false)
    (hbuf : ¬ t.dataBlock.store.length + t.opts.blockSize > t.opts.blockBuffer)
    (hutil : ¬ (t.dataBlock.add k v).currentSizeEstimate + kBlockTrailerSize
      ≥ t.opts.blockUtilized) :
    t.add k v = { t with
      dataBlock := t.dataBlock.add k v,
      smallestKey := if t.smallestKey = [] then k else t.smallestKey,
      largestKey := k,
      lastKey := k } := by
  unfold TableLogger.add
  rw [if_neg (by rw [hok]; simp)]
  by_cases hsk : t.smallestKey = [] <;>
    simp [hsk, hpend, hbuf, hutil]

theorem tableAddAll_spec :
    ∀ (es : List (Bytes × Bytes)) (t : TableLogger),
      t.ok = true → t.pendingIndexEntry = false →
      (∀ e ∈ es, e.1 ≠ []) →
      ¬ (blockAddAll t.dataBlock es).store.length + t.opts.blockSize
        > t.opts.blockBuffer →
      ¬ (blockAddAll t.dataBlock es).currentSizeEstimate + kBlockTrailerSize
        ≥ t.opts.blockUtilized →
      tableAddAll t es = { t with
        dataBlock := blockAddAll t.dataBlock es,
        smallestKey := if t.smallestKey = []
          then (es.map Prod.fst).headD t.smallestKey else t.smallestKey,
        largestKey := (es.map Prod.fst).getLastD t.largestKey,
        lastKey := (es.map Prod.fst).getLastD t.lastKey }
  | [], t, _, _, _, _, _ => by
    show t = _
    simp [blockAddAll, List.headD]
  | (k, v) :: rest, t, hok, hpend, hkeys, hbuf, hutil => by
    have hfoldb : blockAddAll t.dataBlock ((k, v) :: rest)
        = blockAddAll (t.dataBlock.add k v) rest := rfl
    have hbufstep : ¬ t.dataBlock.store.length + t.opts.blockSize
        > t.opts.blockBuffer := by
      have h1 : t.dataBlock.store.length
          ≤ (blockAddAll t.dataBlock ((k, v) :: rest)).store.length :=
        blockAddAll_store_le _ _
      omega
    have hutilstep : ¬ (t.dataBlock.add k v).currentSizeEstimate
        + kBlockTrailerSize ≥ t.opts.blockUtilized := by
      have h1 : (t.dataBlock.add k v).currentSizeEstimate
          ≤ (blockAddAll (t.dataBlock.add k v) rest).currentSizeEstimate :=
        blockAddAll_estimate_le _ _
      rw [hfoldb] at hutil
      omega
    have hstep := TableLogger.add_no_flush t k v hok hpend hbufstep hutilstep
    have hfold : tableAddAll t ((k, v) :: rest) = tableAddAll (t.add k v) rest :=
      rfl
    rw [hfold, hstep]
    refine (tableAddAll_spec rest
      { t with
        dataBlock := t.dataBlock.add k v,
        smallestKey := if t.smallestKey = [] then k else t.smallestKey,
        largestKey := k,
        lastKey := k }
      hok hpend (fun e he => hkeys e (List.mem_cons_of_mem _ he))
      hbuf hutil).trans ?_
    have hknil : k ≠ [] := hkeys (k, v) (List.mem_cons_self _ _)
    simp only [List.map_cons, List.getLastD_cons, List.headD_cons, hfoldb]
    by_cases hsk : t.smallestKey = []
    · simp [hsk, hknil]
    · simp [hsk]

/-! C1 groundwork, part 6: closing the single table - EndBlock, EndTable,
MakeEpoch and Finish on the one-table logger state. -/

theorem TableLogger.endBlock_eq (t : TableLogger) (hok : t.ok = true)
    (hne : t.dataBlock.empty = false) (hbp : t.opts.blockPadding = false)
    (hbsle : t.dataBlock.blockStart ≤ t.dataBlock.store.length) :
    t.endBlock = { t with
      dataBlock := ((t.dataBlock.finish.2).finalize
        (!t.opts.skipChecksums) none).2.reset,
      pendingIndexHandle := ⟨t.dataBlock.blockStart,
        t.dataBlock.finish.1.length⟩,
      pendingIndexEntry := true,
      numUncommittedData := t.numUncommittedData + 1 } := by
  unfold TableLogger.endBlock
  rw [if_neg (by rw [hne]; exact Bool.false_ne_true),
    if_neg (by rw [hok]; simp)]
  simp only [hbp, Bool.false_eq_true, if_false]
  obtain ⟨extra, h2, h1⟩ :=
    BlockBuilder.finalize_shape (t.dataBlock.finish.2) (!t.opts.skipChecksums)
      none
  have hfin2store : (t.dataBlock.finish.2).store
      = t.dataBlock.store ++ ((t.dataBlock.restarts.map putFixed32).flatten
        ++ putFixed32 t.dataBlock.restarts.length) := by
    rw [BlockBuilder.finish, List.append_assoc]
  have hfin2start : (t.dataBlock.finish.2).blockStart
      = t.dataBlock.blockStart := rfl
  have hoff : ((t.dataBlock.finish.2).finalize
        (!t.opts.skipChecksums) none).2.store.length
      - ((t.dataBlock.finish.2).finalize (!t.opts.skipChecksums) none).1.length
      = t.dataBlock.blockStart := by
    rw [h2, h1]
    show ((t.dataBlock.finish.2).store ++ extra).length
        - (((t.dataBlock.finish.2).store ++ extra).drop
            (t.dataBlock.finish.2).blockStart).length
      = t.dataBlock.blockStart
    rw [List.length_drop, hfin2start, List.length_append, hfin2store,
      List.length_append]
    omega
  rw [hoff]

theorem TableLogger.commit_eq (t : TableLogger) (hok : t.ok = true)
    (hstore : t.dataBlock.store ≠ []) (hfail : t.dataSink.failing = false) :
    t.commit = { t with
      status := .ok,
      dataSink := ⟨t.dataSink.data ++ t.dataBlock.store, false⟩,
      indexBlock := commitIndexLoop t.uncommittedIndexes.length
        t.uncommittedIndexes t.dataSink.ltell [] t.indexBlock,
      numUncommittedData := 0, numUncommittedIndex := 0,
      uncommittedIndexes := [],
      dataBlock := t.dataBlock.clearReset } := by
  unfold TableLogger.commit
  rw [if_neg hstore, if_neg (by rw [hok]; simp)]
  simp only []
  rw [LogSink.lwrite_not_failing hfail]
  rw [if_neg (by simp [TableLogger.ok, Status.isOk])]

theorem putLenPrefixed_ne_nil (s : Bytes) : putLenPrefixed s ≠ [] := by
  unfold putLenPrefixed
  intro hc
  exact putVarint_ne_nil s.length (List.append_eq_nil.1 hc).1

theorem decodeUncommitted_single (key : Bytes) (h : BlockHandle) :
    decodeUncommitted (putLenPrefixed key ++ h.encodeTo).length
      (putLenPrefixed key ++ h.encodeTo) = [(key, h)] := by
  have hne : putLenPrefixed key ++ h.encodeTo ≠ [] := by
    intro hc
    exact putLenPrefixed_ne_nil key (List.append_eq_nil.1 hc).1
  obtain ⟨n, hn⟩ : ∃ n, (putLenPrefixed key ++ h.encodeTo).length = n + 1 := by
    refine ⟨(putLenPrefixed key ++ h.encodeTo).length - 1, ?_⟩
    have hp : 0 < (putLenPrefixed key ++ h.encodeTo).length :=
      List.length_pos.2 hne
    omega
  rw [hn]
  cases hb : putLenPrefixed key ++ h.encodeTo with
  | nil => exact absurd hb hne
  | cons x xs =>
    rw [decodeUncommitted, ← hb]
    simp only [getLenPrefixed_putLenPrefixed]
    rw [show h.encodeTo = h.encodeTo ++ [] from (List.append_nil _).symm,
      blockHandle_roundtrip]
    show (key, h) :: decodeUncommitted n [] = [(key, h)]
    cases n <;> rfl

theorem commitIndexLoop_single (key : Bytes) (h : BlockHandle) (off : Nat)
    (ib : BlockBuilder) :
    commitIndexLoop (putLenPrefixed key ++ h.encodeTo).length
      (putLenPrefixed key ++ h.encodeTo) off [] ib
      = ib.add key (BlockHandle.encodeTo ⟨off + h.offset, h.size⟩) := by
  rw [commitIndexLoop_eq, decodeUncommitted_single]
  show ib.add key ([] ++ BlockHandle.encodeTo ⟨off + h.offset, h.size⟩) = _
  rw [List.nil_append]

theorem entryEncode_length_pos (sh : Nat) (k v : Bytes) :
    0 < (entryEncode sh k v).length := by
  unfold entryEncode
  rw [List.length_append, List.length_append, List.length_append,
    List.length_append]
  have := putVarint_length_pos sh
  omega

theorem BlockBuilder.add_empty_false (b : BlockBuilder) (k v : Bytes)
    (hbs : b.blockStart ≤ b.store.length) :
    (b.add k v).empty = false := by
  obtain ⟨sh, _, _, _, hstore, hbsq, _, _, _, _, _⟩ := BlockBuilder.add_proj b k v
  unfold BlockBuilder.empty
  rw [hstore, hbsq, List.length_append]
  have h1 := entryEncode_length_pos sh k v
  rw [beq_eq_false_iff_ne]
  omega

theorem BlockBuilder.reset_store (b : BlockBuilder) : b.reset.store = b.store :=
  rfl

theorem putFixed32_ne_nil (n : Nat) : putFixed32 n ≠ [] := by
  intro hc
  have h1 := putFixed32_length n
  rw [hc] at h1
  cases h1

theorem finalized_store_ne_nil (b : BlockBuilder) (crc : Bool)
    (padTo : Option Nat) : ((b.finish.2).finalize crc padTo).2.store ≠ [] := by
  obtain ⟨extra, h2, _⟩ := BlockBuilder.finalize_shape (b.finish.2) crc padTo
  rw [h2]
  show (b.finish.2).store ++ extra ≠ []
  have hfs : (b.finish.2).store
      = b.store ++ ((b.restarts.map putFixed32).flatten
        ++ putFixed32 b.restarts.length) := by
    rw [BlockBuilder.finish, List.append_assoc]
  rw [hfs]
  intro hc
  rcases List.append_eq_nil.1 hc with ⟨hc1, hc2⟩
  rcases List.append_eq_nil.1 (List.append_eq_nil.1 hc1).2 with ⟨_, hc3⟩
  exact putFixed32_ne_nil _ hc3

set_option maxHeartbeats 3200000 in
/-- EndTable on the one-table logger state: close and flush the block,
write the index block, and stage the per-table meta entry. -/
theorem endTable_one (opts : DirOptions) (s l last : Bytes) (DB MB : BlockBuilder)
    (pih : BlockHandle) (pmh : TableHandle) (dData iData : Bytes)
    (nT nE nUI nUD : Nat)
    (hbp : opts.blockPadding = false)
    (hne : DB.empty = false) (hbs : DB.blockStart = 0)
    (hTmax : nT < 9999) :
    TableLogger.endTable
      { opts := opts, status := .ok, smallestKey := s, largestKey := l,
        lastKey := last, dataBlock := DB, indexBlock := BlockBuilder.create 1,
        metaBlock := MB, pendingIndexEntry := false, pendingIndexHandle := pih,
        pendingMetaEntry := false, pendingMetaHandle := pmh, numTables := nT,
        numEpochs := nE, numUncommittedIndex := nUI, numUncommittedData := nUD,
        uncommittedIndexes := [], dataSink := ⟨dData, false⟩,
        indxSink := ⟨iData, false⟩, finished := false } none
      = { opts := opts, status := .ok, smallestKey := [], largestKey := [],
          lastKey := [],
          dataBlock := ((DB.finish.2).finalize
            (!opts.skipChecksums) none).2.reset.clearReset,
          indexBlock := ((((BlockBuilder.create 1).add
            (findShortSuccessor last)
            (BlockHandle.encodeTo ⟨dData.length, DB.finish.1.length⟩)).finish.2).finalize
              (!opts.skipChecksums) none).2.reset,
          metaBlock := MB.add (epochKey nE nT)
            (TableHandle.encodeTo
              ⟨iData.length + ((((BlockBuilder.create 1).add
                  (findShortSuccessor last)
                  (BlockHandle.encodeTo
                    ⟨dData.length, DB.finish.1.length⟩)).finish.2).finalize
                    (!opts.skipChecksums) none).1.length,
                0, iData.length,
                ((BlockBuilder.create 1).add (findShortSuccessor last)
                  (BlockHandle.encodeTo
                    ⟨dData.length, DB.finish.1.length⟩)).finish.1.length,
                s, findShortSuccessor l⟩),
          pendingIndexEntry := false,
          pendingIndexHandle := ⟨0, DB.finish.1.length⟩,
          pendingMetaEntry := false,
          pendingMetaHandle :=
            ⟨iData.length + ((((BlockBuilder.create 1).add
                (findShortSuccessor last)
                (BlockHandle.encodeTo
                  ⟨dData.length, DB.finish.1.length⟩)).finish.2).finalize
                  (!opts.skipChecksums) none).1.length,
              0, iData.length,
              ((BlockBuilder.create 1).add (findShortSuccessor last)
                (BlockHandle.encodeTo
                  ⟨dData.length, DB.finish.1.length⟩)).finish.1.length,
              s, findShortSuccessor l⟩,
          numTables := nT + 1, numEpochs := nE,
          numUncommittedIndex := 0, numUncommittedData := 0,
          uncommittedIndexes := [],
          dataSink := ⟨dData ++ ((DB.finish.2).finalize
            (!opts.skipChecksums) none).2.store, false⟩,
          indxSink := ⟨iData ++ ((((BlockBuilder.create 1).add
            (findShortSuccessor last)
            (BlockHandle.encodeTo ⟨dData.length, DB.finish.1.length⟩)).finish.2).finalize
              (!opts.skipChecksums) none).1, false⟩,
          finished := false } := by
  unfold TableLogger.endTable
  rw [TableLogger.endBlock_eq _ (by rfl) (by exact hne) (by exact hbp)
    (by rw [hbs]; exact Nat.zero_le _)]
  rw [hbs]
  rw [if_neg (by simp [TableLogger.ok, Status.isOk])]
  rw [if_pos rfl]
  simp only [List.nil_append]
  rw [TableLogger.commit_eq _ (by rfl) (by
    show ((DB.finish.2).finalize (!opts.skipChecksums) none).2.reset.store ≠ []
    rw [BlockBuilder.reset_store]
    exact finalized_store_ne_nil DB _ _) (by rfl)]
  simp only []
  rw [show (⟨dData, false⟩ : LogSink).ltell = dData.length from rfl]
  rw [commitIndexLoop_single]
  simp only [Nat.add_zero]
  rw [if_neg (by simp [TableLogger.ok, Status.isOk])]
  rw [if_neg (by
    rw [BlockBuilder.add_empty_false _ _ _ (Nat.le_refl 0)]
    exact Bool.false_ne_true)]
  rw [show (⟨iData, false⟩ : LogSink).ltell = iData.length from rfl]
  rw [LogSink.lwrite_not_failing rfl]
  rw [if_neg (by simp [TableLogger.ok, Status.isOk])]
  rw [if_neg (by simp [TableLogger.ok, Status.isOk])]
  simp only [eq_false (show ¬ kMaxTablesPerEpoch ≤ nT from by
    unfold kMaxTablesPerEpoch
    omega), if_false, if_true]
  rw [if_pos (by simp [TableLogger.ok, Status.isOk])]
  simp [LogSink.ltell, List.length_append, BlockBuilder.reset_store]

/-- EndTable is the identity on a logger with nothing staged. -/
theorem endTable_idle (t : TableLogger)
    (hok : t.ok = true)
    (hde : t.dataBlock.empty = true)
    (hds : t.dataBlock.store = [])
    (hie : t.indexBlock.empty = true)
    (hpend : t.pendingIndexEntry = false) :
    t.endTable none = t := by
  unfold TableLogger.endTable TableLogger.endBlock
  rw [if_pos hde]
  simp only []
  rw [if_neg (show ¬ t.pendingIndexEntry = true from by rw [hpend]; simp)]
  unfold TableLogger.commit
  rw [if_pos hds]
  rw [if_neg (show ¬ (!t.ok) = true from by rw [hok]; simp)]
  rw [if_pos hie]
  rw [ite_self]

/-- MakeEpoch on a logger with nothing staged and an open table count. -/
theorem makeEpoch_idle (t : TableLogger)
    (hok : t.ok = true)
    (hde : t.dataBlock.empty = true)
    (hds : t.dataBlock.store = [])
    (hie : t.indexBlock.empty = true)
    (hpend : t.pendingIndexEntry = false)
    (hnT : t.numTables ≠ 0) (hep : t.numEpochs < kMaxEpoches) :
    t.makeEpoch = { t with numTables := 0, numEpochs := t.numEpochs + 1 } := by
  unfold TableLogger.makeEpoch
  rw [endTable_idle t hok hde hds hie hpend]
  rw [if_neg (by rw [hok]; simp)]
  rw [if_neg hnT]
  rw [if_neg (by omega)]

/-- Finish on a logger with nothing staged: write the meta block and the
footer. -/
theorem finish_one (t : TableLogger)
    (hok : t.ok = true)
    (hde : t.dataBlock.empty = true)
    (hds : t.dataBlock.store = [])
    (hie : t.indexBlock.empty = true)
    (hpend : t.pendingIndexEntry = false)
    (hnT : t.numTables ≠ 0) (hep : t.numEpochs < kMaxEpoches)
    (htp : t.opts.tailPadding = false)
    (hifail : t.indxSink.failing = false) :
    t.finish = (Status.ok, { t with
      numTables := 0, numEpochs := t.numEpochs + 1, finished := true,
      status := .ok,
      metaBlock := ((t.metaBlock.finish.2).finalize
        (!t.opts.skipChecksums) none).2,
      indxSink := ⟨(t.indxSink.data
        ++ ((t.metaBlock.finish.2).finalize (!t.opts.skipChecksums) none).1)
        ++ (Footer.mk ⟨t.indxSink.ltell, t.metaBlock.finish.1.length⟩
          (t.numEpochs + 1)).encodeTo, false⟩ }) := by
  have hok2 : t.status.isOk = true := hok
  unfold TableLogger.finish
  rw [makeEpoch_idle t hok hde hds hie hpend hnT hep]
  rw [if_neg (by simp [TableLogger.ok, hok2])]
  unfold TableLogger.writeMeta
  simp only []
  rw [LogSink.lwrite_not_failing (by exact hifail)]
  rw [if_neg (by simp [TableLogger.ok, Status.isOk])]
  unfold TableLogger.finishWriteFooter TableLogger.finishPad
  simp only []
  rw [if_neg (show ¬ t.opts.tailPadding = true from by rw [htp]; simp)]
  rw [if_pos (by simp [TableLogger.ok, Status.isOk])]
  rw [LogSink.lwrite_not_failing (by exact rfl)]

/-- The compaction loop without a filter is the table logger add fold,
as long as no add can fail. -/
theorem compactLoop_eq (hash : Bytes → Nat) :
    ∀ (es : List (Bytes × Bytes)) (t : TableLogger),
      t.ok = true → t.pendingIndexEntry = false →
      ¬ (blockAddAll t.dataBlock es).store.length + t.opts.blockSize
        > t.opts.blockBuffer →
      ¬ (blockAddAll t.dataBlock es).currentSizeEstimate + kBlockTrailerSize
        ≥ t.opts.blockUtilized →
      compactLoop hash es (t, none) = (tableAddAll t es, none)
  | [], t, _, _, _, _ => rfl
  | (k, v) :: rest, t, hok, hpend, hbuf, hutil => by
    have hfoldb : blockAddAll t.dataBlock ((k, v) :: rest)
        = blockAddAll (t.dataBlock.add k v) rest := rfl
    have hbufstep : ¬ t.dataBlock.store.length + t.opts.blockSize
        > t.opts.blockBuffer := by
      have h1 : t.dataBlock.store.length
          ≤ (blockAddAll t.dataBlock ((k, v) :: rest)).store.length :=
        blockAddAll_store_le _ _
      omega
    have hutilstep : ¬ (t.dataBlock.add k v).currentSizeEstimate
        + kBlockTrailerSize ≥ t.opts.blockUtilized := by
      have h1 : (t.dataBlock.add k v).currentSizeEstimate
          ≤ (blockAddAll (t.dataBlock.add k v) rest).currentSizeEstimate :=
        blockAddAll_estimate_le _ _
      rw [hfoldb] at hutil
      omega
    have hstep := TableLogger.add_no_flush t k v hok hpend hbufstep hutilstep
    rw [compactLoop]
    simp only []
    rw [hstep]
    rw [if_pos (by simp [TableLogger.ok, show t.status.isOk = true from hok])]
    rw [show (tableAddAll t ((k, v) :: rest)) = tableAddAll (t.add k v) rest
      from rfl, hstep]
    exact compactLoop_eq hash rest _ hok hpend hbuf hutil

/-- Feed pairs to the directory logger one Add at a time, stopping on
the first non-OK status. -/
def dirAddAll (hash : Bytes → Nat) :
    DirLogger → List (Bytes × Bytes) → Option (Status × DirLogger)
  | d, [] => some (.ok, d)
  | d, (k, v) :: rest =>
    match d.add hash [] k v with
    | some (st, d1) => if st.isOk then dirAddAll hash d1 rest else some (st, d1)
    | none => none

theorem DirLogger.memBuf_setMemBuf (d : DirLogger) (wb : WriteBuffer) :
    (d.setMemBuf wb).memBuf = wb := by
  cases h : d.memIsBuf0 <;>
    simp [DirLogger.setMemBuf, DirLogger.memBuf, h]

theorem DirLogger.setMemBuf_setMemBuf (d : DirLogger) (wb1 wb2 : WriteBuffer) :
    (d.setMemBuf wb1).setMemBuf wb2 = d.setMemBuf wb2 := by
  cases h : d.memIsBuf0 <;>
    simp [DirLogger.setMemBuf, h]

theorem DirLogger.setMemBuf_self (d : DirLogger) :
    d.setMemBuf d.memBuf = d := by
  cases d with
  | mk o tb f b0 b1 m imm ie ifn bg tl fl nr nc => cases m <;> rfl

theorem DirLogger.setMemBuf_tl (d : DirLogger) (wb : WriteBuffer) :
    (d.setMemBuf wb).tl = d.tl := by
  cases h : d.memIsBuf0 <;> simp [DirLogger.setMemBuf, h]

theorem DirLogger.setMemBuf_fillThreshold (d : DirLogger) (wb : WriteBuffer) :
    (d.setMemBuf wb).fillThreshold = d.fillThreshold := by
  cases h : d.memIsBuf0 <;> simp [DirLogger.setMemBuf, h]

theorem WriteBuffer.add_size_le (wb : WriteBuffer) (k v : Bytes) :
    wb.currentBufferSize ≤ (wb.add k v).currentBufferSize := by
  unfold WriteBuffer.currentBufferSize WriteBuffer.add
  simp [List.length_append]

theorem wbAddAll_size_le :
    ∀ (pairs : List (Bytes × Bytes)) (wb : WriteBuffer),
      wb.currentBufferSize ≤ (wbAddAll wb pairs).currentBufferSize
  | [], _ => Nat.le_refl _
  | (k, v) :: rest, wb =>
    Nat.le_trans (WriteBuffer.add_size_le wb k v)
      (wbAddAll_size_le rest (wb.add k v))

theorem DirLogger.add_below (d : DirLogger) (hash : Bytes → Nat) (k v : Bytes)
    (hok : d.tl.ok = true)
    (hsize : d.memBuf.currentBufferSize < d.fillThreshold) :
    d.add hash [] k v = some (.ok, d.setMemBuf (d.memBuf.add k v)) := by
  unfold DirLogger.add
  rw [show (3 : Nat) = 2 + 1 from rfl, DirLogger.prepareLoop]
  rw [if_neg (by rw [show d.tl.ok = true from hok]; simp)]
  rw [if_pos (by exact ⟨by simp, hsize⟩)]
  simp [Status.isOk]

theorem dirAddAll_below (hash : Bytes → Nat) :
    ∀ (pairs : List (Bytes × Bytes)) (d : DirLogger),
      d.tl.ok = true →
      (wbAddAll d.memBuf pairs).currentBufferSize < d.fillThreshold →
      dirAddAll hash d pairs
        = some (.ok, d.setMemBuf (wbAddAll d.memBuf pairs))
  | [], d, _, _ => by
    rw [dirAddAll]
    rw [show wbAddAll d.memBuf [] = d.memBuf from rfl,
      DirLogger.setMemBuf_self]
  | (k, v) :: rest, d, hok, hsize => by
    have hfold : wbAddAll d.memBuf ((k, v) :: rest)
        = wbAddAll (d.memBuf.add k v) rest := rfl
    have hstep : d.memBuf.currentBufferSize < d.fillThreshold := by
      have h1 : d.memBuf.currentBufferSize
          ≤ (wbAddAll d.memBuf ((k, v) :: rest)).currentBufferSize :=
        wbAddAll_size_le _ _
      omega
    rw [dirAddAll]
    rw [DirLogger.add_below d hash k v hok hstep]
    show (if (Status.ok).isOk = true
        then dirAddAll hash (d.setMemBuf (d.memBuf.add k v)) rest
        else some (Status.ok, d.setMemBuf (d.memBuf.add k v)))
      = some (Status.ok, d.setMemBuf (wbAddAll d.memBuf ((k, v) :: rest)))
    rw [if_pos (show (Status.ok).isOk = true from rfl)]
    rw [dirAddAll_below hash rest (d.setMemBuf (d.memBuf.add k v))
      (by rw [DirLogger.setMemBuf_tl]; exact hok)
      (by
        rw [DirLogger.setMemBuf_fillThreshold, DirLogger.memBuf_setMemBuf,
          ← hfold]
        exact hsize)]
    rw [DirLogger.memBuf_setMemBuf, DirLogger.setMemBuf_setMemBuf, hfold]

/-- Finish on a logger with nothing staged and no open table (as right
after MakeEpoch): write the meta block and the footer; the inner
MakeEpoch is the identity, so the footer carries the current epoch
count. -/
theorem finish_zero (t : TableLogger)
    (hok : t.ok = true)
    (hde : t.dataBlock.empty = true)
    (hds : t.dataBlock.store = [])
    (hie : t.indexBlock.empty = true)
    (hpend : t.pendingIndexEntry = false)
    (hnT0 : t.numTables = 0)
    (htp : t.opts.tailPadding = false)
    (hifail : t.indxSink.failing = false) :
    t.finish = (Status.ok, { t with
      finished := true, status := .ok,
      metaBlock := ((t.metaBlock.finish.2).finalize
        (!t.opts.skipChecksums) none).2,
      indxSink := ⟨(t.indxSink.data
        ++ ((t.metaBlock.finish.2).finalize (!t.opts.skipChecksums) none).1)
        ++ (Footer.mk ⟨t.indxSink.ltell, t.metaBlock.finish.1.length⟩
          t.numEpochs).encodeTo, false⟩ }) := by
  have hok2 : t.status.isOk = true := hok
  have hmk : t.makeEpoch = t := by
    unfold TableLogger.makeEpoch
    rw [endTable_idle t hok hde hds hie hpend]
    rw [if_neg (by rw [hok]; simp)]
    rw [if_pos hnT0]
  unfold TableLogger.finish
  rw [hmk]
  rw [if_neg (by simp [TableLogger.ok, hok2])]
  unfold TableLogger.writeMeta
  simp only []
  rw [LogSink.lwrite_not_failing (by exact hifail)]
  rw [if_neg (by simp [TableLogger.ok, Status.isOk])]
  unfold TableLogger.finishWriteFooter TableLogger.finishPad
  simp only []
  rw [if_neg (show ¬ t.opts.tailPadding = true from by rw [htp]; simp)]
  rw [if_pos (by simp [TableLogger.ok, Status.isOk])]
  rw [LogSink.lwrite_not_failing (by exact rfl)]

/-! C1: the full round trip.  The pipeline writes every pair into the
memtable, then a final epoch flush compacts them into one data block,
one table, one epoch; the logs are then reopened and read.  The c1-
definitions name the intermediate artifacts of that single-table flush,
each spelled from the writer-side definitions above. -/

/-- The single data block the flush builds. -/
def c1DataBlock (es : List (Bytes × Bytes)) : BlockBuilder :=
  blockAddAll (BlockBuilder.create 16) es

/-- The data log: the one finalized data block. -/
def c1DataLog (opts : DirOptions) (es : List (Bytes × Bytes)) : Bytes :=
  (((c1DataBlock es).finish.2).finalize (!opts.skipChecksums) none).2.store

/-- The index block of the one table: a single entry keyed by the short
successor of the last key, holding the data block handle. -/
def c1IB (opts : DirOptions) (es : List (Bytes × Bytes)) : BlockBuilder :=
  (BlockBuilder.create 1).add
    (findShortSuccessor ((es.map Prod.fst).getLastD []))
    (BlockHandle.encodeTo ⟨0, (c1DataBlock es).finish.1.length⟩)

/-- The finalized index block, first region of the index log. -/
def c1IndexLog (opts : DirOptions) (es : List (Bytes × Bytes)) : Bytes :=
  (((c1IB opts es).finish.2).finalize (!opts.skipChecksums) none).1

/-- The per-table handle staged into the epoch meta block. -/
def c1TH (opts : DirOptions) (es : List (Bytes × Bytes)) : TableHandle :=
  ⟨(c1IndexLog opts es).length, 0, 0, (c1IB opts es).finish.1.length,
    (es.map Prod.fst).headD [], findShortSuccessor ((es.map Prod.fst).getLastD [])⟩

/-- The epoch meta block: one entry mapping the epoch key to the table
handle. -/
def c1MB (opts : DirOptions) (es : List (Bytes × Bytes)) : BlockBuilder :=
  (BlockBuilder.create 1).add (epochKey 0 0) (TableHandle.encodeTo (c1TH opts es))

/-- The finalized meta block, second region of the index log. -/
def c1MetaLog (opts : DirOptions) (es : List (Bytes × Bytes)) : Bytes :=
  (((c1MB opts es).finish.2).finalize (!opts.skipChecksums) none).1

/-- The footer closing the index log. -/
def c1FooterBytes (opts : DirOptions) (es : List (Bytes × Bytes)) : Bytes :=
  (Footer.mk ⟨(c1IndexLog opts es).length, (c1MB opts es).finish.1.length⟩
    1).encodeTo

/-- The index log: index block, meta block, footer. -/
def c1IndxLog (opts : DirOptions) (es : List (Bytes × Bytes)) : Bytes :=
  c1IndexLog opts es ++ c1MetaLog opts es ++ c1FooterBytes opts es

/-- The table logger state right after the compaction loop ran over the
sorted entries. -/
def c1Table (opts : DirOptions) (es : List (Bytes × Bytes)) : TableLogger :=
  { opts := opts, status := .ok,
    smallestKey := (es.map Prod.fst).headD [],
    largestKey := (es.map Prod.fst).getLastD [],
    lastKey := (es.map Prod.fst).getLastD [],
    dataBlock := c1DataBlock es,
    indexBlock := BlockBuilder.create 1, metaBlock := BlockBuilder.create 1,
    pendingIndexEntry := false, pendingIndexHandle := ⟨0, 0⟩,
    pendingMetaEntry := false, pendingMetaHandle := ⟨0, 0, 0, 0, [], []⟩,
    numTables := 0, numEpochs := 0,
    numUncommittedIndex := 0, numUncommittedData := 0,
    uncommittedIndexes := [], dataSink := ⟨[], false⟩, indxSink := ⟨[], false⟩,
    finished := false }

/-- The table logger after the final flush finished the directory. -/
def c1FinalTable (opts : DirOptions) (es : List (Bytes × Bytes)) : TableLogger :=
  { opts := opts, status := .ok,
    smallestKey := [], largestKey := [], lastKey := [],
    dataBlock := (((c1DataBlock es).finish.2).finalize
      (!opts.skipChecksums) none).2.reset.clearReset,
    indexBlock := (((c1IB opts es).finish.2).finalize
      (!opts.skipChecksums) none).2.reset,
    metaBlock := ((c1MB opts es).finish.2.finalize
      (!opts.skipChecksums) none).2,
    pendingIndexEntry := false,
    pendingIndexHandle := ⟨0, (c1DataBlock es).finish.1.length⟩,
    pendingMetaEntry := false,
    pendingMetaHandle := c1TH opts es,
    numTables := 0, numEpochs := 1,
    numUncommittedIndex := 0, numUncommittedData := 0,
    uncommittedIndexes := [],
    dataSink := ⟨c1DataLog opts es, false⟩,
    indxSink := ⟨c1IndxLog opts es, false⟩,
    finished := true }

theorem c1DataBlock_blockStart (es : List (Bytes × Bytes)) :
    (c1DataBlock es).blockStart = 0 := by
  obtain ⟨_, _, _, _, _, hbs, _, _, _, _⟩ :=
    blockAddAll_spec es (BlockBuilder.create 16)
  exact hbs

theorem c1DataBlock_empty (es : List (Bytes × Bytes)) (hne : es ≠ []) :
    (c1DataBlock es).empty = false := by
  obtain ⟨chunks, _, _, hclen, hstore, hbs, _, _, _, _⟩ :=
    blockAddAll_spec es (BlockBuilder.create 16)
  unfold c1DataBlock BlockBuilder.empty
  rw [hstore, hbs, show (BlockBuilder.create 16).store = [] from rfl,
    show (BlockBuilder.create 16).blockStart = 0 from rfl,
    List.nil_append, beq_eq_false_iff_ne]
  have h1 := encodeChain_length_ge chunks
  have h2 : 0 < es.length := List.length_pos.2 hne
  omega

theorem blockAddAll_restarts_le (I : Nat) (es : List (Bytes × Bytes)) :
    (blockAddAll (BlockBuilder.create I) es).restarts.length ≤ 1 + es.length := by
  obtain ⟨_, _, _, _, _, _, _, _, _, hr⟩ :=
    blockAddAll_spec es (BlockBuilder.create I)
  refine Nat.le_trans hr ?_
  rw [show (BlockBuilder.create I).restarts = [0] from rfl]
  simp

/-- Splitting a finalized block started at offset zero into its body and
five-byte trailer. -/
theorem finalize_none_split (b : BlockBuilder) (crc : Bool)
    (hbs : b.blockStart = 0) :
    ∃ c4 : Bytes, c4.length = 4 ∧
      ((b.finish.2).finalize crc none).1 = b.finish.1 ++ (0 :: c4) ∧
      ((b.finish.2).finalize crc none).2.store = b.finish.1 ++ (0 :: c4) := by
  unfold BlockBuilder.finalize BlockBuilder.finish
  simp only []
  rw [hbs, List.drop_zero, List.drop_zero]
  refine ⟨_, ?_, rfl, rfl⟩
  split <;> exact putFixed32_length _

/-- The directory logger after the final flush. -/
def c1FinalDir (opts : DirOptions) (tb F : Nat) (es : List (Bytes × Bytes)) :
    DirLogger :=
  { opts := opts, tbBytes := tb, fillThreshold := F,
    buf0 := WriteBuffer.create, buf1 := WriteBuffer.create,
    memIsBuf0 := false, immIsBuf0 := none, immIsEpochFlush := false,
    immIsFinal := false, hasBgCompaction := false,
    tl := c1FinalTable opts es, filter := none,
    numFlushRequested := 1, numFlushCompleted := 1 }

set_option maxHeartbeats 6400000 in
/-- The final flush on a filled memtable: the immutable slot is tagged
as an epoch-closing final flush, the inline compaction builds the one
table and finishes the directory, and the second Prepare iteration
returns OK on the emptied (switched) memtable. -/
theorem DirLogger.flush_one (opts : DirOptions) (tb F : Nat) (hash : Bytes → Nat)
    (wb : WriteBuffer) (sorted : List Nat) (es : List (Bytes × Bytes))
    (hes : (wb.finishAndSorted sorted).iterEntries = es)
    (hbp : opts.blockPadding = false) (htp : opts.tailPadding = false)
    (hF : 0 < F)
    (hne : es ≠ [])
    (hkeys : ∀ e ∈ es, e.1 ≠ [])
    (hbuf : ¬ (blockAddAll (BlockBuilder.create 16) es).store.length
      + opts.blockSize > opts.blockBuffer)
    (hutil : ¬ (blockAddAll (BlockBuilder.create 16) es).currentSizeEstimate
      + kBlockTrailerSize ≥ opts.blockUtilized) :
    DirLogger.flush
      { opts := opts, tbBytes := tb, fillThreshold := F,
        buf0 := wb, buf1 := WriteBuffer.create,
        memIsBuf0 := true, immIsBuf0 := none,
        immIsEpochFlush := false, immIsFinal := false, hasBgCompaction := false,
        tl := TableLogger.create opts ⟨[], false⟩ ⟨[], false⟩,
        filter := none, numFlushRequested := 0, numFlushCompleted := 0 }
      hash sorted false true true
    = some (Status.ok, c1FinalDir opts tb F es) := by
  have hT : compactLoop hash es
      (TableLogger.create opts ⟨[], false⟩ ⟨[], false⟩, none)
      = (c1Table opts es, none) := by
    rw [compactLoop_eq hash es (TableLogger.create opts ⟨[], false⟩ ⟨[], false⟩)
      rfl rfl (by exact hbuf) (by exact hutil)]
    rw [tableAddAll_spec es (TableLogger.create opts ⟨[], false⟩ ⟨[], false⟩)
      rfl rfl hkeys (by exact hbuf) (by exact hutil)]
    rfl
  have hET := endTable_one opts ((es.map Prod.fst).headD [])
    ((es.map Prod.fst).getLastD []) ((es.map Prod.fst).getLastD [])
    (c1DataBlock es) (BlockBuilder.create 1) ⟨0, 0⟩ ⟨0, 0, 0, 0, [], []⟩
    [] [] 0 0 0 0 hbp (c1DataBlock_empty es hne) (c1DataBlock_blockStart es)
    (by decide)
  show DirLogger.prepareLoop hash sorted 2
      { opts := opts, tbBytes := tb, fillThreshold := F,
        buf0 := WriteBuffer.create, buf1 := WriteBuffer.create,
        memIsBuf0 := false, immIsBuf0 := none, immIsEpochFlush := false,
        immIsFinal := false, hasBgCompaction := false,
        tl := if (compactLoop hash (wb.finishAndSorted sorted).iterEntries
            (TableLogger.create opts ⟨[], false⟩ ⟨[], false⟩, none)).1.ok = true
          then ((((compactLoop hash (wb.finishAndSorted sorted).iterEntries
              (TableLogger.create opts ⟨[], false⟩ ⟨[], false⟩, none)).1.endTable
              (compactLoop hash (wb.finishAndSorted sorted).iterEntries
                (TableLogger.create opts ⟨[], false⟩ ⟨[], false⟩,
                  none)).2).makeEpoch).finish).2
          else (compactLoop hash (wb.finishAndSorted sorted).iterEntries
            (TableLogger.create opts ⟨[], false⟩ ⟨[], false⟩, none)).1,
        filter := (compactLoop hash (wb.finishAndSorted sorted).iterEntries
          (TableLogger.create opts ⟨[], false⟩ ⟨[], false⟩, none)).2,
        numFlushRequested := 1, numFlushCompleted := 1 }
      false false false
    = some (Status.ok, c1FinalDir opts tb F es)
  rw [hes, hT]
  show DirLogger.prepareLoop hash sorted 2
      { opts := opts, tbBytes := tb, fillThreshold := F,
        buf0 := WriteBuffer.create, buf1 := WriteBuffer.create,
        memIsBuf0 := false, immIsBuf0 := none, immIsEpochFlush := false,
        immIsFinal := false, hasBgCompaction := false,
        tl := if (c1Table opts es).ok = true
          then ((((c1Table opts es).endTable none).makeEpoch).finish).2
          else c1Table opts es,
        filter := none,
        numFlushRequested := 1, numFlushCompleted := 1 }
      false false false
    = some (Status.ok, c1FinalDir opts tb F es)
  rw [if_pos (show (c1Table opts es).ok = true from rfl)]
  unfold c1Table
  rw [hET]
  rw [makeEpoch_idle _ (by rfl) (by rfl) (by rfl)
    (by simp [BlockBuilder.empty, BlockBuilder.reset]) (by rfl) (by simp)
    (by simp [kMaxEpoches])]
  rw [finish_zero _ (by rfl) (by rfl) (by rfl)
    (by simp [BlockBuilder.empty, BlockBuilder.reset]) (by rfl) (by rfl)
    (by exact htp) (by rfl)]
  rw [show (2 : Nat) = 1 + 1 from rfl, DirLogger.prepareLoop]
  rw [if_neg (by simp [TableLogger.ok, Status.isOk])]
  rw [if_pos (And.intro (by simp) (by exact hF))]
  simp [c1FinalDir, c1FinalTable, c1DataLog, c1IndxLog, c1IndexLog, c1MetaLog,
    c1FooterBytes, c1TH, c1MB, c1IB, LogSink.ltell]

/-! C1 reader side: reading the three blocks back out of the two logs. -/

theorem putVarintAux_length_le :
    ∀ (fuel n k : Nat), n < 128 ^ (k + 1) →
      (putVarintAux fuel n).length ≤ k + 1
  | 0, n, k, _ => by
    rw [putVarintAux]
    simp
  | fuel + 1, n, k, h => by
    rw [putVarintAux]
    by_cases hn : n < 128
    · rw [if_pos hn]
      simp
    · rw [if_neg hn]
      cases k with
      | zero =>
        exfalso
        rw [pow_one] at h
        omega
      | succ k2 =>
        rw [List.length_cons]
        have hdiv : n / 128 < 128 ^ (k2 + 1) := by
          have h2 : n < 128 * 128 ^ (k2 + 1) := by
            have hpow : (128 : Nat) ^ (k2 + 1 + 1) = 128 * 128 ^ (k2 + 1) := by
              ring
            rw [← hpow]
            exact h
          exact Nat.div_lt_of_lt_mul h2
        have hrec := putVarintAux_length_le fuel (n / 128) k2 hdiv
        omega

theorem putVarint_length_le_five (n : Nat) (h : n < 4294967296) :
    (putVarint n).length ≤ 5 := by
  have hpow : (128 : Nat) ^ (4 + 1) = 34359738368 := by norm_num
  exact putVarintAux_length_le n n 4 (by rw [hpow]; omega)

/-- Reading a block whose trailer-carrying image sits at a known offset
of the source, with checksum verification off. -/
theorem readBlock_of_drop (src : Bytes) (opts : DirOptions) (off : Nat)
    (body c4 post : Bytes)
    (hsc : opts.skipChecksums = false) (hvc : opts.verifyChecksums = false)
    (hc4 : c4.length = 4)
    (hdrop : src.drop off = body ++ (0 :: c4) ++ post) :
    readBlock src opts off body.length = .ok body := by
  have hA : (body ++ (0 :: c4)).length = body.length + kBlockTrailerSize := by
    rw [List.length_append, List.length_cons, hc4]
    rfl
  unfold readBlock
  rw [hdrop]
  simp only [hsc, hvc, Bool.false_eq_true, if_false]
  rw [List.take_left' hA]
  rw [if_neg (by rw [hA]; exact fun hc => hc rfl)]
  rw [if_neg (by simp)]
  rw [List.take_left' rfl]

/-- The footer decodes back, as long as the epoch index handle fits the
twenty-byte field and the epoch count fits 32 bits. -/
theorem footer_roundtrip (f : Footer)
    (hh : f.epochIndexHandle.encodeTo.length ≤ 20)
    (hn : f.numEpoches < 4294967296) :
    Footer.decodeFrom f.encodeTo = some f := by
  have hTlen : (f.epochIndexHandle.encodeTo
      ++ List.replicate (20 - f.epochIndexHandle.encodeTo.length) 0).length
      = 20 := by
    rw [List.length_append, List.length_replicate]
    omega
  have htake : (f.epochIndexHandle.encodeTo
      ++ List.replicate (20 - f.epochIndexHandle.encodeTo.length) 0).take 20
      = f.epochIndexHandle.encodeTo
        ++ List.replicate (20 - f.epochIndexHandle.encodeTo.length) 0 :=
    List.take_of_length_le (Nat.le_of_eq hTlen)
  have henc : f.encodeTo
      = (f.epochIndexHandle.encodeTo
          ++ List.replicate (20 - f.epochIndexHandle.encodeTo.length) 0)
        ++ (putFixed32 f.numEpoches ++ footerMagic) := by
    unfold Footer.encodeTo
    simp only []
    rw [htake]
    exact List.append_assoc _ _ _
  have hlen : f.encodeTo.length = footerEncodeLength :=
    footer_encode_length f hh
  unfold Footer.decodeFrom
  rw [if_pos ?hcond]
  case hcond =>
    refine ⟨hlen, ?_⟩
    rw [henc]
    rw [show (24 : Nat)
        = ((f.epochIndexHandle.encodeTo
            ++ List.replicate (20 - f.epochIndexHandle.encodeTo.length) 0)
          ++ putFixed32 f.numEpoches).length from by
      rw [List.length_append, hTlen, putFixed32_length]]
    rw [← List.append_assoc]
    exact List.drop_left _ _
  rw [henc]
  rw [List.take_left' hTlen, List.drop_left' hTlen]
  rw [blockHandle_roundtrip]
  rw [getFixed32_putFixed32 _ hn]

theorem byteLe_headD_of_mem :
    ∀ (es : List (Bytes × Bytes)) (k v : Bytes),
      es.Pairwise (fun a b => byteLt a.1 b.1) → (k, v) ∈ es →
      byteLe ((es.map Prod.fst).headD []) k
  | [], k, v, _, hmem => absurd hmem (List.not_mem_nil _)
  | e :: rest, k, v, hs, hmem => by
    rw [List.map_cons, List.headD_cons]
    rcases List.mem_cons.1 hmem with he | he
    · rw [show e = (k, v) from he.symm]
      exact byteLe_refl k
    · exact byteLe_of_lt ((List.pairwise_cons.1 hs).1 (k, v) he)

theorem byteLe_getLastD_of_all :
    ∀ (es : List (Bytes × Bytes)) (d : Bytes),
      (∀ x ∈ es, byteLe d x.1) →
      es.Pairwise (fun a b => byteLt a.1 b.1) →
      byteLe d ((es.map Prod.fst).getLastD d)
  | [], d, _, _ => byteLe_refl d
  | f :: rest, d, hall, hs => by
    rw [List.map_cons, List.getLastD_cons]
    refine byteLe_trans (hall f (List.mem_cons_self _ _)) ?_
    exact byteLe_getLastD_of_all rest f.1
      (fun x hx => byteLe_of_lt ((List.pairwise_cons.1 hs).1 x hx))
      (List.pairwise_cons.1 hs).2

theorem byteLe_mem_getLastD :
    ∀ (es : List (Bytes × Bytes)) (d k v : Bytes),
      es.Pairwise (fun a b => byteLt a.1 b.1) → (k, v) ∈ es →
      byteLe k ((es.map Prod.fst).getLastD d)
  | [], _, k, v, _, hmem => absurd hmem (List.not_mem_nil _)
  | e :: rest, d, k, v, hs, hmem => by
    rw [List.map_cons, List.getLastD_cons]
    rcases List.mem_cons.1 hmem with he | he
    · rw [show e = (k, v) from he.symm]
      exact byteLe_getLastD_of_all rest k
        (fun x hx => byteLe_of_lt ((List.pairwise_cons.1 (he ▸ hs)).1 x hx))
        (List.pairwise_cons.1 hs).2
    · exact byteLe_mem_getLastD rest e.1 k v (List.pairwise_cons.1 hs).2 he

theorem seekIdx_head_zero (e : Bytes × Bytes) (rest : List (Bytes × Bytes))
    (k : Bytes) (h : byteLe k e.1) :
    seekIdx (e :: rest) k = 0 := by
  unfold seekIdx
  rw [List.findIdx_cons]
  have htrue : (!(byteCmp e.1 k == Ordering.lt)) = true := by
    cases hc : byteCmp e.1 k with
    | lt => exact absurd (byteLt_of_lt_of_le hc h) (byteLt_irrefl e.1)
    | eq => rfl
    | gt => rfl
  rw [htrue]
  rfl

/-- Opening the directory written by the single-table flush: the footer
decodes, and the epoch index block holds the one meta entry. -/
theorem openDir_c1 (opts : DirOptions) (es : List (Bytes × Bytes))
    (hsc : opts.skipChecksums = false) (hvc : opts.verifyChecksums = false)
    (hil : (c1IndexLog opts es).length < 4294967296)
    (hml : (c1MB opts es).finish.1.length < 4294967296) :
    Dir.openDir opts (c1DataLog opts es) (c1IndxLog opts es)
      = .ok ⟨opts, 1, c1DataLog opts es, c1IndxLog opts es,
          [(epochKey 0 0, TableHandle.encodeTo (c1TH opts es))]⟩ := by
  obtain ⟨c4M, hc4M, hsplitM1, _⟩ :=
    finalize_none_split (c1MB opts es) (!opts.skipChecksums) rfl
  have hhl : (BlockHandle.mk (c1IndexLog opts es).length
      ((c1MB opts es).finish.1.length)).encodeTo.length ≤ 20 := by
    show (putVarint (c1IndexLog opts es).length
      ++ putVarint ((c1MB opts es).finish.1.length)).length ≤ 20
    rw [List.length_append]
    have h1 := putVarint_length_le_five _ hil
    have h2 := putVarint_length_le_five _ hml
    omega
  have hfl : (c1FooterBytes opts es).length = footerEncodeLength :=
    footer_encode_length _ hhl
  have htot : (c1IndxLog opts es).length
      = (c1IndexLog opts es ++ c1MetaLog opts es).length + footerEncodeLength := by
    unfold c1IndxLog
    rw [List.length_append, hfl]
  unfold Dir.openDir
  rw [if_neg (by omega)]
  have hdropF : (c1IndxLog opts es).drop
      ((c1IndxLog opts es).length - footerEncodeLength)
      = c1FooterBytes opts es := by
    rw [show (c1IndxLog opts es).length - footerEncodeLength
        = (c1IndexLog opts es ++ c1MetaLog opts es).length from by omega]
    show ((c1IndexLog opts es ++ c1MetaLog opts es)
      ++ c1FooterBytes opts es).drop
        (c1IndexLog opts es ++ c1MetaLog opts es).length = _
    exact List.drop_left _ _
  rw [hdropF]
  have hfr : Footer.decodeFrom (c1FooterBytes opts es)
      = some (Footer.mk ⟨(c1IndexLog opts es).length,
          (c1MB opts es).finish.1.length⟩ 1) := by
    unfold c1FooterBytes
    exact footer_roundtrip _ hhl (by norm_num)
  simp only [hfr]
  have hrB : readBlock (c1IndxLog opts es) opts (c1IndexLog opts es).length
      ((c1MB opts es).finish.1.length) = .ok ((c1MB opts es).finish.1) := by
    refine readBlock_of_drop _ _ _ _ c4M (c1FooterBytes opts es) hsc hvc hc4M ?_
    show ((c1IndexLog opts es ++ c1MetaLog opts es)
      ++ c1FooterBytes opts es).drop (c1IndexLog opts es).length = _
    rw [List.append_assoc, List.drop_left]
    rw [show c1MetaLog opts es
        = (((c1MB opts es).finish.2).finalize (!opts.skipChecksums) none).1
        from rfl, hsplitM1]
  simp only [hrB]
  have hdecM : decodeBlock ((c1MB opts es).finish.1)
      = some [(epochKey 0 0, TableHandle.encodeTo (c1TH opts es))] := by
    rw [show c1MB opts es
        = blockAddAll (BlockBuilder.create 1)
            [(epochKey 0 0, TableHandle.encodeTo (c1TH opts es))] from rfl]
    refine decodeBlock_blockAddAll 1 _ ?_
    have hb := blockAddAll_restarts_le 1
      [(epochKey 0 0, TableHandle.encodeTo (c1TH opts es))]
    simp at hb
    omega
  simp only [hdecM]

/-- Fetching through the one table: the key bounds admit the key, the
index block points at the one data block, and the in-block search finds
the unique entry. -/
theorem fetchTable_c1 (opts : DirOptions) (es : List (Bytes × Bytes))
    (k v : Bytes) (kh : Nat)
    (hsc : opts.skipChecksums = false) (hvc : opts.verifyChecksums = false)
    (huk : opts.uniqueKeys = true)
    (hsorted : es.Pairwise fun a b => byteLt a.1 b.1)
    (hmem : (k, v) ∈ es)
    (hnr : (blockAddAll (BlockBuilder.create 16) es).restarts.length
      < 4294967296) :
    fetchTable (c1DataLog opts es) (c1IndxLog opts es) opts k kh (c1TH opts es)
      = .ok [v] := by
  obtain ⟨c4I, hc4I, hsplitI1, _⟩ :=
    finalize_none_split (c1IB opts es) (!opts.skipChecksums) rfl
  obtain ⟨c4D, hc4D, _, hsplitD2⟩ :=
    finalize_none_split (c1DataBlock es) (!opts.skipChecksums)
      (c1DataBlock_blockStart es)
  have hsmall : byteLe ((es.map Prod.fst).headD []) k :=
    byteLe_headD_of_mem es k v hsorted hmem
  have hlast : byteLe k ((es.map Prod.fst).getLastD []) :=
    byteLe_mem_getLastD es [] k v hsorted hmem
  have hlarge : byteLe k (findShortSuccessor ((es.map Prod.fst).getLastD [])) :=
    byteLe_trans hlast (findShortSuccessor_ge _)
  unfold fetchTable
  rw [if_neg (show ¬ (byteCmp k (c1TH opts es).smallestKey = .lt
      ∨ byteCmp k (c1TH opts es).largestKey = .gt) from by
    rintro (hc | hc)
    · exact byteLt_irrefl k (byteLt_of_lt_of_le hc hsmall)
    · exact byteLt_irrefl k (byteLt_of_le_of_lt hlarge (byteCmp_swap.2 hc)))]
  rw [if_neg (show ¬ ((c1TH opts es).filterSize ≠ 0
      ∧ (!keyMayMatch (c1IndxLog opts es) opts kh
          ⟨(c1TH opts es).filterOffset, (c1TH opts es).filterSize⟩) = true)
    from fun hc => hc.1 rfl)]
  have hrI : readBlock (c1IndxLog opts es) opts 0
      ((c1IB opts es).finish.1.length) = .ok ((c1IB opts es).finish.1) := by
    refine readBlock_of_drop _ _ _ _ c4I
      (c1MetaLog opts es ++ c1FooterBytes opts es) hsc hvc hc4I ?_
    show ((c1IndexLog opts es ++ c1MetaLog opts es)
      ++ c1FooterBytes opts es).drop 0 = _
    rw [List.drop_zero, List.append_assoc]
    rw [show c1IndexLog opts es
        = (((c1IB opts es).finish.2).finalize (!opts.skipChecksums) none).1
        from rfl, hsplitI1]
  have hoffsize : (c1TH opts es).offset = 0 ∧
      (c1TH opts es).size = (c1IB opts es).finish.1.length := ⟨rfl, rfl⟩
  rw [hoffsize.1, hoffsize.2]
  simp only [hrI]
  have hdecI : decodeBlock ((c1IB opts es).finish.1)
      = some [(findShortSuccessor ((es.map Prod.fst).getLastD []),
          BlockHandle.encodeTo ⟨0, (c1DataBlock es).finish.1.length⟩)] := by
    rw [show c1IB opts es
        = blockAddAll (BlockBuilder.create 1)
            [(findShortSuccessor ((es.map Prod.fst).getLastD []),
              BlockHandle.encodeTo ⟨0, (c1DataBlock es).finish.1.length⟩)]
        from rfl]
    refine decodeBlock_blockAddAll 1 _ ?_
    have hb := blockAddAll_restarts_le 1
      [(findShortSuccessor ((es.map Prod.fst).getLastD []),
        BlockHandle.encodeTo ⟨0, (c1DataBlock es).finish.1.length⟩)]
    have hb1 : ([(findShortSuccessor ((es.map Prod.fst).getLastD []),
        BlockHandle.encodeTo ⟨0, (c1DataBlock es).finish.1.length⟩)]
        : List (Bytes × Bytes)).length = 1 := rfl
    omega
  simp only [hdecI]
  rw [seekIdx_head_zero _ _ _ hlarge, List.drop_zero]
  rw [fetchOverIndexLoop]
  rw [show BlockHandle.encodeTo ⟨0, (c1DataBlock es).finish.1.length⟩
      = BlockHandle.encodeTo ⟨0, (c1DataBlock es).finish.1.length⟩ ++ []
      from (List.append_nil _).symm]
  rw [blockHandle_roundtrip]
  have hrD : readBlock (c1DataLog opts es) opts 0
      ((c1DataBlock es).finish.1.length) = .ok ((c1DataBlock es).finish.1) := by
    refine readBlock_of_drop _ _ _ _ c4D [] hsc hvc hc4D ?_
    show (((c1DataBlock es).finish.2).finalize
      (!opts.skipChecksums) none).2.store.drop 0 = _
    rw [List.drop_zero, hsplitD2, List.append_nil]
  have hdecD : decodeBlock ((c1DataBlock es).finish.1) = some es := by
    rw [show c1DataBlock es = blockAddAll (BlockBuilder.create 16) es from rfl]
    exact decodeBlock_blockAddAll 16 es hnr
  unfold fetchBlock
  simp only [hrD, hdecD]
  obtain ⟨rest, hrest⟩ := seekIdx_lookup es k v hsorted hmem
  rw [hrest, huk, fetchInBlockLoop_found]
  rfl

set_option maxHeartbeats 6400000 in
/-- The serial read on the opened single-table directory returns the
one value stored under the key. -/
theorem readSerial_c1 (opts : DirOptions) (es : List (Bytes × Bytes))
    (k v : Bytes) (kh : Nat)
    (hsc : opts.skipChecksums = false) (hvc : opts.verifyChecksums = false)
    (huk : opts.uniqueKeys = true)
    (hsorted : es.Pairwise fun a b => byteLt a.1 b.1)
    (hmem : (k, v) ∈ es)
    (hnr : (blockAddAll (BlockBuilder.create 16) es).restarts.length
      < 4294967296) :
    Dir.readSerial
      ⟨opts, 1, c1DataLog opts es, c1IndxLog opts es,
        [(epochKey 0 0, TableHandle.encodeTo (c1TH opts es))]⟩ k kh
      = .ok v := by
  have hdecTH : TableHandle.decodeFrom (TableHandle.encodeTo (c1TH opts es))
      = some (c1TH opts es, []) := by
    rw [show TableHandle.encodeTo (c1TH opts es)
        = TableHandle.encodeTo (c1TH opts es) ++ []
        from (List.append_nil _).symm]
    exact tableHandle_roundtrip _ _
  have hget : Dir.get
      ⟨opts, 1, c1DataLog opts es, c1IndxLog opts es,
        [(epochKey 0 0, TableHandle.encodeTo (c1TH opts es))]⟩ k kh 0
      (BlockIter.fresh [(epochKey 0 0, TableHandle.encodeTo (c1TH opts es))])
      = ⟨[v], ⟨[(epochKey 0 0, TableHandle.encodeTo (c1TH opts es))], 1⟩,
          .ok⟩ := by
    unfold Dir.get
    show Dir.getLoop _ k kh 0 (1 + 1) 0 _ [] = _
    rw [Dir.getLoop]
    rw [getLoop_normIter
      (by
        refine List.Pairwise.cons ?_ List.Pairwise.nil
        intro y hy
        exact absurd hy (List.not_mem_nil _))
      (BlockIter.fresh [(epochKey 0 0, TableHandle.encodeTo (c1TH opts es))])
      rfl]
    simp only [BlockIter.fresh]
    rw [seekIdx_head_zero (epochKey 0 0, TableHandle.encodeTo (c1TH opts es)) []
      (epochKey 0 0) (byteLe_refl _)]
    rw [if_neg (by simp [BlockIter.valid])]
    rw [if_neg (by simp [BlockIter.key])]
    simp only [BlockIter.value, List.getD_cons_zero]
    simp only [hdecTH]
    simp only [fetchTable_c1 opts es k v kh hsc hvc huk hsorted hmem hnr]
    rw [if_pos (And.intro (by simp) huk)]
    rfl
  unfold Dir.readSerial
  show Dir.readSerialLoop _ k kh (0 + 1) 0 _ [] = _
  rw [Dir.readSerialLoop]
  simp only [hget]
  rw [if_pos (show (Status.ok).isOk = true from rfl)]
  rw [Dir.readSerialLoop]
  simp

/-- The one-block round trip.  For unique non-empty keys that fit one
write buffer and one data block (the capacity hypotheses), adding every
pair, flushing with epoch_flush and finalize set, opening a Dir on the
two produced logs and reading the key returns exactly the written
value, for every std::sort outcome of the memtable compaction.  A
single-block flush commits exactly one index entry, so the
handle_encoding accumulation of Commit is invisible here; spanning a
second block breaks the round trip, as the C1 exhibit below shows. -/
theorem round_trip_one_block (opts : DirOptions) (tb F bf kh : Nat)
    (hash : Bytes → Nat) (pairs : List (Bytes × Bytes)) (sorted : List Nat)
    (k v : Bytes)
    (hbf : opts.bfBitsPerKey = 0)
    (hbp : opts.blockPadding = false)
    (htp : opts.tailPadding = false)
    (hsc : opts.skipChecksums = false)
    (hvc : opts.verifyChecksums = false)
    (huk : opts.uniqueKeys = true)
    (hne : pairs ≠ [])
    (hkeys : ∀ e ∈ pairs, e.1 ≠ [])
    (hdist : pairs.Pairwise fun a b => a.1 ≠ b.1)
    (hmem : (k, v) ∈ pairs)
    (hsort : SortOutcome (wbAddAll WriteBuffer.create pairs) sorted)
    (hfill : (wbAddAll WriteBuffer.create pairs).currentBufferSize < F)
    (hF : 0 < F)
    (hsmall : pairs.length < 4294967295)
    (hbuf : ¬ (blockAddAll (BlockBuilder.create 16)
        (((wbAddAll WriteBuffer.create pairs).finishAndSorted
          sorted).iterEntries)).store.length
      + opts.blockSize > opts.blockBuffer)
    (hutil : ¬ (blockAddAll (BlockBuilder.create 16)
        (((wbAddAll WriteBuffer.create pairs).finishAndSorted
          sorted).iterEntries)).currentSizeEstimate
      + kBlockTrailerSize ≥ opts.blockUtilized)
    (hil : (c1IndexLog opts (((wbAddAll WriteBuffer.create pairs).finishAndSorted
        sorted).iterEntries)).length < 4294967296)
    (hml : (c1MB opts (((wbAddAll WriteBuffer.create pairs).finishAndSorted
        sorted).iterEntries)).finish.1.length < 4294967296) :
    ∃ d1 dfin dir,
      dirAddAll hash (DirLogger.create opts tb F bf ⟨[], false⟩ ⟨[], false⟩) pairs
        = some (Status.ok, d1) ∧
      d1.flush hash sorted false true true = some (Status.ok, dfin) ∧
      Dir.openDir opts dfin.tl.dataSink.data dfin.tl.indxSink.data = .ok dir ∧
      dir.readSerial k kh = .ok v := by
  obtain ⟨hperm, hstrict⟩ := sortOutcome_entries_strict pairs sorted hdist hsort
  generalize hes : ((wbAddAll WriteBuffer.create pairs).finishAndSorted
    sorted).iterEntries = es at hbuf hutil hil hml hperm hstrict
  have hnees : es ≠ [] := by
    intro hc
    apply hne
    have h0 := hperm.length_eq
    rw [hc] at h0
    exact List.eq_nil_of_length_eq_zero h0.symm
  have hkeyses : ∀ e ∈ es, e.1 ≠ [] := fun e he => hkeys e (hperm.subset he)
  have hmemes : (k, v) ∈ es := hperm.mem_iff.2 hmem
  have hnr : (blockAddAll (BlockBuilder.create 16) es).restarts.length
      < 4294967296 := by
    have h1 := blockAddAll_restarts_le 16 es
    have h2 := hperm.length_eq
    omega
  refine ⟨DirLogger.mk opts tb F (wbAddAll WriteBuffer.create pairs)
      WriteBuffer.create true none false false false
      (TableLogger.create opts ⟨[], false⟩ ⟨[], false⟩) none 0 0,
    c1FinalDir opts tb F es,
    ⟨opts, 1, c1DataLog opts es, c1IndxLog opts es,
      [(epochKey 0 0, TableHandle.encodeTo (c1TH opts es))]⟩,
    ?_, ?_, ?_, ?_⟩
  · rw [dirAddAll_below hash pairs
      (DirLogger.create opts tb F bf ⟨[], false⟩ ⟨[], false⟩) rfl
      (by exact hfill)]
    refine congrArg _ (congrArg _ ?_)
    show (DirLogger.create opts tb F bf ⟨[], false⟩ ⟨[], false⟩).setMemBuf
      (wbAddAll (DirLogger.create opts tb F bf
        ⟨[], false⟩ ⟨[], false⟩).memBuf pairs) = _
    simp [DirLogger.create, DirLogger.setMemBuf, DirLogger.memBuf, hbf]
  · exact DirLogger.flush_one opts tb F hash _ sorted es hes hbp htp hF hnees
      hkeyses hbuf hutil
  · exact openDir_c1 opts es hsc hvc hil hml
  · exact readSerial_c1 opts es k v kh hsc hvc huk hstrict hmemes hnr

/-- Options of the concrete round-trip run: checksums written and not
verified, unique keys, generous block capacity, no filter. -/
def c1Opts : DirOptions :=
  { blockSize := 64, blockUtilized := 1024, blockBuffer := 8192,
    blockPadding := false, indexBuffer := 4, tailPadding := false,
    skipChecksums := false, verifyChecksums := false, uniqueKeys := true,
    nonBlocking := false, parallelReads := false, bfBitsPerKey := 0 }

set_option maxHeartbeats 40000000 in
theorem round_trip_one_block_witness :
    ∃ d1 dfin dir,
      dirAddAll (fun _ => 0)
        (DirLogger.create c1Opts 0 1000 0 ⟨[], false⟩ ⟨[], false⟩)
        [([97], [88])]
        = some (Status.ok, d1) ∧
      d1.flush (fun _ => 0) [0] false true true = some (Status.ok, dfin) ∧
      Dir.openDir c1Opts dfin.tl.dataSink.data dfin.tl.indxSink.data
        = .ok dir ∧
      dir.readSerial [97] 0 = .ok [88] :=
  round_trip_one_block c1Opts 0 1000 0 0 (fun _ => 0) [([97], [88])] [0] [97] [88]
    (by decide) (by decide) (by decide) (by decide) (by decide) (by decide)
    (by decide) (by decide) (by decide) (by decide) (by decide) (by decide)
    (by decide) (by decide) (by decide) (by decide) (by decide) (by decide)

deriving instance DecidableEq for DirLogger

/-- Options of the failing round-trip run: a harsh utilization target
so that three unique keys span two data blocks of one commit batch. -/
def c1BugOpts : DirOptions := { exOptsBase with blockUtilized := 20 }

/-- Three unique non-empty keys, already in ascending order. -/
def c1BugPairs : List (Bytes × Bytes) :=
  [([97], [120]), ([98], [121]), ([99], [122])]

def c1BugD0 : DirLogger :=
  DirLogger.create c1BugOpts 0 1000 0 ⟨[], false⟩ ⟨[], false⟩

def c1BugD1 : DirLogger :=
  ((dirAddAll (fun _ => 0) c1BugD0 c1BugPairs).getD (Status.ok, c1BugD0)).2

def c1BugFin : DirLogger :=
  ((c1BugD1.flush (fun _ => 0) [0, 4, 8] false true true).getD
    (Status.ok, c1BugD1)).2

def c1BugDir : Dir :=
  (Dir.openDir c1BugOpts c1BugFin.tl.dataSink.data
    c1BugFin.tl.indxSink.data).toOption.getD ⟨c1BugOpts, 0, [], [], []⟩

set_option maxHeartbeats 40000000 in
/-- C1, the failing run: three unique pairs are added and flushed with
epoch_flush set; every step reports OK and the directory opens, the
keys of the first data block read back their values, but reading the
third key - the sole occupant of the second data block - returns the
empty value instead of 122, because its committed index entry stores
the accumulated handle_encoding whose decodable handle addresses the
first block. -/
theorem C1_round_trip_code_bug :
    c1BugPairs.Pairwise (fun a b => a.1 ≠ b.1) ∧
    (∀ e ∈ c1BugPairs, e.1 ≠ []) ∧
    ([99], [122]) ∈ c1BugPairs ∧
    dirAddAll (fun _ => 0) c1BugD0 c1BugPairs = some (Status.ok, c1BugD1) ∧
    SortOutcome c1BugD1.memBuf [0, 4, 8] ∧
    c1BugD1.flush (fun _ => 0) [0, 4, 8] false true true
      = some (Status.ok, c1BugFin) ∧
    Dir.openDir c1BugOpts c1BugFin.tl.dataSink.data c1BugFin.tl.indxSink.data
      = .ok c1BugDir ∧
    c1BugDir.readSerial [97] 0 = .ok [120] ∧
    c1BugDir.readSerial [99] 0 = .ok [] := by
  exact ⟨by decide, by decide, by decide, by decide, by decide, by decide,
    by decide, by decide, by decide⟩

end Plfsio
